import Mathlib

/-!
# Static Huffman coder: embedding of `huffman_core.c`, `huffman_encode_decode.c` and `func.c`

Files are modelled by their contents, a list of bytes.  Machine integers are
natural numbers; the `uint32_t` operations of the source are reduced modulo
`2 ^ 32` where the source can wrap.  A bit-string of a code (`char*` made of the
characters `'0'` and `'1'`) is a list of booleans: `false` is `'0'`, `true` is `'1'`.
A `NULL` code is `none`.
-/

namespace Huffman

/-- Byte value, the `unsigned char` of the source. -/
abbrev Byte := Fin 256

/-- Number of values of a `uint32_t`. -/
def U32 : Nat := 4294967296

/-- Frequency table `uint32_t freq[256]`. -/
abbrev FreqTable := Byte → Nat

/-- Code table `char* codes[256]`; `none` is a `NULL` entry. -/
abbrev CodeTable := Byte → Option (List Bool)

/-- The `struct Node` of `huffman.h`; `null` is the `NULL` pointer. -/
inductive Node where
  | null : Node
  | mk (symbol : Byte) (freq : Nat) (left right : Node) : Node
  deriving DecidableEq, Repr

/-- The field `node->freq` (read only on nodes that are not `NULL`). -/
def Node.freq : Node → Nat
  | .null => 0
  | .mk _ f _ _ => f

/-- The function `create_node`: a node with both children `NULL`. -/
def create_node (symbol : Byte) (freq : Nat) : Node :=
  .mk symbol freq .null .null

/-- All byte values in ascending order: the range of `for (int i = 0; i < 256; i++)`. -/
def symbols : List Byte := List.finRange 256

/-- The function `count_frequencies` on the contents of a file that could be opened:
`freq[c]++` for every byte, on `uint32_t` counters. -/
def count_frequencies (file : List Byte) : FreqTable :=
  file.foldl (fun freq c => Function.update freq c ((freq c + 1) % U32)) (fun _ => 0)

/-- One pass of the inner loop of `sort_nodes`: `k` compare-and-swap steps on
adjacent entries, starting at index 0. -/
def bubble_pass : Nat → List Node → List Node
  | k + 1, a :: b :: rest =>
    if a.freq > b.freq then b :: bubble_pass k (a :: rest)
    else a :: bubble_pass k (b :: rest)
  | _, nodes => nodes

/-- The outer loop of `sort_nodes` from index `i` on: `m` passes are left, pass
`i` makes `n - i - 1` comparisons. -/
def sort_passes (n : Nat) : Nat → Nat → List Node → List Node
  | 0, _, nodes => nodes
  | m + 1, i, nodes => sort_passes n m (i + 1) (bubble_pass (n - i - 1) nodes)

/-- The function `sort_nodes(nodes, n)`: bubble sort by frequency. -/
def sort_nodes (nodes : List Node) (n : Nat) : List Node :=
  sort_passes n (n - 1) 0 nodes

/-- The loop `while (n > 1)` of `build_huffman_tree`; the list holds the first
`n` entries of the array `nodes`. -/
def merge_loop : Nat → List Node → List Node
  | n + 2, nodes =>
    match sort_nodes nodes (n + 2) with
    | left :: right :: rest =>
      merge_loop (n + 1)
        (Node.mk 0 ((left.freq + right.freq) % U32) left right :: rest)
    | sorted => sorted
  | _, nodes => nodes

/-- The function `build_huffman_tree(nodes, &node_count)` with `n = *node_count`
the length of `nodes`. -/
def build_huffman_tree (nodes : List Node) : Node :=
  match nodes with
  | [] => .null
  | [only] => .mk 0 only.freq only .null
  | _ => (merge_loop nodes.length nodes).headD .null

/-- The function `generate_codes`; `path` is `buffer[0 .. depth)`. -/
def generate_codes : Node → List Bool → CodeTable → CodeTable
  | .null, _, codes => codes
  | .mk symbol _ .null .null, path, codes => Function.update codes symbol (some path)
  | .mk _ _ left right, path, codes =>
    generate_codes right (path ++ [true]) (generate_codes left (path ++ [false]) codes)

/-- The leaves `create_node((unsigned char)i, freq[i])` for the `i` with
`freq[i] != 0`, in ascending order of `i`. -/
def make_leaves (freq : FreqTable) : List Node :=
  (symbols.filter (fun i => freq i ≠ 0)).map (fun i => create_node i (freq i))

/-- The counter `unique`: the number of `i` with `freq[i] != 0`. -/
def count_unique (freq : FreqTable) : Nat :=
  (symbols.filter (fun i => freq i ≠ 0)).length

/-- The function `build_huffman_dictionary` of `huffman_core.c`. -/
def build_huffman_dictionary (freq : FreqTable) : CodeTable :=
  let codes : CodeTable := fun _ => none
  if count_unique freq = 0 then codes
  else if count_unique freq = 1 then
    match symbols.find? (fun i => decide (freq i > 0)) with
    | some i => Function.update codes i (some [false])
    | none => codes
  else generate_codes (build_huffman_tree (make_leaves freq)) [] codes

/-- A `uint32_t` as `fwrite` stores it (little-endian host). -/
def write_u32 (x : Nat) : List Byte :=
  [Fin.ofNat x, Fin.ofNat (x / 256), Fin.ofNat (x / 65536), Fin.ofNat (x / 16777216)]

/-- Reading a `uint32_t` with `fread`: `none` when fewer than four bytes are left. -/
def read_u32 : List Byte → Option (Nat × List Byte)
  | b0 :: b1 :: b2 :: b3 :: rest =>
    some (b0.val + 256 * b1.val + 65536 * b2.val + 16777216 * b3.val, rest)
  | _ => none

/-- The header written by step 3 of `encode_file`. -/
def write_header (freq : FreqTable) : List Byte :=
  write_u32 (count_unique freq) ++
    (symbols.filter (fun i => freq i ≠ 0)).flatMap (fun i => i :: write_u32 (freq i))

/-- State of the packing loop of `encode_file`. -/
structure EncState where
  byte : Nat
  bit_count : Nat
  out : List Byte
  deriving DecidableEq, Repr

/-- The loop `for (int i = 0; code[i] != '\0'; i++)` of `encode_file`. -/
def emit_code : List Bool → EncState → EncState
  | [], st => st
  | c :: code, st =>
    let byte := if c then st.byte ||| (1 <<< (7 - st.bit_count)) else st.byte
    let bit_count := st.bit_count + 1
    if bit_count = 8 then
      emit_code code { byte := 0, bit_count := 0, out := st.out ++ [Fin.ofNat byte] }
    else
      emit_code code { byte := byte, bit_count := bit_count, out := st.out }

/-- The loop `while ((c = fgetc(in)) != EOF)` of `encode_file`; the second
component is the symbol of the message `no code for symbol`, if the loop broke. -/
def encode_loop (codes : CodeTable) : List Byte → EncState → EncState × Option Byte
  | [], st => (st, none)
  | c :: rest, st =>
    match codes c with
    | none => (st, some c)
    | some code => encode_loop codes rest (emit_code code st)

/-- The final `if (bit_count > 0) fputc(byte, out)`. -/
def flush (st : EncState) : List Byte :=
  if st.bit_count > 0 then st.out ++ [Fin.ofNat st.byte] else st.out

/-- What `encode_file` leaves behind. -/
structure EncodeResult where
  container : List Byte
  no_code : Option Byte
  deriving DecidableEq, Repr

/-- The function `encode_file` on the contents of a readable input file. -/
def encode_file (input : List Byte) : EncodeResult :=
  let freq := count_frequencies input
  let codes := build_huffman_dictionary freq
  let r := encode_loop codes input { byte := 0, bit_count := 0, out := write_header freq }
  { container := flush r.1, no_code := r.2 }

/-- The loop over the header entries of `read_frequencies_from_huff`. -/
def read_entries : Nat → List Byte → FreqTable → FreqTable
  | 0, _, freq => freq
  | _ + 1, [], freq => freq
  | k + 1, c :: rest, freq =>
    match read_u32 rest with
    | none => freq
    | some (f, rest') => read_entries k rest' (Function.update freq c f)

/-- The function `read_frequencies_from_huff` on the contents of the file. -/
def read_frequencies_from_huff (file : List Byte) : FreqTable :=
  match read_u32 file with
  | none => fun _ => 0
  | some (symbol_count, rest) => read_entries symbol_count rest (fun _ => 0)

/-- Step 7 of `decode_file`, the entries: each round reads one byte and four bytes. -/
def skip_entries : Nat → List Byte → List Byte
  | 0, file => file
  | k + 1, file => skip_entries k (file.drop 5)

/-- Step 7 of `decode_file`: the bytes left after the header. -/
def skip_header (file : List Byte) : List Byte :=
  match read_u32 file with
  | none => []
  | some (symbol_count, rest) => skip_entries symbol_count rest

/-- State of the decoding loop of `decode_file`. -/
structure DecState where
  current : Node
  decoded : Nat
  out : List Byte
  deriving DecidableEq, Repr

/-- The body of the inner decoding loop for one bit: `current = bit ? current->right :
current->left`, then the leaf test; `none` is a dereference of `NULL`. -/
def decode_step (root : Node) (bit : Nat) (st : DecState) : Option DecState :=
  match st.current with
  | .null => none
  | .mk _ _ left right =>
    match (if bit ≠ 0 then right else left) with
    | .null => none
    | .mk symbol _ .null .null =>
      some { current := root, decoded := st.decoded + 1, out := st.out ++ [symbol] }
    | next => some { st with current := next }

/-- The loop `for (int i = 0; i < 8 && decoded < total_symbols; i++)` over the
remaining values of `i`, with `bit = (byte >> (7 - i)) & 1`. -/
def decode_byte (root : Node) (total : Nat) (byte : Byte) :
    List Nat → DecState → Option DecState
  | [], st => some st
  | i :: is, st =>
    if st.decoded < total then
      match decode_step root ((byte.val >>> (7 - i)) &&& 1) st with
      | none => none
      | some st' => decode_byte root total byte is st'
    else some st

/-- The loop `while (decoded < total_symbols && (byte = fgetc(in)) != EOF)`. -/
def decode_loop (root : Node) (total : Nat) : List Byte → DecState → Option DecState
  | [], st => some st
  | byte :: rest, st =>
    if st.decoded < total then
      match decode_byte root total byte (List.range 8) st with
      | none => none
      | some st' => decode_loop root total rest st'
    else some st

/-- Which closing message `decode_file` printed. -/
inductive DecodeStatus where
  | empty_file
  | single_symbol
  | completed
  deriving DecidableEq, Repr

/-- What `decode_file` leaves behind: the output file, the closing message and
whether the count-mismatch warning was printed. -/
structure DecodeResult where
  output : List Byte
  status : DecodeStatus
  warning : Bool
  deriving DecidableEq, Repr

/-- The sum `total_symbols` of `decode_file`. -/
def total_symbols (freq : FreqTable) : Nat :=
  ((symbols.filter (fun i => decide (freq i > 0))).map freq).sum

/-- Step 5 of `decode_file`: the leaves for the `i` with `freq[i] > 0` in
ascending order of `i`, and the tree built from them. -/
def decode_tree (freq : FreqTable) : Node :=
  build_huffman_tree
    ((symbols.filter (fun i => decide (freq i > 0))).map (fun i => create_node i (freq i)))

/-- The function `decode_file` on the contents of the encoded file; `none` is a
dereference of `NULL` in the decoding loop.  In the single-symbol branch `symbol` starts
as `-1`, which `fputc` would write as the byte 255 if no entry were positive. -/
def decode_file (file : List Byte) : Option DecodeResult :=
  let freq := read_frequencies_from_huff file
  let unique := (symbols.filter (fun i => decide (freq i > 0))).length
  let total := total_symbols freq
  if unique = 0 ∨ total = 0 then
    some { output := [], status := .empty_file, warning := false }
  else if unique = 1 then
    let symbol := (symbols.find? (fun i => decide (freq i > 0))).getD 255
    some { output := List.replicate total symbol, status := .single_symbol, warning := false }
  else
    let root := decode_tree freq
    match decode_loop root total (skip_header file) { current := root, decoded := 0, out := [] } with
    | none => none
    | some st =>
      some { output := st.out, status := .completed, warning := decide (st.decoded ≠ total) }

/-! ## Notions used to state the properties -/

/-- The bits the decoder reads from one byte, in the order it reads them:
`(byte >> (7 - i)) & 1` for `i = 0 .. 7`. -/
def bits_of_byte (byte : Byte) : List Bool :=
  (List.range 8).map (fun i => decide ((byte.val >>> (7 - i)) &&& 1 ≠ 0))

/-- The bits of a sequence of bytes, most significant bit of each byte first. -/
def unpack_bits (bytes : List Byte) : List Bool :=
  bytes.flatMap bits_of_byte

/-- Value of a bit-string read as a binary numeral, first bit most significant. -/
def bits_value (bits : List Bool) : Nat :=
  bits.foldl (fun acc b => 2 * acc + (if b then 1 else 0)) 0

/-- The byte that holds up to eight bits, first bit in the most significant
position, the unused low bits zero. -/
def byte_of_bits (bits : List Bool) : Byte :=
  Fin.ofNat (bits_value bits * 2 ^ (8 - bits.length))

/-- Packing of a bit-string as the specification words it: eight bits per byte,
first bit most significant, a final partial byte padded with zero bits;
`⌈B / 8⌉` bytes for `B` bits. -/
def pack_bits (bits : List Bool) : List Byte :=
  (List.range ((bits.length + 7) / 8)).map
    (fun j => byte_of_bits ((bits.drop (8 * j)).take 8))

/-- The decoding loop seen bit by bit: the body `decode_step` runs on each bit
while `decoded < total`. -/
def decode_bits (root : Node) (total : Nat) : List Bool → DecState → Option DecState
  | [], st => some st
  | b :: bs, st =>
    if st.decoded < total then
      match decode_step root (if b then 1 else 0) st with
      | none => none
      | some st' => decode_bits root total bs st'
    else some st

/-- Full binary trees: a node has no child (a leaf) or two children that are
themselves full trees. -/
inductive Full : Node → Prop where
  | leaf (symbol : Byte) (freq : Nat) : Full (.mk symbol freq .null .null)
  | node (symbol : Byte) (freq : Nat) (left right : Node) :
      Full left → Full right → Full (.mk symbol freq left right)

/-- The symbols at the leaves of a tree, from left to right. -/
def leaf_symbols : Node → List Byte
  | .null => []
  | .mk symbol _ .null .null => [symbol]
  | .mk _ _ left right => leaf_symbols left ++ leaf_symbols right

/-- The relation `IsPath t bits s`: walking `bits` from `t` (left on `false`, right on `true`) ends
exactly on a leaf that carries the symbol `s`. -/
inductive IsPath : Node → List Bool → Byte → Prop where
  | here (symbol : Byte) (freq : Nat) : IsPath (.mk symbol freq .null .null) [] symbol
  | left (symbol : Byte) (freq : Nat) (left right : Node) (bits : List Bool) (s : Byte) :
      IsPath left bits s → IsPath (.mk symbol freq left right) (false :: bits) s
  | right (symbol : Byte) (freq : Nat) (left right : Node) (bits : List Bool) (s : Byte) :
      IsPath right bits s → IsPath (.mk symbol freq left right) (true :: bits) s

/-- Nodes with two children that are full trees. -/
def Internal (t : Node) : Prop :=
  ∃ s f l r, t = .mk s f l r ∧ Full l ∧ Full r

/-- The byte values that occur in `S`, in ascending order. -/
def distinct_symbols (S : List Byte) : List Byte :=
  symbols.filter (fun s => decide (s ∈ S))

/-- An input in which the byte 0 occurs `2 ^ 32` times, followed by one byte 1. -/
def wrapped_input : List Byte := List.replicate 4294967296 0 ++ [1]

/-- The input of the concrete scenario, the bytes of `"aaaabbc"`. -/
def aaaabbc : List Byte := [97, 97, 97, 97, 98, 98, 99]

/-- The start state of the decoding loop. -/
def decode_start (root : Node) : DecState :=
  { current := root, decoded := 0, out := [] }

/-- The working set is in non-decreasing order of frequency. -/
def SortedByFreq (nodes : List Node) : Prop :=
  nodes.Pairwise (fun a b => a.freq ≤ b.freq)

/-- The leaf nodes of a tree, from left to right. -/
def leaf_nodes : Node → List Node
  | .null => []
  | .mk symbol freq .null .null => [.mk symbol freq .null .null]
  | .mk _ _ left right => leaf_nodes left ++ leaf_nodes right

/-- The number of nodes of a tree that have a child. -/
def count_internal : Node → Nat
  | .null => 0
  | .mk _ _ .null .null => 0
  | .mk _ _ left right => 1 + count_internal left + count_internal right

/-- The node reached from `t` by walking `path`, left on `false` and right on `true`;
`null` when the walk leaves the tree. -/
def subtree : Node → List Bool → Node
  | t, [] => t
  | .null, _ :: _ => .null
  | .mk _ _ left right, b :: path => subtree (if b then right else left) path

/-- Leaves: nodes with both children `NULL`, the test `!node->left && !node->right`. -/
def is_leaf : Node → Bool
  | .mk _ _ .null .null => true
  | _ => false

/-- The longest prefix of `S` whose codes fit in `budget` bits. -/
def fit_symbols (code : Byte → List Bool) : Nat → List Byte → List Byte
  | _, [] => []
  | budget, s :: S =>
    if (code s).length ≤ budget then s :: fit_symbols code (budget - (code s).length) S else []

/-- The function `count_frequencies(filename)` of `huffman_core.c` with the outcome of
`fopen`: `none` as argument is a file that cannot be opened, `none` as result is the
returned `NULL`.  Allocation is taken to succeed. -/
def count_frequencies_file : Option (List Byte) → Option FreqTable
  | none => none
  | some file => some (count_frequencies file)

/-! ## The standalone implementation `func.c`

`create_node`, `sort_nodes` and `build_huffman_tree` of `func.c` are the same text as in
`huffman_core.c` and share their definitions above. -/

/-- The function `generate_codes` of `func.c`: both children are visited without a test,
the `NULL` case returns at once. -/
def func_generate_codes : Node → List Bool → CodeTable → CodeTable
  | .null, _, codes => codes
  | .mk symbol _ .null .null, path, codes => Function.update codes symbol (some path)
  | .mk _ _ left right, path, codes =>
    func_generate_codes right (path ++ [true])
      (func_generate_codes left (path ++ [false]) codes)

/-- The function `build_huffman_dictionary` of `func.c`: no special case for one symbol. -/
def func_build_huffman_dictionary (freq : FreqTable) : CodeTable :=
  let codes : CodeTable := fun _ => none
  if count_unique freq = 0 then codes
  else func_generate_codes (build_huffman_tree (make_leaves freq)) [] codes

/-- The packing loop of `encode_file` of `func.c`: `codes[c]` is read without a `NULL`
test; `none` is the dereference of a `NULL` code. -/
def func_encode_loop (codes : CodeTable) : List Byte → EncState → Option EncState
  | [], st => some st
  | c :: rest, st =>
    match codes c with
    | none => none
    | some code => func_encode_loop codes rest (emit_code code st)

/-- The function `encode_file(input, output, freq)` of `func.c` on the contents of the
input file: the bytes written, `none` when a `NULL` code is dereferenced. -/
def func_encode_file (input : List Byte) (freq : FreqTable) : Option (List Byte) :=
  let codes := func_build_huffman_dictionary freq
  match func_encode_loop codes input { byte := 0, bit_count := 0, out := write_header freq } with
  | none => none
  | some st => some (flush st)

/-- The entry loop of `read_frequencies_from_huff` of `func.c`: no result of `fgetc` or
`fread` is tested; `none` stands for the use of the values they leave undefined at the
end of the file. -/
def func_read_entries : Nat → List Byte → FreqTable → Option FreqTable
  | 0, _, freq => some freq
  | _ + 1, [], _ => none
  | k + 1, c :: rest, freq =>
    match read_u32 rest with
    | none => none
    | some (f, rest') => func_read_entries k rest' (Function.update freq c f)

/-- The function `read_frequencies_from_huff` of `func.c` on the contents of the file. -/
def func_read_frequencies_from_huff (file : List Byte) : Option FreqTable :=
  match read_u32 file with
  | none => none
  | some (symbol_count, rest) => func_read_entries symbol_count rest (fun _ => 0)

/-- The body of the bit loop of `decode_with_tree`: the cursor and the bytes written;
`none` is a dereference of `NULL`. -/
def func_decode_step (root : Node) (bit : Nat) (st : Node × List Byte) :
    Option (Node × List Byte) :=
  match st.1 with
  | .null => none
  | .mk _ _ left right =>
    match (if bit ≠ 0 then right else left) with
    | .null => none
    | .mk symbol _ .null .null => some (root, st.2 ++ [symbol])
    | next => some (next, st.2)

/-- The loop `for (int i = 0; i < 8; i++)` of `decode_with_tree`. -/
def func_decode_byte (root : Node) (byte : Byte) :
    List Nat → Node × List Byte → Option (Node × List Byte)
  | [], st => some st
  | i :: is, st =>
    match func_decode_step root ((byte.val >>> (7 - i)) &&& 1) st with
    | none => none
    | some st' => func_decode_byte root byte is st'

/-- The loop `while ((byte = fgetc(in)) != EOF && bytes_read < file_size)` of
`decode_with_tree`. -/
def func_decode_loop (root : Node) (file_size : Int) :
    List Byte → Nat → Node × List Byte → Option (Node × List Byte)
  | [], _, st => some st
  | byte :: rest, bytes_read, st =>
    if (bytes_read : Int) < file_size then
      match func_decode_byte root byte (List.range 8) st with
      | none => none
      | some st' => func_decode_loop root file_size rest (bytes_read + 1) st'
    else some st

/-- How `decode_file` of `func.c` ends. -/
inductive FuncDecodeResult where
  | undefined
  | no_frequency_data
  | written (output : List Byte)
  deriving DecidableEq, Repr

/-- The function `decode_file` of `func.c` on the contents of the encoded file. -/
def func_decode_file (file : List Byte) : FuncDecodeResult :=
  match func_read_frequencies_from_huff file with
  | none => .undefined
  | some freq =>
    if count_unique freq = 0 then .no_frequency_data
    else
      let root := build_huffman_tree (make_leaves freq)
      match read_u32 file with
      | none => .undefined
      | some (symbol_count, _) =>
        let data_size : Int := (file.length : Int) - (4 + symbol_count * 5 : Nat)
        match func_decode_loop root data_size (file.drop (4 + symbol_count * 5)) 0 (root, []) with
        | none => .undefined
        | some st => .written st.2

/-- Header entries `(symbol, frequency)` as they are laid out in a container. -/
def write_entries (entries : List (Byte × Nat)) : List Byte :=
  entries.flatMap (fun e => e.1 :: write_u32 e.2)

/-- The table obtained by the assignments `freq[c] = f` for the entries in order. -/
def table_of_entries (entries : List (Byte × Nat)) : FreqTable :=
  entries.foldl (fun g e => Function.update g e.1 e.2) (fun _ => 0)

/-- Trees in which every node has no child or two children and the frequency of a node
with children is the exact sum of the frequencies of its children. -/
inductive Weighted : Node → Prop where
  | leaf (symbol : Byte) (freq : Nat) : Weighted (.mk symbol freq .null .null)
  | node (symbol : Byte) (freq : Nat) (left right : Node) :
      Weighted left → Weighted right → freq = left.freq + right.freq →
      Weighted (.mk symbol freq left right)

/-- Whenever a child in `R1` is lighter than a child in `R2`, the parent of the first is
lighter than the parent of the second.  A child is a node at a path `p ++ [b]`, its
parent the node at `p`. -/
def EdgeLt (R1 R2 : Node) : Prop :=
  ∀ (p1 : List Bool) (b1 : Bool) (p2 : List Bool) (b2 : Bool),
    subtree R1 (p1 ++ [b1]) ≠ .null → subtree R2 (p2 ++ [b2]) ≠ .null →
    (subtree R1 (p1 ++ [b1])).freq < (subtree R2 (p2 ++ [b2])).freq →
    (subtree R1 p1).freq < (subtree R2 p2).freq

/-- The relation `EdgeLt` in both directions. -/
def Cross (R1 R2 : Node) : Prop := EdgeLt R1 R2 ∧ EdgeLt R2 R1

/-- Inside one tree: a lighter child has the same parent or a lighter parent. -/
def Within (R : Node) : Prop :=
  ∀ (p1 : List Bool) (b1 : Bool) (p2 : List Bool) (b2 : Bool),
    subtree R (p1 ++ [b1]) ≠ .null → subtree R (p2 ++ [b2]) ≠ .null →
    (subtree R (p1 ++ [b1])).freq < (subtree R (p2 ++ [b2])).freq →
    p1 = p2 ∨ (subtree R p1).freq < (subtree R p2).freq

/-- No node below a root of the working set is heavier than a root of the working set. -/
def BelowRoots (forest : List Node) : Prop :=
  ∀ R ∈ forest, ∀ (p : List Bool) (b : Bool), subtree R (p ++ [b]) ≠ .null →
    ∀ R' ∈ forest, (subtree R (p ++ [b])).freq ≤ R'.freq

/-- The table of the tie-break example: `a` once, `b` once, `c` twice. -/
def abc_table : FreqTable :=
  fun s => if s = 97 then 1 else if s = 98 then 1 else if s = 99 then 2 else 0

/-- The indices of the path buffer that `generate_codes(node, buffer, depth, codes)` writes:
`buffer[depth] = 0` on a leaf, `buffer[depth] = '0'` before the call on a left child and
`buffer[depth] = '1'` before the call on a right child. -/
def buffer_writes : Node → Nat → List Nat
  | .null, _ => []
  | .mk _ _ .null .null, depth => [depth]
  | .mk _ _ left right, depth =>
    (if left ≠ .null then depth :: buffer_writes left (depth + 1) else []) ++
      (if right ≠ .null then depth :: buffer_writes right (depth + 1) else [])

/-- The nodes `current` that the decoding loop dereferences, one for each execution of
`current = bit ? current->right : current->left`, in the order of the steps. -/
def decode_cursors (root : Node) (total : Nat) : List Bool → DecState → List Node
  | [], _ => []
  | b :: bs, st =>
    if st.decoded < total then
      st.current ::
        (match decode_step root (if b then 1 else 0) st with
         | none => []
         | some st' => decode_cursors root total bs st')
    else []

/-- The sum of the frequencies of the nodes of a tree that have a child. -/
def inner_weight : Node → Nat
  | .null => 0
  | .mk _ _ .null .null => 0
  | .mk _ freq left right => freq + inner_weight left + inner_weight right

/-- The weighted path length of a tree whose root is at depth `d`: every leaf counts its
frequency times its depth. -/
def weighted_path_length : Node → Nat → Nat
  | .null, _ => 0
  | .mk _ freq .null .null, d => freq * d
  | .mk _ _ left right, d =>
    weighted_path_length left (d + 1) + weighted_path_length right (d + 1)

/-- The Kraft sum of a list of code lengths, the sum of `2 ^ (-l)`. -/
def kraft (lengths : List Nat) : ℚ :=
  (lengths.map (fun l => (1 / 2 : ℚ) ^ l)).sum

/-- The cost of a list of pairs (weight, length): the sum of weight times length. -/
def cost (asg : List (Nat × Nat)) : Nat :=
  (asg.map (fun e => e.1 * e.2)).sum

/-- The encoded length in bits of data with the frequencies `F` when the symbol `s` is
written with `len s` bits: the sum over all symbols of `F[s] * len s`. -/
def encoded_length (F : FreqTable) (len : Byte → Nat) : Nat :=
  (symbols.map (fun s => F s * len s)).sum

/-- An assignment of bit-strings to the symbols of `L` in which no string is a prefix
of the string of another symbol. -/
def PrefixFreeOn (L : List Byte) (C : Byte → List Bool) : Prop :=
  ∀ s ∈ L, ∀ t ∈ L, s ≠ t → ¬ C s <+: C t

/-- The words of `ws` that start with the bit `b`, without that bit. -/
def tails (b : Bool) (ws : List (List Bool)) : List (List Bool) :=
  ws.filterMap (fun w => match w with
    | [] => none
    | c :: t => if c = b then some t else none)

/-- A prefix-free assignment used as an example: `a` gets `0`, `b` gets `10`, every other
symbol `11`. -/
def example_code : Byte → List Bool :=
  fun s => if s = 97 then [false] else if s = 98 then [true, false] else [true, true]

/-! # Lemmas -/

/-! ## Frequency counting -/

theorem foldl_count_aux (S : List Byte) :
    ∀ (init : FreqTable), (∀ b, init b < U32) → ∀ b,
      (S.foldl (fun freq c => Function.update freq c ((freq c + 1) % U32)) init) b
        = (init b + S.count b) % U32 := by
  induction S with
  | nil => intro init h b; simp [Nat.mod_eq_of_lt (h b)]
  | cons c S ih =>
    intro init h b
    rw [List.foldl_cons, ih]
    · by_cases hb : b = c
      · subst hb
        simp only [Function.update_same, List.count_cons_self]
        rw [Nat.mod_add_mod]; congr 1; omega
      · have hcb : ¬ (c == b) = true := fun hh => hb (beq_iff_eq.mp hh).symm
        simp [Function.update_noteq hb, List.count_cons, hcb]
    · intro x
      by_cases hx : x = c
      · subst hx; simp only [Function.update_same]; exact Nat.mod_lt _ (by decide)
      · simp only [Function.update_noteq hx]; exact h x

theorem count_frequencies_mod (S : List Byte) (b : Byte) :
    count_frequencies S b = S.count b % U32 := by
  unfold count_frequencies
  rw [foldl_count_aux S (fun _ => 0) (fun _ => by simp [U32]) b]; simp

theorem count_frequencies_eq (S : List Byte) (h : ∀ b, S.count b < U32) (b : Byte) :
    count_frequencies S b = S.count b := by
  rw [count_frequencies_mod, Nat.mod_eq_of_lt (h b)]


/-! ## Header -/

theorem read_u32_write_u32 (x : Nat) (hx : x < U32) (rest : List Byte) :
    read_u32 (write_u32 x ++ rest) = some (x, rest) := by
  simp only [write_u32, List.cons_append, List.nil_append, read_u32, Fin.ofNat, Option.some.injEq,
    Prod.mk.injEq, and_true]
  simp only [U32] at hx
  omega

theorem symbols_length : symbols.length = 256 := by simp [symbols]

theorem count_unique_le (freq : FreqTable) : count_unique freq ≤ 256 := by
  unfold count_unique
  exact (List.length_filter_le _ _).trans (le_of_eq symbols_length)

theorem read_entries_flatMap (F : FreqTable) (hF : ∀ i, F i < U32) (rest : List Byte) :
    ∀ (L : List Byte) (g : FreqTable),
      read_entries L.length (L.flatMap (fun i => i :: write_u32 (F i)) ++ rest) g
        = fun b => if b ∈ L then F b else g b := by
  intro L
  induction L with
  | nil => intro g; simp [read_entries]
  | cons c L ih =>
    intro g
    have e : (c :: L).flatMap (fun i => i :: write_u32 (F i)) ++ rest
        = c :: (write_u32 (F c) ++ (L.flatMap (fun i => i :: write_u32 (F i)) ++ rest)) := by
      rw [List.flatMap_cons, List.cons_append, List.cons_append, List.append_assoc]
    rw [e, List.length_cons, read_entries, read_u32_write_u32 _ (hF c)]
    simp only
    rw [ih]
    funext b
    by_cases hb : b = c
    · subst hb; simp
    · by_cases hL : b ∈ L <;> simp [hb, hL, Function.update_noteq hb]

theorem read_write_header (F : FreqTable) (hF : ∀ i, F i < U32) (payload : List Byte) :
    read_frequencies_from_huff (write_header F ++ payload) = F := by
  unfold read_frequencies_from_huff write_header
  rw [List.append_assoc,
    read_u32_write_u32 _ (lt_of_le_of_lt (count_unique_le F) (by simp [U32]))]
  simp only [count_unique]
  rw [read_entries_flatMap F hF]
  funext b
  simp only [List.mem_filter, symbols, List.mem_finRange, true_and, decide_eq_true_eq]
  by_cases h : F b = 0 <;> simp [h]

theorem skip_entries_append (payload : List Byte) :
    ∀ (k : Nat) (entries : List Byte), entries.length = 5 * k →
      skip_entries k (entries ++ payload) = payload := by
  intro k
  induction k with
  | zero => intro e he; simp at he; simp [he, skip_entries]
  | succ k ih =>
    intro e he
    simp only [skip_entries]
    have h5 : 5 ≤ e.length := by omega
    rw [List.drop_append_of_le_length h5]
    apply ih
    simp; omega

theorem entries_length (F : FreqTable) (L : List Byte) :
    (L.flatMap (fun i => i :: write_u32 (F i))).length = 5 * L.length := by
  induction L with
  | nil => simp
  | cons c L ih =>
    rw [List.flatMap_cons, List.length_append, ih]
    simp [write_u32]; omega

theorem skip_write_header (F : FreqTable) (payload : List Byte) :
    skip_header (write_header F ++ payload) = payload := by
  unfold skip_header write_header
  rw [List.append_assoc,
    read_u32_write_u32 _ (lt_of_le_of_lt (count_unique_le F) (by simp [U32]))]
  simp only [count_unique]
  exact skip_entries_append payload _ _ (entries_length F _)


/-! ## Sorting and tree construction -/

theorem bubble_pass_perm : ∀ (k : Nat) (nodes : List Node), (bubble_pass k nodes).Perm nodes := by
  intro k
  induction k with
  | zero => intro nodes; simp [bubble_pass]
  | succ k ih =>
    intro nodes
    match nodes with
    | [] => simp [bubble_pass]
    | [a] => simp [bubble_pass]
    | a :: b :: rest =>
      simp only [bubble_pass]
      split
      · exact ((ih (a :: rest)).cons b).trans (List.Perm.swap a b rest)
      · exact (ih (b :: rest)).cons a

theorem sort_passes_perm (n : Nat) :
    ∀ (m i : Nat) (nodes : List Node), (sort_passes n m i nodes).Perm nodes := by
  intro m
  induction m with
  | zero => intro i nodes; simp [sort_passes]
  | succ m ih =>
    intro i nodes
    simp only [sort_passes]
    exact (ih _ _).trans (bubble_pass_perm _ _)

theorem sort_nodes_perm (nodes : List Node) (n : Nat) : (sort_nodes nodes n).Perm nodes :=
  sort_passes_perm n _ _ _

theorem Full.ne_null {t : Node} (h : Full t) : t ≠ .null := by
  cases h <;> simp

theorem leaf_symbols_node (symbol : Byte) (freq : Nat) {left : Node} (right : Node)
    (h : Full left) :
    leaf_symbols (.mk symbol freq left right) = leaf_symbols left ++ leaf_symbols right := by
  cases h <;> simp [leaf_symbols]

theorem merge_loop_spec :
    ∀ (n : Nat) (nodes : List Node), nodes.length = n + 1 → (∀ t ∈ nodes, Full t) →
      ∃ t, merge_loop (n + 1) nodes = [t] ∧ Full t ∧
        (leaf_symbols t).Perm (nodes.flatMap leaf_symbols) ∧
        (1 ≤ n → ∃ s f l r, t = .mk s f l r ∧ Full l ∧ Full r) := by
  intro n
  induction n with
  | zero =>
    intro nodes hlen hfull
    match nodes, hlen with
    | [t], _ =>
      refine ⟨t, by simp [merge_loop], hfull t (by simp), by simp, ?_⟩
      intro h; omega
  | succ n ih =>
    intro nodes hlen hfull
    have hperm := sort_nodes_perm nodes (n + 2)
    have hlen2 : (sort_nodes nodes (n + 2)).length = n + 2 := by rw [hperm.length_eq, hlen]
    match hs : sort_nodes nodes (n + 2), hlen2 with
    | l :: r :: rest, hl2 =>
      have hmem : ∀ t ∈ l :: r :: rest, Full t := by
        intro t ht
        exact hfull t (hperm.mem_iff.mp (hs ▸ ht))
      have hl : Full l := hmem l (by simp)
      have hr : Full r := hmem r (by simp)
      have hpar : Full (Node.mk 0 ((l.freq + r.freq) % U32) l r) := Full.node _ _ _ _ hl hr
      have hrest : ∀ t ∈ Node.mk 0 ((l.freq + r.freq) % U32) l r :: rest, Full t := by
        intro t ht
        rcases List.mem_cons.mp ht with h | h
        · exact h ▸ hpar
        · exact hmem t (by simp [h])
      have hlen3 : (Node.mk 0 ((l.freq + r.freq) % U32) l r :: rest).length = n + 1 := by
        simp at hl2 ⊢; omega
      obtain ⟨t, ht, hft, hpt, hint⟩ := ih _ hlen3 hrest
      refine ⟨t, ?_, hft, ?_, ?_⟩
      · rw [merge_loop, hs]; exact ht
      · refine hpt.trans ?_
        rw [List.flatMap_cons, leaf_symbols_node _ _ _ hl]
        have : (l :: r :: rest).flatMap leaf_symbols
            = (leaf_symbols l ++ leaf_symbols r) ++ rest.flatMap leaf_symbols := by
          simp [List.flatMap_cons]
        rw [← this, ← hs]
        exact hperm.flatMap_right _
      · intro _
        by_cases hn : 1 ≤ n
        · exact hint hn
        · have hn0 : n = 0 := by omega
          subst hn0
          match rest, hlen3, ht with
          | [], _, ht =>
            simp [merge_loop] at ht
            exact ⟨_, _, _, _, ht.symm, hl, hr⟩


theorem make_leaves_full (F : FreqTable) : ∀ t ∈ make_leaves F, Full t := by
  intro t ht
  simp only [make_leaves, List.mem_map] at ht
  obtain ⟨i, _, rfl⟩ := ht
  exact Full.leaf _ _

theorem make_leaves_length (F : FreqTable) : (make_leaves F).length = count_unique F := by
  simp [make_leaves, count_unique]

theorem make_leaves_symbols (F : FreqTable) :
    (make_leaves F).flatMap leaf_symbols = symbols.filter (fun i => F i ≠ 0) := by
  unfold make_leaves
  induction symbols.filter (fun i => F i ≠ 0) with
  | nil => simp
  | cons a L ih =>
    rw [List.map_cons, List.flatMap_cons, ih]
    simp [create_node, leaf_symbols]

theorem build_huffman_tree_eq (nodes : List Node) (n : Nat) (h : nodes.length = n + 2) :
    build_huffman_tree nodes = (merge_loop (n + 2) nodes).headD .null := by
  match nodes, h with
  | a :: b :: rest, h => simp only [build_huffman_tree, h]

theorem build_huffman_tree_spec (nodes : List Node) (h2 : 2 ≤ nodes.length)
    (hfull : ∀ t ∈ nodes, Full t) :
    ∃ s f l r, build_huffman_tree nodes = .mk s f l r ∧ Full l ∧ Full r ∧
      (leaf_symbols (.mk s f l r)).Perm (nodes.flatMap leaf_symbols) := by
  obtain ⟨n, hn⟩ : ∃ n, nodes.length = n + 2 := ⟨nodes.length - 2, by omega⟩
  obtain ⟨t, ht, _, hperm, hint⟩ := merge_loop_spec (n + 1) nodes hn hfull
  obtain ⟨s, f, l, r, rfl, hl, hr⟩ := hint (by omega)
  refine ⟨s, f, l, r, ?_, hl, hr, hperm⟩
  rw [build_huffman_tree_eq nodes n hn, ht]; rfl

theorem symbols_nodup : symbols.Nodup := List.nodup_finRange 256

theorem mem_symbols (b : Byte) : b ∈ symbols := List.mem_finRange b

/-! ## Code generation -/

theorem IsPath.not_null {bits : List Bool} {s : Byte} : ¬ IsPath .null bits s := by
  intro h; cases h

theorem generate_codes_node (symbol : Byte) (freq : Nat) {left : Node} (right : Node)
    (h : Full left) (path : List Bool) (codes : CodeTable) :
    generate_codes (.mk symbol freq left right) path codes
      = generate_codes right (path ++ [true]) (generate_codes left (path ++ [false]) codes) := by
  cases h <;> simp [generate_codes]

theorem generate_codes_not_mem {t : Node} (h : Full t) :
    ∀ (path : List Bool) (codes : CodeTable) (s : Byte), s ∉ leaf_symbols t →
      generate_codes t path codes s = codes s := by
  induction h with
  | leaf symbol freq =>
    intro path codes s hs
    simp only [leaf_symbols, List.mem_singleton] at hs
    simp [generate_codes, Function.update_noteq hs]
  | node symbol freq left right hl hr ihl ihr =>
    intro path codes s hs
    rw [leaf_symbols_node _ _ _ hl, List.mem_append, not_or] at hs
    rw [generate_codes_node _ _ _ hl, ihr _ _ _ hs.2, ihl _ _ _ hs.1]

theorem generate_codes_mem {t : Node} (h : Full t) :
    ∀ (path : List Bool) (codes : CodeTable) (s : Byte), s ∈ leaf_symbols t →
      ∃ bits, generate_codes t path codes s = some (path ++ bits) ∧ IsPath t bits s := by
  induction h with
  | leaf symbol freq =>
    intro path codes s hs
    simp only [leaf_symbols, List.mem_singleton] at hs
    subst hs
    exact ⟨[], by simp [generate_codes], IsPath.here _ _⟩
  | node symbol freq left right hl hr ihl ihr =>
    intro path codes s hs
    rw [leaf_symbols_node _ _ _ hl, List.mem_append] at hs
    rw [generate_codes_node _ _ _ hl]
    by_cases hsr : s ∈ leaf_symbols right
    · obtain ⟨bits, hb, hp⟩ := ihr (path ++ [true]) (generate_codes left (path ++ [false]) codes) s hsr
      exact ⟨true :: bits, by simp [hb], IsPath.right _ _ _ _ _ _ hp⟩
    · rw [generate_codes_not_mem hr _ _ _ hsr]
      obtain ⟨bits, hb, hp⟩ := ihl (path ++ [false]) codes s (hs.resolve_right hsr)
      exact ⟨false :: bits, by simp [hb], IsPath.left _ _ _ _ _ _ hp⟩

theorem IsPath.prefix_unique {t : Node} {b1 : List Bool} {s1 : Byte} (h1 : IsPath t b1 s1) :
    ∀ (e : List Bool) (s2 : Byte), IsPath t (b1 ++ e) s2 → s1 = s2 ∧ e = [] := by
  induction h1 with
  | here symbol freq =>
    intro e s2 h2
    cases h2 with
    | here => exact ⟨rfl, rfl⟩
    | left _ _ _ _ _ _ h => exact absurd h IsPath.not_null
    | right _ _ _ _ _ _ h => exact absurd h IsPath.not_null
  | left symbol freq left right bits s _ ih =>
    intro e s2 h2
    cases h2 with
    | left _ _ _ _ _ _ h => exact ih e s2 h
  | right symbol freq left right bits s _ ih =>
    intro e s2 h2
    cases h2 with
    | right _ _ _ _ _ _ h => exact ih e s2 h



/-! ## Decoding -/

theorem decode_step_bool (root : Node) (x : Nat) (st : DecState) :
    decode_step root (if decide (x ≠ 0) then 1 else 0) st = decode_step root x st := by
  by_cases h : x = 0 <;> simp [decode_step, h]

theorem decode_byte_eq_bits (root : Node) (total : Nat) (byte : Byte) :
    ∀ (is : List Nat) (st : DecState),
      decode_byte root total byte is st
        = decode_bits root total
            (is.map (fun i => decide ((byte.val >>> (7 - i)) &&& 1 ≠ 0))) st := by
  intro is
  induction is with
  | nil => intro st; simp [decode_byte, decode_bits]
  | cons i is ih =>
    intro st
    simp only [decode_byte, List.map_cons, decode_bits, decode_step_bool]
    split
    · cases decode_step root ((byte.val >>> (7 - i)) &&& 1) st with
      | none => rfl
      | some st' => exact ih st'
    · rfl

theorem decode_bits_done (root : Node) (total : Nat) (bits : List Bool) (st : DecState)
    (h : total ≤ st.decoded) : decode_bits root total bits st = some st := by
  cases bits with
  | nil => rfl
  | cons b bs => simp [decode_bits, Nat.not_lt.mpr h]

theorem decode_bits_append (root : Node) (total : Nat) (bs : List Bool) :
    ∀ (as : List Bool) (st : DecState),
      decode_bits root total (as ++ bs) st
        = (decode_bits root total as st).bind (decode_bits root total bs) := by
  intro as
  induction as with
  | nil => intro st; simp [decode_bits]
  | cons a as ih =>
    intro st
    simp only [List.cons_append, decode_bits]
    split
    · cases decode_step root (if a then 1 else 0) st with
      | none => rfl
      | some st' => exact ih st'
    · rename_i h
      simp [decode_bits_done root total bs st (Nat.not_lt.mp h)]

theorem decode_loop_eq_bits (root : Node) (total : Nat) :
    ∀ (bytes : List Byte) (st : DecState),
      decode_loop root total bytes st = decode_bits root total (unpack_bits bytes) st := by
  intro bytes
  induction bytes with
  | nil => intro st; simp [decode_loop, unpack_bits, decode_bits]
  | cons b bytes ih =>
    intro st
    have e : unpack_bits (b :: bytes) = bits_of_byte b ++ unpack_bits bytes := by
      simp [unpack_bits]
    rw [e, decode_bits_append, decode_loop]
    split
    · rw [decode_byte_eq_bits]
      have hb : List.map (fun i => decide ((b.val >>> (7 - i)) &&& 1 ≠ 0)) (List.range 8)
          = bits_of_byte b := rfl
      rw [hb]
      cases decode_bits root total (bits_of_byte b) st with
      | none => rfl
      | some st' => exact ih st'
    · rename_i h
      rw [decode_bits_done root total _ st (Nat.not_lt.mp h)]
      simp [decode_bits_done root total _ st (Nat.not_lt.mp h)]

theorem decode_step_leaf (root : Node) (b : Bool) (sy : Byte) (f : Nat) (l r : Node)
    (d : Nat) (o : List Byte) (s : Byte) (f' : Nat)
    (h : (if b then r else l) = .mk s f' .null .null) :
    decode_step root (if b then 1 else 0) { current := .mk sy f l r, decoded := d, out := o }
      = some { current := root, decoded := d + 1, out := o ++ [s] } := by
  cases b <;> simp at h <;> simp [decode_step, h]

theorem decode_step_inner (root : Node) (b : Bool) (sy : Byte) (f : Nat) (l r : Node)
    (d : Nat) (o : List Byte) (s : Byte) (f' : Nat) (x y : Node)
    (h : (if b then r else l) = .mk s f' x y) (hxy : x ≠ .null ∨ y ≠ .null) :
    decode_step root (if b then 1 else 0) { current := .mk sy f l r, decoded := d, out := o }
      = some { current := .mk s f' x y, decoded := d, out := o } := by
  cases b <;> simp at h <;> subst h <;> cases x <;> cases y <;> simp_all [decode_step]

theorem decode_bits_path (root : Node) (total : Nat) {t : Node} {bits : List Bool} {s : Byte}
    (hp : IsPath t bits s) :
    bits ≠ [] → ∀ (rest : List Bool) (d : Nat) (o : List Byte), d < total →
      decode_bits root total (bits ++ rest) { current := t, decoded := d, out := o }
        = decode_bits root total rest { current := root, decoded := d + 1, out := o ++ [s] } := by
  induction hp with
  | here symbol freq => intro h; exact absurd rfl h
  | left symbol freq left right bits s hp ih =>
    intro _ rest d o hd
    simp only [List.cons_append, decode_bits, hd, if_true]
    cases hp with
    | here s' f' =>
      have := decode_step_leaf root false symbol freq (.mk s f' .null .null) right d o s f' (by simp)
      simp only [Bool.false_eq_true, if_false] at this
      simp [this]
    | left s' f' x y bits' _ hx =>
      have hxn : x ≠ .null := fun e => IsPath.not_null (e ▸ hx)
      have := decode_step_inner root false symbol freq (.mk s' f' x y) right d o s' f' x y (by simp)
        (Or.inl hxn)
      simp only [Bool.false_eq_true, if_false] at this
      simp only [Bool.false_eq_true, if_false, this]
      exact ih (by simp) rest d o hd
    | right s' f' x y bits' _ hy =>
      have hyn : y ≠ .null := fun e => IsPath.not_null (e ▸ hy)
      have := decode_step_inner root false symbol freq (.mk s' f' x y) right d o s' f' x y (by simp)
        (Or.inr hyn)
      simp only [Bool.false_eq_true, if_false] at this
      simp only [Bool.false_eq_true, if_false, this]
      exact ih (by simp) rest d o hd
  | right symbol freq left right bits s hp ih =>
    intro _ rest d o hd
    simp only [List.cons_append, decode_bits, hd, if_true]
    cases hp with
    | here s' f' =>
      have := decode_step_leaf root true symbol freq left (.mk s f' .null .null) d o s f' (by simp)
      simp only [if_true] at this
      simp [this]
    | left s' f' x y bits' _ hx =>
      have hxn : x ≠ .null := fun e => IsPath.not_null (e ▸ hx)
      have := decode_step_inner root true symbol freq left (.mk s' f' x y) d o s' f' x y (by simp)
        (Or.inl hxn)
      simp only [if_true] at this
      simp only [if_true, this]
      exact ih (by simp) rest d o hd
    | right s' f' x y bits' _ hy =>
      have hyn : y ≠ .null := fun e => IsPath.not_null (e ▸ hy)
      have := decode_step_inner root true symbol freq left (.mk s' f' x y) d o s' f' x y (by simp)
        (Or.inr hyn)
      simp only [if_true] at this
      simp only [if_true, this]
      exact ih (by simp) rest d o hd

theorem decode_bits_symbols (root : Node) (total : Nat) (code : Byte → List Bool)
    (rest : List Bool) :
    ∀ (S : List Byte) (d : Nat) (o : List Byte),
      (∀ s ∈ S, IsPath root (code s) s ∧ code s ≠ []) → d + S.length ≤ total →
      decode_bits root total (S.flatMap code ++ rest) { current := root, decoded := d, out := o }
        = decode_bits root total rest
            { current := root, decoded := d + S.length, out := o ++ S } := by
  intro S
  induction S with
  | nil => intro d o _ _; simp
  | cons s S ih =>
    intro d o hS hd
    have hs := hS s (by simp)
    simp only [List.length_cons] at hd
    rw [List.flatMap_cons, List.append_assoc,
      decode_bits_path root total hs.1 hs.2 _ d o (by omega),
      ih (d + 1) (o ++ [s]) (fun x hx => hS x (by simp [hx])) (by omega)]
    simp [Nat.add_assoc, Nat.add_comm 1]


/-! ## Bit packing -/

theorem emit_code_append (bs : List Bool) :
    ∀ (as : List Bool) (st : EncState), emit_code (as ++ bs) st = emit_code bs (emit_code as st) := by
  intro as
  induction as with
  | nil => intro st; rfl
  | cons a as ih =>
    intro st
    simp only [List.cons_append, emit_code]
    split <;> exact ih _

theorem encode_loop_all (codes : CodeTable) :
    ∀ (S : List Byte) (st : EncState), (∀ c ∈ S, (codes c).isSome) →
      encode_loop codes S st = (emit_code (S.flatMap (fun c => (codes c).getD [])) st, none) := by
  intro S
  induction S with
  | nil => intro st _; rfl
  | cons c S ih =>
    intro st h
    obtain ⟨code, hc⟩ := Option.isSome_iff_exists.mp (h c (by simp))
    rw [encode_loop, hc, List.flatMap_cons, emit_code_append]
    simp only [hc, Option.getD_some]
    exact ih _ (fun x hx => h x (by simp [hx]))

theorem bits_value_append_singleton (bits : List Bool) (c : Bool) :
    bits_value (bits ++ [c]) = 2 * bits_value bits + (if c then 1 else 0) := by
  simp [bits_value, List.foldl_append]

theorem bits_value_lt (bits : List Bool) : bits_value bits < 2 ^ bits.length := by
  induction bits using List.reverseRecOn with
  | nil => simp [bits_value]
  | append_singleton bits c ih =>
    rw [bits_value_append_singleton, List.length_append, List.length_singleton, Nat.pow_succ]
    split <;> omega

theorem or_bit (v k : Nat) (hk : k < 8) :
    v * 2 ^ (8 - k) ||| (1 <<< (7 - k)) = (2 * v + 1) * 2 ^ (8 - (k + 1)) := by
  have e : 8 - k = (7 - k) + 1 := by omega
  have e' : 8 - (k + 1) = 7 - k := by omega
  rw [Nat.one_shiftLeft, e, e', Nat.mul_comm v, ← Nat.mul_add_lt_is_or (Nat.pow_lt_pow_right (by decide) (Nat.lt_succ_self _)), Nat.pow_succ]
  ring

theorem pack_bits_nil : pack_bits [] = [] := by simp [pack_bits]

theorem pack_bits_short (bits : List Bool) (h0 : bits ≠ []) (h8 : bits.length ≤ 8) :
    pack_bits bits = [byte_of_bits bits] := by
  have hpos : 0 < bits.length := List.length_pos.mpr h0
  have e : (bits.length + 7) / 8 = 1 := by omega
  simp [pack_bits, e, List.range_succ_eq_map, List.take_of_length_le h8]

theorem pack_bits_chunk (chunk rest : List Bool) (h : chunk.length = 8) :
    pack_bits (chunk ++ rest) = byte_of_bits chunk :: pack_bits rest := by
  have e : ((chunk ++ rest).length + 7) / 8 = (rest.length + 7) / 8 + 1 := by
    rw [List.length_append, h]; omega
  unfold pack_bits
  rw [e, List.range_succ_eq_map, List.map_cons, List.map_map]
  congr 1
  · simp [List.take_append_of_le_length (le_of_eq h.symm), List.take_of_length_le (le_of_eq h)]
  · apply List.map_congr_left
    intro j _
    have : 8 * (j + 1) = chunk.length + 8 * j := by omega
    simp only [Function.comp, Nat.succ_eq_add_one, this]
    rw [List.drop_append]

theorem flush_emit_code :
    ∀ (bits pending : List Bool) (st : EncState), pending.length < 8 →
      st.bit_count = pending.length → st.byte = bits_value pending * 2 ^ (8 - pending.length) →
      flush (emit_code bits st) = st.out ++ pack_bits (pending ++ bits) := by
  intro bits
  induction bits with
  | nil =>
    intro pending st h8 hcnt hbyte
    simp only [emit_code, flush, List.append_nil]
    by_cases hp : pending = []
    · subst hp; simp [hcnt, pack_bits_nil]
    · have : 0 < pending.length := List.length_pos.mpr hp
      rw [pack_bits_short pending hp (by omega)]
      simp [hcnt, this, byte_of_bits, hbyte]
  | cons c bits ih =>
    intro pending st h8 hcnt hbyte
    have hb : (if c = true then st.byte ||| (1 <<< (7 - st.bit_count)) else st.byte)
        = bits_value (pending ++ [c]) * 2 ^ (8 - (pending ++ [c]).length) := by
      rw [bits_value_append_singleton, List.length_append, List.length_singleton, hcnt, hbyte]
      cases c
      · have e : 8 - pending.length = (8 - (pending.length + 1)) + 1 := by omega
        simp only [Bool.false_eq_true, if_false, Nat.add_zero]
        rw [e, Nat.pow_succ]; ring
      · simp only [if_true]
        exact or_bit _ _ h8
    have happ : pending ++ c :: bits = (pending ++ [c]) ++ bits := by simp
    simp only [emit_code]
    rw [hb, happ]
    split
    · rename_i h
      have hlen : (pending ++ [c]).length = 8 := by simp; omega
      rw [ih [] _ (by simp) rfl (by simp [bits_value]), pack_bits_chunk _ _ hlen]
      simp [byte_of_bits]
    · rename_i h
      have hlen : (pending ++ [c]).length < 8 := by simp; omega
      rw [ih (pending ++ [c]) _ hlen (by simp [hcnt]) rfl]


theorem bits_value_append_false (bits : List Bool) :
    ∀ m : Nat, bits_value (bits ++ List.replicate m false) = bits_value bits * 2 ^ m := by
  intro m
  induction m with
  | zero => simp
  | succ m ih =>
    rw [List.replicate_succ', ← List.append_assoc, bits_value_append_singleton, ih, Nat.pow_succ]
    simp; ring

theorem bits_of_byte_eight :
    ∀ b0 b1 b2 b3 b4 b5 b6 b7 : Bool,
      bits_of_byte (Fin.ofNat (bits_value [b0, b1, b2, b3, b4, b5, b6, b7]))
        = [b0, b1, b2, b3, b4, b5, b6, b7] := by
  decide

theorem bits_of_byte_of_bits (chunk : List Bool) (h : chunk.length ≤ 8) :
    bits_of_byte (byte_of_bits chunk) = chunk ++ List.replicate (8 - chunk.length) false := by
  have hlen : (chunk ++ List.replicate (8 - chunk.length) false).length = 8 := by simp; omega
  unfold byte_of_bits
  rw [← bits_value_append_false]
  match chunk ++ List.replicate (8 - chunk.length) false, hlen with
  | [b0, b1, b2, b3, b4, b5, b6, b7], _ => exact bits_of_byte_eight _ _ _ _ _ _ _ _

theorem unpack_pack_aux :
    ∀ (n : Nat) (bits : List Bool), bits.length ≤ 8 * n →
      unpack_bits (pack_bits bits)
        = bits ++ List.replicate ((8 - bits.length % 8) % 8) false := by
  intro n
  induction n with
  | zero =>
    intro bits h
    have : bits = [] := List.length_eq_zero.mp (by omega)
    subst this; simp [pack_bits_nil, unpack_bits]
  | succ n ih =>
    intro bits h
    by_cases h0 : bits = []
    · subst h0; simp [pack_bits_nil, unpack_bits]
    · have hpos : 0 < bits.length := List.length_pos.mpr h0
      by_cases h8 : bits.length < 8
      · rw [pack_bits_short bits h0 (by omega)]
        have e : (8 - bits.length % 8) % 8 = 8 - bits.length := by omega
        simp [unpack_bits, bits_of_byte_of_bits bits (by omega), e]
      · have hsplit : bits = bits.take 8 ++ bits.drop 8 := (List.take_append_drop 8 bits).symm
        have htake : (bits.take 8).length = 8 := by simp; omega
        have hdrop : (bits.drop 8).length = bits.length - 8 := by simp
        have e : (8 - bits.length % 8) % 8 = (8 - (bits.drop 8).length % 8) % 8 := by
          rw [hdrop]; omega
        rw [e]
        conv_lhs => rw [hsplit, pack_bits_chunk _ _ htake]
        conv_rhs => rw [hsplit, List.append_assoc]
        have := ih (bits.drop 8) (by rw [hdrop]; omega)
        simp only [unpack_bits, List.flatMap_cons] at this ⊢
        rw [this, bits_of_byte_of_bits _ (by omega), htake]
        simp

theorem unpack_pack (bits : List Bool) :
    unpack_bits (pack_bits bits) = bits ++ List.replicate ((8 - bits.length % 8) % 8) false :=
  unpack_pack_aux bits.length bits (by omega)


/-! ## The code table -/

theorem filter_pos_eq (F : FreqTable) (L : List Byte) :
    L.filter (fun i => decide (F i > 0)) = L.filter (fun i => F i ≠ 0) := by
  apply List.filter_congr
  intro x _
  simp [Nat.pos_iff_ne_zero]

theorem find?_of_filter_singleton (p : Byte → Bool) (v : Byte) :
    ∀ L : List Byte, L.filter p = [v] → L.find? p = some v := by
  intro L
  induction L with
  | nil => intro h; simp at h
  | cons a L ih =>
    intro h
    by_cases ha : p a = true
    · simp [List.filter_cons, ha] at h
      rw [List.find?_cons, ha, h.1]
    · simp [List.filter_cons, ha] at h
      simp [List.find?_cons, ha, ih h]

theorem mem_filter_symbols (F : FreqTable) (s : Byte) :
    s ∈ symbols.filter (fun i => F i ≠ 0) ↔ F s ≠ 0 := by
  simp [List.mem_filter, mem_symbols]

theorem dictionary_zero (F : FreqTable) (h : count_unique F = 0) :
    build_huffman_dictionary F = (fun _ => none) ∧ ∀ s, F s = 0 := by
  refine ⟨by simp [build_huffman_dictionary, h], ?_⟩
  intro s
  by_contra hs
  have := (mem_filter_symbols F s).mpr hs
  rw [count_unique, List.length_eq_zero] at h
  rw [h] at this; simp at this

theorem dictionary_one (F : FreqTable) (h : count_unique F = 1) :
    ∃ v, symbols.filter (fun i => F i ≠ 0) = [v] ∧ (∀ s, F s ≠ 0 ↔ s = v) ∧
      build_huffman_dictionary F = Function.update (fun _ => none) v (some [false]) := by
  obtain ⟨v, hv⟩ := List.length_eq_one.mp h
  refine ⟨v, hv, ?_, ?_⟩
  · intro s
    rw [← mem_filter_symbols, hv]; simp
  · have hf := find?_of_filter_singleton (fun i => decide (F i > 0)) v symbols
      (by rw [filter_pos_eq]; exact hv)
    simp [build_huffman_dictionary, h, hf]

theorem dictionary_many (F : FreqTable) (h : 2 ≤ count_unique F) :
    ∃ s f l r, build_huffman_tree (make_leaves F) = .mk s f l r ∧ Full l ∧ Full r ∧
      (leaf_symbols (.mk s f l r)).Perm (symbols.filter (fun i => F i ≠ 0)) ∧
      build_huffman_dictionary F = generate_codes (.mk s f l r) [] (fun _ => none) ∧
      (∀ x, F x = 0 → build_huffman_dictionary F x = none) ∧
      (∀ x, F x ≠ 0 → ∃ bits, build_huffman_dictionary F x = some bits ∧
        IsPath (.mk s f l r) bits x ∧ bits ≠ []) := by
  obtain ⟨s, f, l, r, ht, hl, hr, hperm⟩ :=
    build_huffman_tree_spec (make_leaves F) (by rw [make_leaves_length]; exact h)
      (make_leaves_full F)
  rw [make_leaves_symbols] at hperm
  have hd : build_huffman_dictionary F = generate_codes (.mk s f l r) [] (fun _ => none) := by
    have h0 : count_unique F ≠ 0 := by omega
    have h1 : count_unique F ≠ 1 := by omega
    simp [build_huffman_dictionary, h0, h1, ht]
  have hfull : Full (.mk s f l r) := Full.node _ _ _ _ hl hr
  refine ⟨s, f, l, r, ht, hl, hr, hperm, hd, ?_, ?_⟩
  · intro x hx
    rw [hd, generate_codes_not_mem hfull]
    intro hm
    exact (mem_filter_symbols F x).mp (hperm.mem_iff.mp hm) hx
  · intro x hx
    obtain ⟨bits, hb, hp⟩ := generate_codes_mem hfull [] (fun _ => none) x
      (hperm.mem_iff.mpr ((mem_filter_symbols F x).mpr hx))
    refine ⟨bits, by rw [hd, hb]; simp, hp, ?_⟩
    intro hnil
    subst hnil
    cases hp
    exact hl.ne_null rfl

theorem dictionary_isSome_iff (F : FreqTable) (s : Byte) :
    (build_huffman_dictionary F s).isSome ↔ F s > 0 := by
  rcases Nat.lt_or_ge (count_unique F) 2 with h | h
  · rcases Nat.eq_zero_or_pos (count_unique F) with h0 | h0
    · obtain ⟨hd, hz⟩ := dictionary_zero F h0
      simp [hd, hz s]
    · obtain ⟨v, _, hv, hd⟩ := dictionary_one F (by omega)
      rw [hd, gt_iff_lt, Nat.pos_iff_ne_zero, hv]
      by_cases e : s = v
      · subst e; simp
      · simp [Function.update_noteq e, e]
  · obtain ⟨_, _, _, _, _, _, _, _, _, hz, hnz⟩ := dictionary_many F h
    by_cases e : F s = 0
    · simp [hz s e, e]
    · obtain ⟨bits, hb, _⟩ := hnz s e
      simp [hb, Nat.pos_iff_ne_zero, e]

theorem dictionary_prefix_free (F : FreqTable) (s1 s2 : Byte) (c1 c2 : List Bool)
    (h1 : build_huffman_dictionary F s1 = some c1)
    (h2 : build_huffman_dictionary F s2 = some c2) (hpre : c1 <+: c2) : s1 = s2 := by
  rcases Nat.lt_or_ge (count_unique F) 2 with h | h
  · rcases Nat.eq_zero_or_pos (count_unique F) with h0 | h0
    · obtain ⟨hd, _⟩ := dictionary_zero F h0
      simp [hd] at h1
    · obtain ⟨v, _, _, hd⟩ := dictionary_one F (by omega)
      rw [hd] at h1 h2
      have e1 : s1 = v := by
        by_contra e; simp [Function.update_noteq e] at h1
      have e2 : s2 = v := by
        by_contra e; simp [Function.update_noteq e] at h2
      rw [e1, e2]
  · obtain ⟨_, _, _, _, _, _, _, _, _, hz, hnz⟩ := dictionary_many F h
    have n1 : F s1 ≠ 0 := fun e => by simp [hz s1 e] at h1
    have n2 : F s2 ≠ 0 := fun e => by simp [hz s2 e] at h2
    obtain ⟨b1, hb1, hp1, _⟩ := hnz s1 n1
    obtain ⟨b2, hb2, hp2, _⟩ := hnz s2 n2
    rw [hb1] at h1; rw [hb2] at h2
    cases h1; cases h2
    obtain ⟨e, rfl⟩ := hpre
    exact (hp1.prefix_unique e s2 hp2).1


/-! ## Encoder and decoder as a whole -/

theorem count_frequencies_lt (S : List Byte) (b : Byte) : count_frequencies S b < U32 := by
  rw [count_frequencies_mod]; exact Nat.mod_lt _ (by simp [U32])

theorem encode_file_of_codes (S : List Byte)
    (h : ∀ c ∈ S, (build_huffman_dictionary (count_frequencies S) c).isSome) :
    encode_file S =
      { container := write_header (count_frequencies S) ++
          pack_bits (S.flatMap (fun c => (build_huffman_dictionary (count_frequencies S) c).getD [])),
        no_code := none } := by
  unfold encode_file
  simp only [encode_loop_all _ S _ h]
  rw [flush_emit_code _ [] _ (by simp) rfl (by simp [bits_value])]
  simp

theorem codes_of_count (S : List Byte) (h : ∀ b, S.count b < U32) :
    ∀ c ∈ S, (build_huffman_dictionary (count_frequencies S) c).isSome := by
  intro c hc
  rw [dictionary_isSome_iff, count_frequencies_eq S h]
  exact List.count_pos_iff.mpr hc

theorem total_symbols_count (S : List Byte) (h : ∀ b, S.count b < U32) :
    total_symbols (count_frequencies S) = S.length := by
  have hF : count_frequencies S = fun b => S.count b := funext (count_frequencies_eq S h)
  rw [hF, total_symbols, ← List.sum_map_count_dedup_eq_length S]
  apply List.Perm.sum_eq
  apply List.Perm.map
  apply (List.perm_ext_iff_of_nodup (symbols_nodup.filter _) (List.nodup_dedup S)).mpr
  intro a
  simp [List.mem_filter, mem_symbols, List.count_pos_iff]

theorem count_unique_pos_filter (F : FreqTable) :
    (symbols.filter (fun i => decide (F i > 0))).length = count_unique F := by
  rw [filter_pos_eq]; rfl

theorem decode_tree_eq (F : FreqTable) : decode_tree F = build_huffman_tree (make_leaves F) := by
  unfold decode_tree make_leaves
  rw [filter_pos_eq]

theorem decode_file_many (F : FreqTable) (hF : ∀ i, F i < U32) (h2 : 2 ≤ count_unique F)
    (S : List Byte) (hS : ∀ s ∈ S, F s ≠ 0) (htot : total_symbols F = S.length)
    (payload : List Byte) (extra : List Bool)
    (hp : unpack_bits payload
      = S.flatMap (fun c => (build_huffman_dictionary F c).getD []) ++ extra) :
    decode_file (write_header F ++ payload)
      = some { output := S, status := .completed, warning := false } := by
  obtain ⟨s, f, l, r, ht, hl, hr, _, _, _, hnz⟩ := dictionary_many F h2
  have hcode : ∀ x ∈ S, IsPath (.mk s f l r) ((build_huffman_dictionary F x).getD []) x ∧
      (build_huffman_dictionary F x).getD [] ≠ [] := by
    intro x hx
    obtain ⟨bits, hb, hpath, hne⟩ := hnz x (hS x hx)
    simp [hb, hpath, hne]
  unfold decode_file
  simp only [read_write_header F hF, skip_write_header, count_unique_pos_filter, decode_tree_eq, ht]
  have hpos : 0 < S.length := by
    by_contra hc
    have hnil : S = [] := List.length_eq_zero.mp (by omega)
    subst hnil
    have : total_symbols F = 0 := htot
    have hex : ∃ x, x ∈ symbols.filter (fun i => F i ≠ 0) := by
      apply List.exists_mem_of_length_pos
      show 0 < count_unique F
      omega
    obtain ⟨x, hx⟩ := hex
    have hx0 := (mem_filter_symbols F x).mp hx
    have hle : F x ≤ total_symbols F := by
      unfold total_symbols
      apply List.single_le_sum (by simp)
      rw [filter_pos_eq]
      exact List.mem_map_of_mem _ hx
    omega
  have h0 : ¬ (count_unique F = 0 ∨ total_symbols F = 0) := by omega
  have h1 : ¬ count_unique F = 1 := by omega
  simp only [h0, h1, if_false]
  rw [decode_loop_eq_bits, hp, htot,
    decode_bits_symbols _ _ _ _ S 0 [] hcode (by omega),
    decode_bits_done _ _ _ _ (by simp)]
  simp

theorem decode_file_one (F : FreqTable) (hF : ∀ i, F i < U32) (h1 : count_unique F = 1)
    (payload : List Byte) :
    ∃ v, (∀ s, F s ≠ 0 ↔ s = v) ∧
      decode_file (write_header F ++ payload)
        = some { output := List.replicate (F v) v, status := .single_symbol, warning := false } := by
  obtain ⟨v, hv, hiff, _⟩ := dictionary_one F h1
  refine ⟨v, hiff, ?_⟩
  have hvpos : F v ≠ 0 := (hiff v).mpr rfl
  have htot : total_symbols F = F v := by
    unfold total_symbols; rw [filter_pos_eq, hv]; simp
  have hf := find?_of_filter_singleton (fun i => decide (F i > 0)) v symbols
      (by rw [filter_pos_eq]; exact hv)
  unfold decode_file
  simp only [read_write_header F hF, count_unique_pos_filter, h1, htot, hf]
  simp [hvpos]

theorem decode_file_zero (F : FreqTable) (hF : ∀ i, F i < U32) (h0 : count_unique F = 0)
    (payload : List Byte) :
    decode_file (write_header F ++ payload)
      = some { output := [], status := .empty_file, warning := false } := by
  unfold decode_file
  simp only [read_write_header F hF, count_unique_pos_filter, h0]
  simp

theorem roundtrip_aux (S : List Byte) (h : ∀ b, S.count b < U32) :
    ∃ status, decode_file (encode_file S).container
      = some { output := S, status := status, warning := false } := by
  have hF := count_frequencies_lt S
  have hFc := count_frequencies_eq S h
  rw [encode_file_of_codes S (codes_of_count S h)]
  simp only
  rcases Nat.lt_or_ge (count_unique (count_frequencies S)) 2 with hu | hu
  · rcases Nat.eq_zero_or_pos (count_unique (count_frequencies S)) with h0 | h0
    · refine ⟨.empty_file, ?_⟩
      rw [decode_file_zero _ hF h0]
      have hz := (dictionary_zero _ h0).2
      have : S = [] := by
        cases S with
        | nil => rfl
        | cons a S =>
          have := hz a
          rw [hFc] at this
          simp at this
      rw [this]
    · refine ⟨.single_symbol, ?_⟩
      obtain ⟨v, hiff, hd⟩ := decode_file_one _ hF (by omega) (pack_bits
        (S.flatMap (fun c => (build_huffman_dictionary (count_frequencies S) c).getD [])))
      rw [hd]
      have hall : ∀ b ∈ S, b = v := by
        intro b hb
        apply (hiff b).mp
        rw [hFc]
        exact Nat.pos_iff_ne_zero.mp (List.count_pos_iff.mpr hb)
      have hS : S = List.replicate S.length v := List.eq_replicate_iff.mpr ⟨rfl, hall⟩
      have hcnt : count_frequencies S v = S.length := by
        rw [hFc]; exact List.count_eq_length.mpr (fun b hb => (hall b hb).symm)
      rw [hcnt, ← hS]
  · refine ⟨.completed, ?_⟩
    apply decode_file_many _ hF hu S _ (total_symbols_count S h) _ _ (unpack_pack _)
    intro s hs
    rw [hFc]
    exact Nat.pos_iff_ne_zero.mp (List.count_pos_iff.mpr hs)


/-! ## The decoder never leaves the tree -/

theorem decode_step_internal (root : Node) (hroot : Internal root) (bit : Nat) (st : DecState)
    (hst : Internal st.current) :
    ∃ st', decode_step root bit st = some st' ∧ Internal st'.current ∧
      ((st'.decoded = st.decoded + 1 ∧ ∃ s, st'.out = st.out ++ [s]) ∨
        (st'.decoded = st.decoded ∧ st'.out = st.out)) := by
  obtain ⟨s, f, l, r, hc, hl, hr⟩ := hst
  have hnext : Full (if bit ≠ 0 then r else l) := by split <;> assumption
  unfold decode_step
  rw [hc]
  simp only
  generalize (if bit ≠ 0 then r else l) = next at hnext
  cases hnext with
  | leaf s' f' => exact ⟨_, rfl, hroot, Or.inl ⟨rfl, s', rfl⟩⟩
  | node s' f' l' r' hl' hr' =>
    cases hl' with
    | leaf a b => exact ⟨_, rfl, ⟨s', f', _, r', rfl, Full.leaf a b, hr'⟩, Or.inr ⟨rfl, rfl⟩⟩
    | node a b x y hx hy =>
      exact ⟨_, rfl, ⟨s', f', _, r', rfl, Full.node a b x y hx hy, hr'⟩, Or.inr ⟨rfl, rfl⟩⟩

theorem decode_bits_total (root : Node) (hroot : Internal root) (total : Nat) :
    ∀ (bits : List Bool) (st : DecState), Internal st.current → st.decoded ≤ total →
      ∃ st', decode_bits root total bits st = some st' ∧ Internal st'.current ∧
        st'.decoded ≤ total ∧ st'.out.length + st.decoded = st.out.length + st'.decoded := by
  intro bits
  induction bits with
  | nil => intro st hst hd; exact ⟨st, rfl, hst, hd, rfl⟩
  | cons b bits ih =>
    intro st hst hd
    simp only [decode_bits]
    split
    · rename_i hlt
      obtain ⟨st1, h1, hint, hcase⟩ := decode_step_internal root hroot (if b then 1 else 0) st hst
      rw [h1]
      simp only
      have hd1 : st1.decoded ≤ total := by
        rcases hcase with ⟨h, _⟩ | ⟨h, _⟩ <;> omega
      obtain ⟨st', h', hint', hd', hlen⟩ := ih st1 hint hd1
      refine ⟨st', h', hint', hd', ?_⟩
      rcases hcase with ⟨h, s, ho⟩ | ⟨h, ho⟩
      · rw [ho, List.length_append, List.length_singleton] at hlen; omega
      · rw [ho] at hlen; omega
    · exact ⟨st, rfl, hst, hd, rfl⟩

theorem decode_bits_stop (root : Node) (total : Nat) (bits extra : List Bool)
    (st0 st : DecState) (h : decode_bits root total bits st0 = some st)
    (hd : total ≤ st.decoded) :
    decode_bits root total (bits ++ extra) st0 = some st := by
  rw [decode_bits_append, h]
  exact decode_bits_done root total extra st hd

theorem decode_tree_internal (F : FreqTable) (h2 : 2 ≤ count_unique F) :
    Internal (decode_tree F) := by
  obtain ⟨s, f, l, r, ht, hl, hr, _⟩ := dictionary_many F h2
  rw [decode_tree_eq, ht]
  exact ⟨s, f, l, r, rfl, hl, hr⟩


/-! ## Single-symbol inputs -/

theorem filter_symbols_single (F : FreqTable) (v : Byte) (h : ∀ s, F s ≠ 0 ↔ s = v) :
    symbols.filter (fun i => F i ≠ 0) = [v] := by
  apply List.perm_singleton.mp
  apply (List.perm_ext_iff_of_nodup (symbols_nodup.filter _) (List.nodup_singleton v)).mpr
  intro a
  rw [mem_filter_symbols, h]; simp

theorem count_frequencies_replicate (v : Byte) (n : Nat) (hn : n < U32) :
    count_frequencies (List.replicate n v) = fun b => if b = v then n else 0 := by
  funext b
  rw [count_frequencies_mod, List.count_replicate]
  by_cases h : b = v
  · subst h; simp [Nat.mod_eq_of_lt hn]
  · have : ¬ (v == b) = true := fun e => h (beq_iff_eq.mp e).symm
    simp [h, this]

theorem bits_value_replicate_false (m : Nat) : bits_value (List.replicate m false) = 0 := by
  have := bits_value_append_false [] m
  simpa [bits_value] using this

theorem pack_bits_replicate_false (n : Nat) :
    pack_bits (List.replicate n false) = List.replicate ((n + 7) / 8) 0 := by
  unfold pack_bits
  rw [List.length_replicate]
  have : ∀ j, byte_of_bits (List.take 8 (List.drop (8 * j) (List.replicate n false))) = 0 := by
    intro j
    rw [List.drop_replicate, List.take_replicate, byte_of_bits, bits_value_replicate_false]
    simp [Fin.ofNat]
  simp only [this]
  rw [List.map_const', List.length_range]

theorem flatMap_replicate_bit (g : Byte → List Bool) (w : Byte) (hg : g w = [false]) :
    ∀ n : Nat, (List.replicate n w).flatMap g = List.replicate n false := by
  intro n
  induction n with
  | zero => rfl
  | succ k ih => rw [List.replicate_succ, List.flatMap_cons, ih, hg]; rfl

theorem write_header_single (F : FreqTable) (v : Byte) (h : ∀ s, F s ≠ 0 ↔ s = v) :
    write_header F = write_u32 1 ++ v :: write_u32 (F v) := by
  rw [write_header, count_unique, filter_symbols_single F v h]
  rfl

/-! ## Header layout and payload -/

theorem filter_count_eq (S : List Byte) (h : ∀ b, S.count b < U32) :
    symbols.filter (fun i => count_frequencies S i ≠ 0) = distinct_symbols S := by
  unfold distinct_symbols
  apply List.filter_congr
  intro x _
  rw [count_frequencies_eq S h]
  by_cases hx : x ∈ S
  · have := List.count_pos_iff.mpr hx
    simp [hx]; omega
  · simp [hx, List.count_eq_zero.mpr hx]

theorem distinct_symbols_perm (S : List Byte) : (distinct_symbols S).Perm S.dedup := by
  unfold distinct_symbols
  apply (List.perm_ext_iff_of_nodup (symbols_nodup.filter _) (List.nodup_dedup S)).mpr
  intro a
  simp [List.mem_filter, mem_symbols]

theorem write_header_count (S : List Byte) (h : ∀ b, S.count b < U32) :
    write_header (count_frequencies S)
      = write_u32 (distinct_symbols S).length ++
          (distinct_symbols S).flatMap (fun s => s :: write_u32 (S.count s)) := by
  rw [write_header, count_unique, filter_count_eq S h]
  have e : (distinct_symbols S).flatMap (fun i => i :: write_u32 (count_frequencies S i))
      = (distinct_symbols S).flatMap (fun s => s :: write_u32 (S.count s)) := by
    apply List.flatMap_congr
    intro s _
    rw [count_frequencies_eq S h]
  rw [e]

theorem pack_bits_length (bits : List Bool) : (pack_bits bits).length = (bits.length + 7) / 8 := by
  simp [pack_bits]

theorem count_frequencies_wrapped :
    count_frequencies wrapped_input = fun b => if b = 1 then 1 else 0 := by
  funext b
  rw [count_frequencies_mod, wrapped_input, List.count_append, List.count_replicate]
  by_cases h0 : b = 0
  · subst h0; simp [U32]
  · have : ¬ ((0 : Byte) == b) = true := fun e => h0 (beq_iff_eq.mp e).symm
    by_cases h1 : b = 1
    · subst h1; simp [U32]
    · have h1' : ¬ ((1 : Byte) == b) = true := fun e => h1 (beq_iff_eq.mp e).symm
      simp [this, h1, List.count_cons, h1']

theorem encode_loop_none (codes : CodeTable) (c : Byte) (rest : List Byte) (st : EncState)
    (h : codes c = none) : encode_loop codes (c :: rest) st = (st, some c) := by
  simp only [encode_loop, h]

theorem encode_file_no_code (c : Byte) (rest : List Byte)
    (h : build_huffman_dictionary (count_frequencies (c :: rest)) c = none) :
    encode_file (c :: rest)
      = { container := write_header (count_frequencies (c :: rest)), no_code := some c } := by
  unfold encode_file
  simp only [encode_loop_none _ c rest _ h]
  rfl

theorem flatMap_length_pos (g : Byte → List Bool) (c : Byte) (hg : g c ≠ []) :
    ∀ S : List Byte, c ∈ S → 1 ≤ (S.flatMap g).length := by
  intro S
  induction S with
  | nil => intro h; simp at h
  | cons a S ih =>
    intro h
    rw [List.flatMap_cons, List.length_append]
    rcases List.mem_cons.mp h with e | e
    · have := List.length_pos.mpr hg
      rw [e] at this; omega
    · have := ih e; omega

theorem wrapped_input_cons : wrapped_input = 0 :: (List.replicate 4294967295 0 ++ [1]) := by
  unfold wrapped_input
  rw [show (4294967296 : Nat) = 4294967295 + 1 from rfl, List.replicate_succ, List.cons_append]

/-! ## The decoder on an arbitrary payload -/

theorem total_symbols_pos (F : FreqTable) (h : 1 ≤ count_unique F) : 0 < total_symbols F := by
  have hex : ∃ x, x ∈ symbols.filter (fun i => F i ≠ 0) := by
    apply List.exists_mem_of_length_pos
    show 0 < count_unique F
    omega
  obtain ⟨x, hx⟩ := hex
  have hx0 := (mem_filter_symbols F x).mp hx
  have hle : F x ≤ total_symbols F := by
    unfold total_symbols
    apply List.single_le_sum (by simp)
    rw [filter_pos_eq]
    exact List.mem_map_of_mem _ hx
  omega

theorem decode_file_loop (F : FreqTable) (hF : ∀ i, F i < U32) (h2 : 2 ≤ count_unique F)
    (payload : List Byte) :
    decode_file (write_header F ++ payload)
      = (decode_loop (decode_tree F) (total_symbols F) payload (decode_start (decode_tree F))).map
          (fun st => { output := st.out, status := .completed,
                       warning := decide (st.decoded ≠ total_symbols F) }) := by
  have hpos := total_symbols_pos F (by omega)
  have h0 : ¬ (count_unique F = 0 ∨ total_symbols F = 0) := by omega
  have h1 : ¬ count_unique F = 1 := by omega
  unfold decode_file
  simp only [read_write_header F hF, skip_write_header, count_unique_pos_filter, h0, h1, if_false]
  unfold decode_start
  generalize decode_loop (decode_tree F) (total_symbols F) payload
    { current := decode_tree F, decoded := 0, out := [] } = r
  cases r with
  | none => rfl
  | some st => rfl

theorem decode_loop_total (F : FreqTable) (h2 : 2 ≤ count_unique F) (payload : List Byte) :
    ∃ st, decode_loop (decode_tree F) (total_symbols F) payload (decode_start (decode_tree F))
        = some st ∧ st.decoded ≤ total_symbols F ∧ st.out.length = st.decoded := by
  have hint := decode_tree_internal F h2
  obtain ⟨st, hst, _, hd, hlen⟩ := decode_bits_total (decode_tree F) hint (total_symbols F)
    (unpack_bits payload) (decode_start (decode_tree F))
    (by simp only [decode_start]; exact hint) (by simp only [decode_start]; exact Nat.zero_le _)
  refine ⟨st, by rw [decode_loop_eq_bits]; exact hst, hd, ?_⟩
  simp only [decode_start, List.length_nil, Nat.add_zero, Nat.zero_add] at hlen
  exact hlen

theorem encode_file_header (S : List Byte) :
    ∃ payload, (encode_file S).container = write_header (count_frequencies S) ++ payload := by
  have hemit : ∀ (bits : List Bool) (st : EncState), ∃ e, (emit_code bits st).out = st.out ++ e := by
    intro bits
    induction bits with
    | nil => intro st; exact ⟨[], by simp [emit_code]⟩
    | cons c bits ih =>
      intro st
      simp only [emit_code]
      split
      · obtain ⟨e, he⟩ := ih { byte := 0, bit_count := 0, out := st.out ++
          [Fin.ofNat (if c = true then st.byte ||| 1 <<< (7 - st.bit_count) else st.byte)] }
        exact ⟨[Fin.ofNat (if c = true then st.byte ||| 1 <<< (7 - st.bit_count) else st.byte)]
          ++ e, by rw [he, List.append_assoc]⟩
      · exact ih _
  have hloop : ∀ (codes : CodeTable) (S : List Byte) (st : EncState),
      ∃ e, (encode_loop codes S st).1.out = st.out ++ e := by
    intro codes S
    induction S with
    | nil => intro st; exact ⟨[], by simp [encode_loop]⟩
    | cons c S ih =>
      intro st
      simp only [encode_loop]
      cases codes c with
      | none => exact ⟨[], by simp⟩
      | some code =>
        obtain ⟨e1, h1⟩ := hemit code st
        obtain ⟨e2, h2⟩ := ih (emit_code code st)
        exact ⟨e1 ++ e2, by simp only; rw [h2, h1, List.append_assoc]⟩
  obtain ⟨e, he⟩ := hloop (build_huffman_dictionary (count_frequencies S)) S
    { byte := 0, bit_count := 0, out := write_header (count_frequencies S) }
  unfold encode_file flush
  simp only
  split
  · exact ⟨e ++ _, by rw [he, List.append_assoc]⟩
  · exact ⟨e, he⟩


/-! ## The concrete scenario -/

set_option maxRecDepth 100000

theorem aaaabbc_count_lt : ∀ b, aaaabbc.count b < U32 :=
  fun b => lt_of_le_of_lt (List.count_le_length _ _) (by decide)

theorem aaaabbc_frequencies :
    count_frequencies aaaabbc 97 = 4 ∧ count_frequencies aaaabbc 98 = 2 ∧
      count_frequencies aaaabbc 99 = 1 ∧
      ∀ b : Byte, b ≠ 97 → b ≠ 98 → b ≠ 99 → count_frequencies aaaabbc b = 0 := by
  decide

theorem aaaabbc_encode :
    encode_file aaaabbc
      = { container := [3, 0, 0, 0, 97, 4, 0, 0, 0, 98, 2, 0, 0, 0, 99, 1, 0, 0, 0, 245, 0],
          no_code := none } := by
  rfl

theorem aaaabbc_codes :
    build_huffman_dictionary (count_frequencies aaaabbc) 97 = some [true] ∧
      build_huffman_dictionary (count_frequencies aaaabbc) 98 = some [false, true] ∧
      build_huffman_dictionary (count_frequencies aaaabbc) 99 = some [false, false] := by
  decide

theorem aaaabbc_decode :
    decode_file [3, 0, 0, 0, 97, 4, 0, 0, 0, 98, 2, 0, 0, 0, 99, 1, 0, 0, 0, 245, 0]
      = some { output := aaaabbc, status := .completed, warning := false } := by
  rfl

theorem aaaabbc_unique : count_unique (count_frequencies aaaabbc) = 3 := by
  decide

theorem aaaabbc_bits :
    aaaabbc.flatMap (fun c => (build_huffman_dictionary (count_frequencies aaaabbc) c).getD [])
      = [true, true, true, true, false, true, false, true, false, false] := by
  have key : ∀ g : Byte → Option (List Bool), g 97 = some [true] → g 98 = some [false, true] →
      g 99 = some [false, false] →
      aaaabbc.flatMap (fun c => (g c).getD [])
        = [true, true, true, true, false, true, false, true, false, false] := by
    intro g h1 h2 h3
    simp only [aaaabbc, List.flatMap_cons, List.flatMap_nil, h1, h2, h3, Option.getD_some,
      List.cons_append, List.nil_append, List.append_nil]
  exact key _ aaaabbc_codes.1 aaaabbc_codes.2.1 aaaabbc_codes.2.2

theorem aaaabbc_two : 2 ≤ count_unique (count_frequencies aaaabbc) := by
  rw [aaaabbc_unique]; decide

theorem empty_unique : count_unique (fun _ => 0) = 0 := by
  rw [count_unique, List.length_eq_zero, List.filter_eq_nil_iff]
  intro a _
  simp

/-! ## Bubble sort -/

theorem bubble_pass_max :
    ∀ (k : Nat) (a : Node) (xs ys : List Node), xs.length = k →
      ∃ zs m, bubble_pass k (a :: (xs ++ ys)) = zs ++ m :: ys ∧ (zs ++ [m]).Perm (a :: xs) ∧
        ∀ z ∈ zs, z.freq ≤ m.freq := by
  intro k
  induction k with
  | zero =>
    intro a xs ys h
    have : xs = [] := List.length_eq_zero.mp h
    subst this
    exact ⟨[], a, by simp [bubble_pass], by simp, by simp⟩
  | succ k ih =>
    intro a xs ys h
    match xs, h with
    | b :: xs', h =>
      have hlen : xs'.length = k := by simpa using h
      have e : bubble_pass (k + 1) (a :: (b :: xs' ++ ys))
          = if a.freq > b.freq then b :: bubble_pass k (a :: (xs' ++ ys))
            else a :: bubble_pass k (b :: (xs' ++ ys)) := rfl
      rw [e]
      split
      · rename_i hgt
        obtain ⟨zs, m, hz, hp, hle⟩ := ih a xs' ys hlen
        rw [hz]
        refine ⟨b :: zs, m, by simp, ?_, ?_⟩
        · exact ((hp.cons b).trans (List.Perm.swap a b xs'))
        · intro z hzm
          rcases List.mem_cons.mp hzm with e | e
          · subst e
            have ha : a ∈ zs ++ [m] := hp.mem_iff.mpr (by simp)
            rcases List.mem_append.mp ha with h1 | h1
            · have := hle a h1; omega
            · simp at h1; subst h1; omega
          · exact hle z e
      · rename_i hgt
        obtain ⟨zs, m, hz, hp, hle⟩ := ih b xs' ys hlen
        rw [hz]
        refine ⟨a :: zs, m, by simp, hp.cons a, ?_⟩
        intro z hzm
        rcases List.mem_cons.mp hzm with e | e
        · subst e
          have hb : b ∈ zs ++ [m] := hp.mem_iff.mpr (by simp)
          rcases List.mem_append.mp hb with h1 | h1
          · have := hle b h1; omega
          · simp at h1; subst h1; omega
        · exact hle z e

theorem sort_passes_sorted (n : Nat) :
    ∀ (m i : Nat) (xs ys : List Node), xs.length = m + 1 → n - i - 1 = m →
      SortedByFreq ys → (∀ x ∈ xs, ∀ y ∈ ys, x.freq ≤ y.freq) →
      SortedByFreq (sort_passes n m i (xs ++ ys)) := by
  intro m
  induction m with
  | zero =>
    intro i xs ys hlen _ hs hle
    match xs, hlen with
    | [x], _ =>
      simp only [sort_passes, SortedByFreq, List.singleton_append, List.pairwise_cons]
      exact ⟨fun y hy => hle x (by simp) y hy, hs⟩
  | succ m ih =>
    intro i xs ys hlen hk hs hle
    match xs, hlen with
    | a :: xs0, hlen =>
      have hl0 : xs0.length = m + 1 := by simpa using hlen
      obtain ⟨zs, mx, hz, hp, hmax⟩ := bubble_pass_max (m + 1) a xs0 ys hl0
      simp only [sort_passes, hk]
      rw [List.cons_append, hz]
      rw [show zs ++ mx :: ys = zs ++ (mx :: ys) from rfl]
      have hzl : zs.length = m + 1 := by
        have := hp.length_eq
        simp at this
        omega
      apply ih (i + 1) zs (mx :: ys) hzl (by omega)
      · simp only [SortedByFreq, List.pairwise_cons]
        exact ⟨fun y hy => hle mx (hp.mem_iff.mp (by simp)) y hy, hs⟩
      · intro x hx y hy
        rcases List.mem_cons.mp hy with e | e
        · subst e; exact hmax x hx
        · exact hle x (hp.mem_iff.mp (by simp [hx])) y e

theorem sort_nodes_sorted (nodes : List Node) :
    SortedByFreq (sort_nodes nodes nodes.length) := by
  cases nodes with
  | nil => simp [sort_nodes, sort_passes, SortedByFreq]
  | cons a xs =>
    have := sort_passes_sorted (xs.length + 1) xs.length 0 (a :: xs) [] (by simp) (by omega)
      (by simp [SortedByFreq]) (by simp)
    simpa [sort_nodes] using this

/-! ## Shape of the tree -/

theorem leaf_nodes_node (symbol : Byte) (freq : Nat) {left : Node} (right : Node)
    (h : Full left) :
    leaf_nodes (.mk symbol freq left right) = leaf_nodes left ++ leaf_nodes right := by
  cases h <;> simp [leaf_nodes]

theorem count_internal_node (symbol : Byte) (freq : Nat) {left : Node} (right : Node)
    (h : Full left) :
    count_internal (.mk symbol freq left right)
      = 1 + count_internal left + count_internal right := by
  cases h <;> simp [count_internal]

theorem leaf_symbols_eq_map {t : Node} (h : Full t) :
    leaf_symbols t = (leaf_nodes t).map (fun x => match x with
      | .mk s _ _ _ => s
      | .null => 0) := by
  induction h with
  | leaf s f => simp [leaf_symbols, leaf_nodes]
  | node s f l r hl hr ihl ihr =>
    rw [leaf_symbols_node _ _ _ hl, leaf_nodes_node _ _ _ hl, List.map_append, ihl, ihr]

theorem full_leaf_count {t : Node} (h : Full t) :
    (leaf_nodes t).length = count_internal t + 1 := by
  induction h with
  | leaf s f => simp [leaf_nodes, count_internal]
  | node s f l r hl hr ihl ihr =>
    rw [leaf_nodes_node _ _ _ hl, count_internal_node _ _ _ hl, List.length_append, ihl, ihr]
    omega

theorem merge_loop_step (n : Nat) (nodes : List Node) (hlen : nodes.length = n + 2) :
    ∃ left right rest, sort_nodes nodes (n + 2) = left :: right :: rest ∧
      (left :: right :: rest).Perm nodes ∧ left.freq ≤ right.freq ∧
      (∀ t ∈ rest, right.freq ≤ t.freq) ∧
      merge_loop (n + 2) nodes
        = merge_loop (n + 1) (Node.mk 0 ((left.freq + right.freq) % U32) left right :: rest) ∧
      (Node.mk 0 ((left.freq + right.freq) % U32) left right :: rest).length = n + 1 := by
  have hperm := sort_nodes_perm nodes (n + 2)
  have hsorted := sort_nodes_sorted nodes
  rw [hlen] at hsorted
  have hlen2 : (sort_nodes nodes (n + 2)).length = n + 2 := by rw [hperm.length_eq, hlen]
  match hs : sort_nodes nodes (n + 2), hlen2 with
  | l :: r :: rest, hl2 =>
    rw [hs] at hsorted hperm
    simp only [SortedByFreq, List.pairwise_cons] at hsorted
    refine ⟨l, r, rest, rfl, hperm, hsorted.1 r (by simp), fun t ht => hsorted.2.1 t ht, ?_, ?_⟩
    · rw [merge_loop, hs]
    · simp at hl2 ⊢; omega

theorem merge_loop_shape :
    ∀ (n : Nat) (nodes : List Node), nodes.length = n + 1 → (∀ t ∈ nodes, Full t) →
      ∃ t, merge_loop (n + 1) nodes = [t] ∧ Full t ∧
        (leaf_nodes t).Perm (nodes.flatMap leaf_nodes) ∧
        count_internal t = (nodes.map count_internal).sum + n ∧
        t.freq % U32 = (nodes.map Node.freq).sum % U32 ∧
        (1 ≤ n → t.freq < U32) := by
  intro n
  induction n with
  | zero =>
    intro nodes hlen hfull
    match nodes, hlen with
    | [t], _ =>
      exact ⟨t, by simp [merge_loop], hfull t (by simp), by simp, by simp, by simp,
        fun h => absurd h (by omega)⟩
  | succ n ih =>
    intro nodes hlen hfull
    obtain ⟨l, r, rest, hs, hperm, _, _, hm, hlen3⟩ := merge_loop_step n nodes hlen
    have hmem : ∀ t ∈ l :: r :: rest, Full t := fun t ht => hfull t (hperm.mem_iff.mp ht)
    have hl : Full l := hmem l (by simp)
    have hr : Full r := hmem r (by simp)
    have hrest : ∀ t ∈ Node.mk 0 ((l.freq + r.freq) % U32) l r :: rest, Full t := by
      intro t ht
      rcases List.mem_cons.mp ht with h | h
      · exact h ▸ Full.node _ _ _ _ hl hr
      · exact hmem t (by simp [h])
    obtain ⟨t, ht, hft, hpt, hci, hfreq, hlt⟩ := ih _ hlen3 hrest
    refine ⟨t, by rw [hm]; exact ht, hft, ?_, ?_, ?_, ?_⟩
    · refine hpt.trans ?_
      rw [List.flatMap_cons, leaf_nodes_node _ _ _ hl]
      have : (l :: r :: rest).flatMap leaf_nodes
          = (leaf_nodes l ++ leaf_nodes r) ++ rest.flatMap leaf_nodes := by
        simp [List.flatMap_cons]
      rw [← this]
      exact hperm.flatMap_right _
    · rw [hci, List.map_cons, List.sum_cons, count_internal_node _ _ _ hl,
        ← (hperm.map count_internal).sum_eq]
      simp only [List.map_cons, List.sum_cons]
      omega
    · rw [hfreq, List.map_cons, List.sum_cons, ← (hperm.map Node.freq).sum_eq]
      have e1 : (Node.mk 0 ((l.freq + r.freq) % U32) l r).freq = (l.freq + r.freq) % U32 := rfl
      rw [e1]
      simp only [List.map_cons, List.sum_cons, U32]
      omega
    · intro _
      by_cases hn : 1 ≤ n
      · exact hlt hn
      · have hn0 : n = 0 := by omega
        subst hn0
        match rest, hlen3, ht with
        | [], _, ht =>
          simp [merge_loop] at ht
          rw [← ht]
          exact Nat.mod_lt _ (by simp [U32])

theorem make_leaves_leaf_nodes (F : FreqTable) :
    (make_leaves F).flatMap leaf_nodes = make_leaves F := by
  unfold make_leaves
  induction symbols.filter (fun i => F i ≠ 0) with
  | nil => simp
  | cons a L ih =>
    rw [List.map_cons, List.flatMap_cons, ih]
    simp [create_node, leaf_nodes]

theorem make_leaves_internal (F : FreqTable) :
    ((make_leaves F).map count_internal).sum = 0 := by
  unfold make_leaves
  induction symbols.filter (fun i => F i ≠ 0) with
  | nil => simp
  | cons a L ih =>
    rw [List.map_cons, List.map_cons, List.sum_cons, ih]
    simp [create_node, count_internal]

theorem make_leaves_freq (F : FreqTable) :
    ((make_leaves F).map Node.freq).sum = total_symbols F := by
  unfold make_leaves total_symbols
  rw [filter_pos_eq, List.map_map]
  rfl

theorem build_huffman_tree_shape (F : FreqTable) (h2 : 2 ≤ count_unique F) :
    Internal (build_huffman_tree (make_leaves F)) ∧
      (leaf_nodes (build_huffman_tree (make_leaves F))).Perm (make_leaves F) ∧
      count_internal (build_huffman_tree (make_leaves F)) = count_unique F - 1 ∧
      (build_huffman_tree (make_leaves F)).freq = total_symbols F % U32 := by
  obtain ⟨n, hn⟩ : ∃ n, (make_leaves F).length = n + 2 :=
    ⟨count_unique F - 2, by rw [make_leaves_length]; omega⟩
  obtain ⟨t, ht, hft, hpt, hci, hfreq, hlt⟩ :=
    merge_loop_shape (n + 1) (make_leaves F) hn (make_leaves_full F)
  have hb : build_huffman_tree (make_leaves F) = t := by
    rw [build_huffman_tree_eq _ n hn, ht]; rfl
  rw [hb]
  have hint := decode_tree_internal F h2
  rw [decode_tree_eq, hb] at hint
  refine ⟨hint, ?_, ?_, ?_⟩
  · rw [make_leaves_leaf_nodes] at hpt; exact hpt
  · rw [hci, make_leaves_internal]
    rw [make_leaves_length] at hn
    omega
  · rw [← make_leaves_freq, ← hfreq, Nat.mod_eq_of_lt (hlt (by omega))]

/-! ## Paths -/

theorem subtree_null (path : List Bool) : subtree .null path = .null := by
  cases path <;> rfl

theorem subtree_append (p q : List Bool) :
    ∀ t : Node, subtree t (p ++ q) = subtree (subtree t p) q := by
  induction p with
  | nil => intro t; cases t <;> simp [subtree]
  | cons b p ih =>
    intro t
    cases t with
    | null => simp [subtree, subtree_null]
    | mk s f l r => simp only [List.cons_append, subtree]; exact ih _

theorem isPath_iff_subtree (s : Byte) :
    ∀ (bits : List Bool) (t : Node),
      IsPath t bits s ↔ ∃ f, subtree t bits = .mk s f .null .null := by
  intro bits
  induction bits with
  | nil =>
    intro t
    constructor
    · intro h; cases h; exact ⟨_, rfl⟩
    · rintro ⟨f, hf⟩
      simp only [subtree] at hf
      rw [hf]; exact IsPath.here s f
  | cons b bits ih =>
    intro t
    cases t with
    | null =>
      constructor
      · intro h; cases h
      · rintro ⟨f, hf⟩; simp [subtree] at hf
    | mk sy fr l r =>
      constructor
      · intro h
        cases h with
        | left _ _ _ _ _ _ h => exact (ih l).mp h
        | right _ _ _ _ _ _ h => exact (ih r).mp h
      · intro h
        cases b with
        | false => exact IsPath.left _ _ _ _ _ _ ((ih l).mpr h)
        | true => exact IsPath.right _ _ _ _ _ _ ((ih r).mpr h)

theorem IsPath.mem_leaf_symbols {t : Node} (h : Full t) :
    ∀ {bits : List Bool} {s : Byte}, IsPath t bits s → s ∈ leaf_symbols t := by
  induction h with
  | leaf sy f =>
    intro bits s hp
    cases hp with
    | here => simp [leaf_symbols]
    | left _ _ _ _ _ _ h => exact absurd h IsPath.not_null
    | right _ _ _ _ _ _ h => exact absurd h IsPath.not_null
  | node sy f l r hl hr ihl ihr =>
    intro bits s hp
    rw [leaf_symbols_node _ _ _ hl, List.mem_append]
    cases hp with
    | here => exact absurd rfl hl.ne_null
    | left _ _ _ _ _ _ h => exact Or.inl (ihl h)
    | right _ _ _ _ _ _ h => exact Or.inr (ihr h)

theorem IsPath.unique {t : Node} (h : Full t) :
    (leaf_symbols t).Nodup → ∀ {b1 b2 : List Bool} {s : Byte},
      IsPath t b1 s → IsPath t b2 s → b1 = b2 := by
  induction h with
  | leaf sy f =>
    intro _ b1 b2 s h1 h2
    cases h1 with
    | here =>
      cases h2 with
      | here => rfl
      | left _ _ _ _ _ _ h => exact absurd h IsPath.not_null
      | right _ _ _ _ _ _ h => exact absurd h IsPath.not_null
    | left _ _ _ _ _ _ h => exact absurd h IsPath.not_null
    | right _ _ _ _ _ _ h => exact absurd h IsPath.not_null
  | node sy f l r hl hr ihl ihr =>
    intro hnd b1 b2 s h1 h2
    rw [leaf_symbols_node _ _ _ hl] at hnd
    have hdis := List.disjoint_of_nodup_append hnd
    have hnl := (List.nodup_append.mp hnd).1
    have hnr := (List.nodup_append.mp hnd).2.1
    cases h1 with
    | here => exact absurd rfl hl.ne_null
    | left _ _ _ _ _ _ h1 =>
      cases h2 with
      | here => cases hl
      | left _ _ _ _ _ _ h2 => rw [ihl hnl h1 h2]
      | right _ _ _ _ _ _ h2 =>
        exact absurd (IsPath.mem_leaf_symbols hr h2) (hdis (IsPath.mem_leaf_symbols hl h1))
    | right _ _ _ _ _ _ h1 =>
      cases h2 with
      | here => cases hl
      | left _ _ _ _ _ _ h2 =>
        exact absurd (IsPath.mem_leaf_symbols hr h1) (hdis (IsPath.mem_leaf_symbols hl h2))
      | right _ _ _ _ _ _ h2 => rw [ihr hnr h1 h2]

theorem IsPath.before_end {s : Byte} :
    ∀ (p e : List Bool) (t : Node), IsPath t (p ++ e) s → e ≠ [] →
      ∃ sy f l r, subtree t p = .mk sy f l r ∧ (l ≠ .null ∨ r ≠ .null) := by
  intro p
  induction p with
  | nil =>
    intro e t h he
    cases h with
    | here => exact absurd rfl he
    | left sy f l r _ _ h => exact ⟨sy, f, l, r, rfl, Or.inl (fun e => IsPath.not_null (e ▸ h))⟩
    | right sy f l r _ _ h => exact ⟨sy, f, l, r, rfl, Or.inr (fun e => IsPath.not_null (e ▸ h))⟩
  | cons b p ih =>
    intro e t h he
    rw [List.cons_append] at h
    cases h with
    | left sy f l r _ _ h => exact ih e l h he
    | right sy f l r _ _ h => exact ih e r h he

theorem dictionary_iff_path (F : FreqTable) (h2 : 2 ≤ count_unique F) (s : Byte)
    (bits : List Bool) :
    build_huffman_dictionary F s = some bits
      ↔ IsPath (build_huffman_tree (make_leaves F)) bits s := by
  obtain ⟨sy, f, l, r, ht, hl, hr, hperm, _, hz, hnz⟩ := dictionary_many F h2
  have hfull : Full (.mk sy f l r) := Full.node _ _ _ _ hl hr
  have hnd : (leaf_symbols (.mk sy f l r)).Nodup :=
    hperm.nodup_iff.mpr (symbols_nodup.filter _)
  rw [ht]
  constructor
  · intro h
    have hne : F s ≠ 0 := fun e => by rw [hz s e] at h; cases h
    obtain ⟨b', hb', hp', _⟩ := hnz s hne
    rw [hb'] at h
    cases h
    exact hp'
  · intro h
    have hmem := IsPath.mem_leaf_symbols hfull h
    have hne : F s ≠ 0 := (mem_filter_symbols F s).mp (hperm.mem_iff.mp hmem)
    obtain ⟨b', hb', hp', _⟩ := hnz s hne
    rw [hb', IsPath.unique hfull hnd hp' h]

/-! ## Decoding a payload that ends early -/

theorem decode_bits_partial (root : Node) (total : Nat) {s : Byte} (d : Nat) (o : List Byte)
    (hd : d < total) :
    ∀ (p e : List Bool) (t : Node), IsPath t (p ++ e) s → e ≠ [] →
      decode_bits root total p { current := t, decoded := d, out := o }
        = some { current := subtree t p, decoded := d, out := o } := by
  intro p
  induction p with
  | nil =>
    intro e t _ _
    cases t <;> rfl
  | cons b p ih =>
    intro e t h he
    rw [List.cons_append] at h
    have hne : p ++ e ≠ [] := by simp [he]
    cases h with
    | left sy f l r _ _ h =>
      obtain ⟨sy', f', x, y, hsub, hxy⟩ := IsPath.before_end [] (p ++ e) l h hne
      have hl : l = .mk sy' f' x y := by
        cases l with
        | null => simp [subtree] at hsub
        | mk _ _ _ _ => simpa [subtree] using hsub
      have hstep := decode_step_inner root false sy f l r d o sy' f' x y (by simp [hl]) hxy
      simp only [Bool.false_eq_true, if_false] at hstep
      simp only [decode_bits, hd, if_true, Bool.false_eq_true, if_false, hstep, subtree]
      rw [← hl]
      exact ih e l h he
    | right sy f l r _ _ h =>
      obtain ⟨sy', f', x, y, hsub, hxy⟩ := IsPath.before_end [] (p ++ e) r h hne
      have hr : r = .mk sy' f' x y := by
        cases r with
        | null => simp [subtree] at hsub
        | mk _ _ _ _ => simpa [subtree] using hsub
      have hstep := decode_step_inner root true sy f l r d o sy' f' x y (by simp [hr]) hxy
      simp only [if_true] at hstep
      simp only [decode_bits, hd, if_true, hstep, subtree]
      rw [← hr]
      exact ih e r h he

theorem fit_symbols_initial (code : Byte → List Bool) :
    ∀ (S : List Byte) (k : Nat), fit_symbols code k S <+: S := by
  intro S
  induction S with
  | nil => intro k; simp [fit_symbols]
  | cons s S ih =>
    intro k
    simp only [fit_symbols]
    split
    · exact (List.prefix_cons_inj s).mpr (ih _)
    · exact List.nil_prefix

theorem fit_symbols_fits (code : Byte → List Bool) :
    ∀ (S : List Byte) (k : Nat), ((fit_symbols code k S).flatMap code).length ≤ k := by
  intro S
  induction S with
  | nil => intro k; simp [fit_symbols]
  | cons s S ih =>
    intro k
    simp only [fit_symbols]
    split
    · rw [List.flatMap_cons, List.length_append]
      have := ih (k - (code s).length)
      omega
    · simp

theorem fit_symbols_longest (code : Byte → List Bool) :
    ∀ (S P : List Byte) (k : Nat), P <+: S → (P.flatMap code).length ≤ k →
      P <+: fit_symbols code k S := by
  intro S
  induction S with
  | nil =>
    intro P k hP _
    have : P = [] := List.prefix_nil.mp hP
    subst this; exact List.nil_prefix
  | cons s S ih =>
    intro P k hP hk
    cases P with
    | nil => exact List.nil_prefix
    | cons a P =>
      have ha : a = s := (List.cons_prefix_cons.mp hP).1
      have hP' : P <+: S := (List.cons_prefix_cons.mp hP).2
      subst ha
      rw [List.flatMap_cons, List.length_append] at hk
      simp only [fit_symbols]
      rw [if_pos (by omega)]
      exact (List.prefix_cons_inj a).mpr (ih P _ hP' (by omega))

theorem decode_bits_take (root : Node) (total : Nat) (code : Byte → List Bool)
    (rest : List Bool) :
    ∀ (S : List Byte) (k d : Nat) (o : List Byte),
      (∀ s ∈ S, IsPath root (code s) s ∧ code s ≠ []) → d + S.length = total →
      ∃ st, decode_bits root total ((S.flatMap code ++ rest).take k)
            { current := root, decoded := d, out := o } = some st ∧
        st.out = o ++ fit_symbols code k S ∧
        st.decoded = d + (fit_symbols code k S).length := by
  intro S
  induction S with
  | nil =>
    intro k d o _ hd
    refine ⟨_, decode_bits_done root total _ _ (by simp at hd; simp [hd]), ?_, ?_⟩ <;>
      simp [fit_symbols]
  | cons s S ih =>
    intro k d o hS hd
    have hs := hS s (by simp)
    simp only [List.length_cons] at hd
    simp only [fit_symbols]
    split
    · rename_i hle
      have htake : ((s :: S).flatMap code ++ rest).take k
          = code s ++ (S.flatMap code ++ rest).take (k - (code s).length) := by
        rw [List.flatMap_cons, List.append_assoc, List.take_append_eq_append_take,
          List.take_of_length_le hle]
      rw [htake, decode_bits_path root total hs.1 hs.2 _ d o (by omega)]
      obtain ⟨st, hst, hout, hdec⟩ := ih (k - (code s).length) (d + 1) (o ++ [s])
        (fun x hx => hS x (by simp [hx])) (by omega)
      refine ⟨st, hst, ?_, ?_⟩
      · rw [hout]; simp
      · rw [hdec]; simp; omega
    · rename_i hgt
      have hk : k < (code s).length := by omega
      have htake : ((s :: S).flatMap code ++ rest).take k = (code s).take k := by
        rw [List.flatMap_cons, List.append_assoc, List.take_append_of_le_length (by omega)]
      have hsplit : code s = (code s).take k ++ (code s).drop k :=
        (List.take_append_drop k (code s)).symm
      have hdrop : (code s).drop k ≠ [] := by
        intro e
        have := congrArg List.length e
        simp at this
        omega
      have hpath : IsPath root ((code s).take k ++ (code s).drop k) s := by
        rw [← hsplit]; exact hs.1
      rw [htake, decode_bits_partial root total d o (by omega) _ _ root hpath hdrop]
      exact ⟨_, rfl, by simp, by simp⟩

theorem bits_of_byte_length (b : Byte) : (bits_of_byte b).length = 8 := by
  simp [bits_of_byte]

theorem unpack_bits_take :
    ∀ (bytes : List Byte) (m : Nat),
      unpack_bits (bytes.take m) = (unpack_bits bytes).take (8 * m) := by
  intro bytes
  induction bytes with
  | nil => intro m; simp [unpack_bits]
  | cons b bytes ih =>
    intro m
    cases m with
    | zero => simp [unpack_bits]
    | succ m =>
      have e : 8 * (m + 1) = (bits_of_byte b).length + 8 * m := by
        rw [bits_of_byte_length]; omega
      have h1 : unpack_bits (b :: bytes) = bits_of_byte b ++ unpack_bits bytes := by
        simp [unpack_bits]
      have h2 : unpack_bits (b :: bytes.take m) = bits_of_byte b ++ unpack_bits (bytes.take m) := by
        simp [unpack_bits]
      rw [List.take_succ_cons, h1, h2, e, List.take_append, ih]

/-! ## What the decoder has read -/

theorem subtree_nil (t : Node) : subtree t [] = t := by
  cases t <;> rfl

theorem subtree_single (s : Byte) (f : Nat) (l r : Node) (b : Bool) :
    subtree (.mk s f l r) [b] = if b then r else l := by
  simp only [subtree]

theorem Internal.not_leaf {s : Byte} {f : Nat} : ¬ Internal (.mk s f .null .null) := by
  rintro ⟨_, _, _, _, h, hl, _⟩
  cases h
  cases hl

theorem Internal.null_absurd : ¬ Internal .null := by
  rintro ⟨_, _, _, _, h, _⟩
  cases h

theorem Full.internal_or_leaf {t : Node} (h : Full t) :
    (∃ s f, t = .mk s f .null .null) ∨ Internal t := by
  cases h with
  | leaf s f => exact Or.inl ⟨s, f, rfl⟩
  | node s f l r hl hr => exact Or.inr ⟨s, f, l, r, rfl, hl, hr⟩

theorem decode_step_child (root : Node) (b : Bool) (cur : Node) (d : Nat) (o : List Byte)
    (hcur : Internal cur) :
    (∃ s f, subtree cur [b] = .mk s f .null .null ∧
      decode_step root (if b then 1 else 0) { current := cur, decoded := d, out := o }
        = some { current := root, decoded := d + 1, out := o ++ [s] }) ∨
    (Internal (subtree cur [b]) ∧
      decode_step root (if b then 1 else 0) { current := cur, decoded := d, out := o }
        = some { current := subtree cur [b], decoded := d, out := o }) := by
  obtain ⟨sy, f, l, r, rfl, hl, hr⟩ := hcur
  have hfull : Full (if b then r else l) := by cases b <;> simp <;> assumption
  rw [subtree_single]
  rcases hfull.internal_or_leaf with ⟨s, f', hleaf⟩ | hint
  · exact Or.inl ⟨s, f', hleaf, decode_step_leaf root b sy f l r d o s f' hleaf⟩
  · refine Or.inr ⟨hint, ?_⟩
    obtain ⟨s', f', x, y, hxy, hx, _⟩ := hint
    rw [hxy]
    exact decode_step_inner root b sy f l r d o s' f' x y hxy (Or.inl hx.ne_null)

theorem decode_bits_parse (root : Node) (hroot : Internal root) (total : Nat)
    (code : Byte → List Bool)
    (hcode : ∀ s bits, IsPath root bits s → code s = bits) :
    ∀ (bits p : List Bool) (d : Nat) (o : List Byte), Internal (subtree root p) →
      ∃ st emitted rest,
        decode_bits root total bits { current := subtree root p, decoded := d, out := o }
          = some st ∧
        st.out = o ++ emitted ∧ st.decoded = d + emitted.length ∧
        p ++ bits = emitted.flatMap code ++ rest ∧
        (st.decoded < total → Internal (subtree root rest)) := by
  intro bits
  induction bits with
  | nil =>
    intro p d o hp
    exact ⟨_, [], p, rfl, by simp, by simp, by simp, fun _ => hp⟩
  | cons b bits ih =>
    intro p d o hp
    by_cases hd : d < total
    · simp only [decode_bits, hd, if_true]
      rcases decode_step_child root b (subtree root p) d o hp with ⟨s, f, hleaf, hstep⟩ | ⟨hint, hstep⟩
      · rw [hstep]
        have hpath : IsPath root (p ++ [b]) s := by
          rw [isPath_iff_subtree, subtree_append]
          exact ⟨f, hleaf⟩
        have hc := hcode s _ hpath
        have hroot' : Internal (subtree root []) := by rw [subtree_nil]; exact hroot
        obtain ⟨st, em, rest, hst, hout, hdec, hbits, hrest⟩ := ih [] (d + 1) (o ++ [s]) hroot'
        rw [subtree_nil] at hst
        refine ⟨st, s :: em, rest, hst, by rw [hout]; simp, by rw [hdec]; simp; omega, ?_, hrest⟩
        rw [List.flatMap_cons, hc, List.append_assoc, ← hbits]
        simp
      · rw [hstep]
        rw [← subtree_append] at hint ⊢
        obtain ⟨st, em, rest, hst, hout, hdec, hbits, hrest⟩ := ih (p ++ [b]) d o hint
        exact ⟨st, em, rest, hst, hout, hdec, by rw [← hbits]; simp, hrest⟩
    · refine ⟨{ current := subtree root p, decoded := d, out := o }, [], p ++ b :: bits,
        ?_, by simp, by simp, by simp, ?_⟩
      · simp [decode_bits, hd]
      · intro h; exact absurd h hd

theorem no_code_inside (root : Node) {rest c : List Bool} {s : Byte}
    (hrest : Internal (subtree root rest)) (hc : IsPath root c s) : ¬ c <+: rest := by
  rintro ⟨q, rfl⟩
  rw [subtree_append] at hrest
  obtain ⟨f, hf⟩ := (isPath_iff_subtree s c root).mp hc
  rw [hf] at hrest
  cases q with
  | nil => rw [subtree_nil] at hrest; exact Internal.not_leaf hrest
  | cons b q =>
    simp only [subtree] at hrest
    have : (if b = true then Node.null else Node.null) = Node.null := by cases b <;> rfl
    rw [this, subtree_null] at hrest
    exact Internal.null_absurd hrest

/-! ## The standalone implementation agrees on the code table -/

theorem func_generate_codes_eq :
    ∀ (t : Node) (path : List Bool) (codes : CodeTable),
      func_generate_codes t path codes = generate_codes t path codes := by
  intro t
  induction t with
  | null => intro path codes; rfl
  | mk s f l r ihl ihr =>
    intro path codes
    cases l with
    | null =>
      cases r with
      | null => rfl
      | mk s2 f2 l2 r2 =>
        simp only [func_generate_codes, generate_codes]
        rw [ihr]
    | mk s1 f1 l1 r1 =>
      simp only [func_generate_codes, generate_codes]
      rw [ihl, ihr]

theorem make_leaves_single (F : FreqTable) (v : Byte)
    (h : symbols.filter (fun i => F i ≠ 0) = [v]) :
    make_leaves F = [create_node v (F v)] := by
  rw [make_leaves, h]; rfl

theorem func_dictionary_eq (F : FreqTable) :
    func_build_huffman_dictionary F = build_huffman_dictionary F := by
  rcases Nat.lt_or_ge (count_unique F) 2 with h | h
  · rcases Nat.eq_zero_or_pos (count_unique F) with h0 | h0
    · simp [func_build_huffman_dictionary, build_huffman_dictionary, h0]
    · have h1 : count_unique F = 1 := by omega
      obtain ⟨v, hv, _, hd⟩ := dictionary_one F h1
      rw [hd]
      simp only [func_build_huffman_dictionary, h1, Nat.one_ne_zero, if_false,
        make_leaves_single F v hv]
      simp [build_huffman_tree, create_node, func_generate_codes]
  · have h0 : count_unique F ≠ 0 := by omega
    have h1 : count_unique F ≠ 1 := by omega
    simp only [func_build_huffman_dictionary, build_huffman_dictionary, h0, h1, if_false]
    rw [func_generate_codes_eq]

theorem func_encode_loop_all (codes : CodeTable) :
    ∀ (S : List Byte) (st : EncState), (∀ c ∈ S, (codes c).isSome) →
      func_encode_loop codes S st = some (encode_loop codes S st).1 := by
  intro S
  induction S with
  | nil => intro st _; rfl
  | cons c S ih =>
    intro st h
    obtain ⟨code, hc⟩ := Option.isSome_iff_exists.mp (h c (by simp))
    simp only [func_encode_loop, encode_loop, hc]
    exact ih _ (fun x hx => h x (by simp [hx]))

theorem func_encode_file_eq (S : List Byte)
    (h : ∀ c ∈ S, (build_huffman_dictionary (count_frequencies S) c).isSome) :
    func_encode_file S (count_frequencies S) = some (encode_file S).container := by
  unfold func_encode_file encode_file
  simp only [func_dictionary_eq]
  rw [func_encode_loop_all _ S _ h]

theorem wrapped_dictionary :
    build_huffman_dictionary (count_frequencies wrapped_input) 0 = none ∧
      build_huffman_dictionary (count_frequencies wrapped_input) 1 = some [false] := by
  have hiff : ∀ s, count_frequencies wrapped_input s ≠ 0 ↔ s = 1 := by
    intro s; rw [count_frequencies_wrapped]
    by_cases e : s = 1 <;> simp [e]
  have hu : count_unique (count_frequencies wrapped_input) = 1 := by
    rw [count_unique, filter_symbols_single _ 1 hiff]; rfl
  obtain ⟨w, hw, _, hd⟩ := dictionary_one _ hu
  have hw1 : w = 1 := by
    rw [filter_symbols_single _ 1 hiff] at hw
    exact (List.singleton_inj.mp hw).symm
  subst hw1
  rw [hd]
  exact ⟨Function.update_noteq (by decide) _ _, Function.update_same _ _ _⟩

theorem func_encode_file_no_code (c : Byte) (rest : List Byte)
    (h : build_huffman_dictionary (count_frequencies (c :: rest)) c = none) :
    func_encode_file (c :: rest) (count_frequencies (c :: rest)) = none := by
  unfold func_encode_file
  simp only [func_dictionary_eq, func_encode_loop, h]

theorem func_encode_wrapped :
    func_encode_file wrapped_input (count_frequencies wrapped_input) = none := by
  have := func_encode_file_no_code 0 (List.replicate 4294967295 0 ++ [1])
    (by rw [← wrapped_input_cons]; exact wrapped_dictionary.1)
  rw [← wrapped_input_cons] at this
  exact this

/-! ## Corrupt and empty headers -/

theorem read_u32_short (file : List Byte) (h : file.length < 4) : read_u32 file = none := by
  match file, h with
  | [], _ => rfl
  | [_], _ => rfl
  | [_, _], _ => rfl
  | [_, _, _], _ => rfl

theorem decode_file_of_zero (file : List Byte)
    (h : ∀ i, read_frequencies_from_huff file i = 0) :
    decode_file file = some { output := [], status := .empty_file, warning := false } := by
  have hF : read_frequencies_from_huff file = fun _ => 0 := funext h
  unfold decode_file
  simp only [hF, count_unique_pos_filter, empty_unique]
  simp

theorem decode_file_some (file : List Byte) : ∃ r, decode_file file = some r := by
  unfold decode_file
  simp only [count_unique_pos_filter]
  split
  · exact ⟨_, rfl⟩
  · split
    · exact ⟨_, rfl⟩
    · rename_i h0 h1
      have h2 : 2 ≤ count_unique (read_frequencies_from_huff file) := by omega
      obtain ⟨st, hst, _⟩ := decode_loop_total (read_frequencies_from_huff file) h2
        (skip_header file)
      unfold decode_start at hst
      rw [hst]
      exact ⟨_, rfl⟩

theorem read_entries_complete (tail : List Byte) :
    ∀ (L : List (Byte × Nat)) (n : Nat) (g : FreqTable), (∀ e ∈ L, e.2 < U32) →
      (L.length = n ∨ (L.length ≤ n ∧ tail.length < 5)) →
      read_entries n (write_entries L ++ tail) g
        = L.foldl (fun g e => Function.update g e.1 e.2) g := by
  intro L
  induction L with
  | nil =>
    intro n g _ h
    cases n with
    | zero => rfl
    | succ k =>
      have ht : tail.length < 5 := by
        rcases h with h | h
        · simp at h
        · exact h.2
      cases tail with
      | nil => rfl
      | cons c rest =>
        have : read_u32 rest = none := read_u32_short rest (by simp at ht; omega)
        simp [write_entries, read_entries, this]
  | cons e L ih =>
    intro n g hL h
    cases n with
    | zero =>
      rcases h with h | h
      · simp at h
      · simp at h
    | succ k =>
      have e1 : write_entries (e :: L) ++ tail
          = e.1 :: (write_u32 e.2 ++ (write_entries L ++ tail)) := by
        simp [write_entries, List.flatMap_cons]
      rw [e1, read_entries, read_u32_write_u32 _ (hL e (by simp))]
      simp only [List.foldl_cons]
      apply ih k _ (fun x hx => hL x (by simp [hx]))
      rcases h with h | h
      · left; simpa using h
      · right; exact ⟨by simpa using h.1, h.2⟩

theorem read_frequencies_entries (n : Nat) (hn : n < U32) (L : List (Byte × Nat))
    (tail : List Byte) (hL : ∀ e ∈ L, e.2 < U32)
    (h : L.length = n ∨ (L.length ≤ n ∧ tail.length < 5)) :
    read_frequencies_from_huff (write_u32 n ++ write_entries L ++ tail) = table_of_entries L := by
  unfold read_frequencies_from_huff table_of_entries
  rw [List.append_assoc, read_u32_write_u32 n hn]
  exact read_entries_complete tail L n _ hL h

theorem table_of_entries_zero (L : List (Byte × Nat)) (h : ∀ e ∈ L, e.2 = 0) :
    ∀ i, table_of_entries L i = 0 := by
  have key : ∀ (L : List (Byte × Nat)) (g : FreqTable), (∀ e ∈ L, e.2 = 0) → (∀ i, g i = 0) →
      ∀ i, L.foldl (fun g e => Function.update g e.1 e.2) g i = 0 := by
    intro L
    induction L with
    | nil => intro g _ hg i; exact hg i
    | cons e L ih =>
      intro g hL hg i
      rw [List.foldl_cons]
      apply ih _ (fun x hx => hL x (by simp [hx]))
      intro j
      by_cases hj : j = e.1
      · subst hj; rw [Function.update_same]; exact hL e (by simp)
      · rw [Function.update_noteq hj]; exact hg j
  exact key L _ h (fun _ => rfl)

theorem read_frequencies_short (file : List Byte) (h : file.length < 4) :
    read_frequencies_from_huff file = fun _ => 0 := by
  unfold read_frequencies_from_huff
  rw [read_u32_short file h]

/-! ## Sum of the counters -/

theorem sum_map_filter_pos (f : Byte → Nat) :
    ∀ L : List Byte, ((L.filter (fun i => decide (f i > 0))).map f).sum = (L.map f).sum := by
  intro L
  induction L with
  | nil => rfl
  | cons a L ih =>
    by_cases h : f a > 0
    · simp [List.filter_cons, h, ih]
    · have : f a = 0 := by omega
      simp [List.filter_cons, h, ih, this]

theorem sum_count_frequencies (S : List Byte) (h : ∀ b, S.count b < U32) :
    (symbols.map (count_frequencies S)).sum = S.length := by
  rw [← sum_map_filter_pos]
  exact total_symbols_count S h

/-! ## Heavier symbols are not deeper -/

theorem Weighted.full {t : Node} (h : Weighted t) : Full t := by
  induction h with
  | leaf s f => exact Full.leaf s f
  | node s f l r _ _ _ ihl ihr => exact Full.node s f l r ihl ihr

theorem Weighted.is_node {t : Node} (h : Weighted t) : t ≠ .null := h.full.ne_null

theorem subtree_mk (s : Byte) (f : Nat) (l r : Node) (b : Bool) (q : List Bool) :
    subtree (.mk s f l r) (b :: q) = subtree (if b then r else l) q := rfl

theorem leaf_no_edge (s : Byte) (f : Nat) (p : List Bool) (b : Bool) :
    subtree (.mk s f .null .null) (p ++ [b]) = .null := by
  cases p with
  | nil => cases b <;> rfl
  | cons c q =>
    rw [List.cons_append, subtree_mk]
    cases c <;> exact subtree_null _

theorem weighted_subtree {t : Node} (h : Weighted t) :
    ∀ p : List Bool, subtree t p ≠ .null → Weighted (subtree t p) := by
  induction h with
  | leaf s f =>
    intro p hp
    cases p with
    | nil => rw [subtree_nil]; exact Weighted.leaf s f
    | cons c q =>
      rw [subtree_mk] at hp
      cases c <;> exact absurd (subtree_null _) hp
  | node s f l r hl hr hf ihl ihr =>
    intro p hp
    cases p with
    | nil => rw [subtree_nil]; exact Weighted.node s f l r hl hr hf
    | cons c q =>
      rw [subtree_mk] at hp ⊢
      cases c
      · exact ihl q hp
      · exact ihr q hp

theorem Weighted.edge_sum {t : Node} (h : Weighted t) (p : List Bool) (b : Bool)
    (hb : subtree t (p ++ [b]) ≠ .null) :
    (subtree t p).freq
        = (subtree t (p ++ [false])).freq + (subtree t (p ++ [true])).freq ∧
      subtree t (p ++ [false]) ≠ .null ∧ subtree t (p ++ [true]) ≠ .null := by
  have hpn : subtree t p ≠ .null := by
    intro e
    rw [subtree_append, e, subtree_null] at hb
    exact hb rfl
  have hw := weighted_subtree h p hpn
  rw [subtree_append] at hb
  rw [subtree_append, subtree_append]
  generalize subtree t p = N at hw hb
  cases hw with
  | leaf s f =>
    exact absurd (leaf_no_edge s f [] b) hb
  | node s f l r hl hr hf =>
    refine ⟨?_, ?_, ?_⟩
    · rw [subtree_single, subtree_single]; exact hf
    · rw [subtree_single]; exact hl.is_node
    · rw [subtree_single]; exact hr.is_node

theorem Weighted.le_root {t : Node} (h : Weighted t) :
    ∀ p : List Bool, subtree t p ≠ .null → (subtree t p).freq ≤ t.freq := by
  induction h with
  | leaf s f =>
    intro p hp
    cases p with
    | nil => rw [subtree_nil]
    | cons c q =>
      rw [subtree_mk] at hp
      cases c <;> exact absurd (subtree_null _) hp
  | node s f l r hl hr hf ihl ihr =>
    intro p hp
    cases p with
    | nil => rw [subtree_nil]
    | cons c q =>
      rw [subtree_mk] at hp ⊢
      cases c
      · have := ihl q hp
        simp only [Bool.false_eq_true, if_false] at this ⊢
        simp only [Node.freq] at *
        omega
      · have := ihr q hp
        simp only [if_true] at this ⊢
        simp only [Node.freq] at *
        omega


theorem edge_lt_sum {R : Node} (hR : Weighted R) (x y : Nat)
    (hle : ∀ (p : List Bool) (b : Bool), subtree R (p ++ [b]) ≠ .null →
      (subtree R (p ++ [b])).freq ≤ x ∧ (subtree R (p ++ [b])).freq ≤ y)
    (p : List Bool) (b : Bool) (hb : subtree R (p ++ [b]) ≠ .null)
    (hlt : (subtree R (p ++ [b])).freq < x ∨ (subtree R (p ++ [b])).freq < y) :
    (subtree R p).freq < x + y := by
  obtain ⟨hsum, hf, ht⟩ := hR.edge_sum p b hb
  have h1 := hle p false hf
  have h2 := hle p true ht
  rw [hsum]
  cases b <;> omega

theorem merged_edgeLt_left (s : Byte) (a b R : Node)
    (ha : EdgeLt a R) (hb : EdgeLt b R)
    (hle : ∀ (p : List Bool) (c : Bool), subtree R (p ++ [c]) ≠ .null →
      (subtree R (p ++ [c])).freq ≤ a.freq ∧ (subtree R (p ++ [c])).freq ≤ b.freq) :
    EdgeLt (.mk s (a.freq + b.freq) a b) R := by
  intro p1 b1 p2 b2 h1 h2 hlt
  cases p1 with
  | nil =>
    have := hle p2 b2 h2
    cases b1
    · simp only [List.nil_append, subtree_single, Bool.false_eq_true, if_false] at hlt
      omega
    · simp only [List.nil_append, subtree_single, if_true] at hlt
      omega
  | cons c q =>
    rw [List.cons_append, subtree_mk] at h1 hlt
    rw [subtree_mk]
    cases c
    · exact ha q b1 p2 b2 h1 h2 hlt
    · exact hb q b1 p2 b2 h1 h2 hlt

theorem merged_edgeLt_right (s : Byte) (a b R : Node) (hR : Weighted R)
    (ha : EdgeLt R a) (hb : EdgeLt R b)
    (hle : ∀ (p : List Bool) (c : Bool), subtree R (p ++ [c]) ≠ .null →
      (subtree R (p ++ [c])).freq ≤ a.freq ∧ (subtree R (p ++ [c])).freq ≤ b.freq) :
    EdgeLt R (.mk s (a.freq + b.freq) a b) := by
  intro p1 b1 p2 b2 h1 h2 hlt
  cases p2 with
  | nil =>
    rw [subtree_nil]
    show (subtree R p1).freq < a.freq + b.freq
    apply edge_lt_sum hR _ _ hle p1 b1 h1
    cases b2
    · simp only [List.nil_append, subtree_single, Bool.false_eq_true, if_false] at hlt
      exact Or.inl hlt
    · simp only [List.nil_append, subtree_single, if_true] at hlt
      exact Or.inr hlt
  | cons c q =>
    rw [List.cons_append, subtree_mk] at h2 hlt
    rw [subtree_mk]
    cases c
    · exact ha p1 b1 q b2 h1 h2 hlt
    · exact hb p1 b1 q b2 h1 h2 hlt

theorem merged_within (s : Byte) (a b : Node) (hwa : Weighted a) (hwb : Weighted b)
    (ha : Within a) (hb : Within b) (hab : Cross a b)
    (hlea : ∀ (p : List Bool) (c : Bool), subtree a (p ++ [c]) ≠ .null →
      (subtree a (p ++ [c])).freq ≤ a.freq ∧ (subtree a (p ++ [c])).freq ≤ b.freq)
    (hleb : ∀ (p : List Bool) (c : Bool), subtree b (p ++ [c]) ≠ .null →
      (subtree b (p ++ [c])).freq ≤ a.freq ∧ (subtree b (p ++ [c])).freq ≤ b.freq) :
    Within (.mk s (a.freq + b.freq) a b) := by
  intro p1 b1 p2 b2 h1 h2 hlt
  cases p1 with
  | nil =>
    cases p2 with
    | nil => exact Or.inl rfl
    | cons c q =>
      exfalso
      rw [List.cons_append, subtree_mk] at h2 hlt
      have hc1 : (subtree (Node.mk s (a.freq + b.freq) a b) ([] ++ [b1])).freq = a.freq ∨
          (subtree (Node.mk s (a.freq + b.freq) a b) ([] ++ [b1])).freq = b.freq := by
        cases b1
        · left; simp [subtree_single]
        · right; simp [subtree_single]
      cases c
      · have := hlea q b2 h2
        simp only [Bool.false_eq_true, if_false] at hlt
        omega
      · have := hleb q b2 h2
        simp only [if_true] at hlt
        omega
  | cons c q =>
    rw [List.cons_append, subtree_mk] at h1 hlt
    cases p2 with
    | nil =>
      right
      rw [subtree_nil, subtree_mk]
      show _ < a.freq + b.freq
      have hc2 : (subtree (Node.mk s (a.freq + b.freq) a b) ([] ++ [b2])).freq = a.freq ∨
          (subtree (Node.mk s (a.freq + b.freq) a b) ([] ++ [b2])).freq = b.freq := by
        cases b2
        · left; simp [subtree_single]
        · right; simp [subtree_single]
      cases c
      · apply edge_lt_sum hwa _ _ hlea q b1 h1
        simp only [Bool.false_eq_true, if_false] at hlt
        rcases hc2 with e | e
        · left; omega
        · right; omega
      · apply edge_lt_sum hwb _ _ hleb q b1 h1
        simp only [if_true] at hlt
        rcases hc2 with e | e
        · left; omega
        · right; omega
    | cons c2 q2 =>
      rw [List.cons_append, subtree_mk] at h2 hlt
      rw [subtree_mk, subtree_mk]
      cases c <;> cases c2
      · rcases ha q b1 q2 b2 h1 h2 hlt with e | e
        · left; rw [e]
        · right; exact e
      · right; exact hab.1 q b1 q2 b2 h1 h2 hlt
      · right; exact hab.2 q b1 q2 b2 h1 h2 hlt
      · rcases hb q b1 q2 b2 h1 h2 hlt with e | e
        · left; rw [e]
        · right; exact e

theorem cross_symm {R1 R2 : Node} (h : Cross R1 R2) : Cross R2 R1 := ⟨h.2, h.1⟩

theorem leaf_within (s : Byte) (f : Nat) : Within (.mk s f .null .null) := by
  intro p1 b1 _ _ h1 _ _
  exact absurd (leaf_no_edge s f p1 b1) h1

theorem leaf_edgeLt_left (s : Byte) (f : Nat) (R : Node) : EdgeLt (.mk s f .null .null) R := by
  intro p1 b1 _ _ h1 _ _
  exact absurd (leaf_no_edge s f p1 b1) h1

theorem leaf_edgeLt_right (s : Byte) (f : Nat) (R : Node) : EdgeLt R (.mk s f .null .null) := by
  intro _ _ p2 b2 _ h2 _
  exact absurd (leaf_no_edge s f p2 b2) h2


theorem merge_loop_order :
    ∀ (n : Nat) (forest : List Node), forest.length = n + 1 → (∀ t ∈ forest, Weighted t) →
      BelowRoots forest → (∀ R ∈ forest, Within R) → forest.Pairwise Cross →
      (forest.map Node.freq).sum < U32 →
      ∃ T, merge_loop (n + 1) forest = [T] ∧ Weighted T ∧ Within T := by
  intro n
  induction n with
  | zero =>
    intro forest hlen hw _ hin _ _
    match forest, hlen with
    | [t], _ => exact ⟨t, by simp [merge_loop], hw t (by simp), hin t (by simp)⟩
  | succ n ih =>
    intro forest hlen hw hbelow hin hcross hsum
    obtain ⟨l, r, rest, _, hperm, hlr, hrest, hm, hlen3⟩ := merge_loop_step n forest hlen
    have hw' : ∀ t ∈ l :: r :: rest, Weighted t := fun t ht => hw t (hperm.mem_iff.mp ht)
    have hbelow' : BelowRoots (l :: r :: rest) := by
      intro R hR p b hb R' hR'
      exact hbelow R (hperm.mem_iff.mp hR) p b hb R' (hperm.mem_iff.mp hR')
    have hin' : ∀ R ∈ l :: r :: rest, Within R := fun t ht => hin t (hperm.mem_iff.mp ht)
    have hcross' : (l :: r :: rest).Pairwise Cross :=
      (hperm.pairwise_iff (fun h => cross_symm h)).mpr hcross
    have hsum' : ((l :: r :: rest).map Node.freq).sum < U32 := by
      rw [(hperm.map Node.freq).sum_eq]; exact hsum
    simp only [List.map_cons, List.sum_cons] at hsum'
    have hmod : (l.freq + r.freq) % U32 = l.freq + r.freq := Nat.mod_eq_of_lt (by omega)
    rw [hmod] at hm hlen3
    have hl : Weighted l := hw' l (by simp)
    have hr : Weighted r := hw' r (by simp)
    have hle : ∀ R ∈ l :: r :: rest, ∀ (p : List Bool) (c : Bool),
        subtree R (p ++ [c]) ≠ .null →
        (subtree R (p ++ [c])).freq ≤ l.freq ∧ (subtree R (p ++ [c])).freq ≤ r.freq :=
      fun R hR p c hc =>
        ⟨hbelow' R hR p c hc l (by simp), hbelow' R hR p c hc r (by simp)⟩
    rw [List.pairwise_cons, List.pairwise_cons] at hcross'
    obtain ⟨hcl, hcr, hcrest⟩ := hcross'
    have hwP : Weighted (Node.mk 0 (l.freq + r.freq) l r) := Weighted.node _ _ _ _ hl hr rfl
    obtain ⟨T, hT, hwT, hinT⟩ := ih (Node.mk 0 (l.freq + r.freq) l r :: rest) hlen3
      (by
        intro t ht
        rcases List.mem_cons.mp ht with e | e
        · rw [e]; exact hwP
        · exact hw' t (by simp [e]))
      (by
        intro R hR p b hb R' hR'
        have hR'ge : l.freq ≤ R'.freq := by
          rcases List.mem_cons.mp hR' with e | e
          · rw [e]; simp only [Node.freq]; omega
          · have := hrest R' e; omega
        rcases List.mem_cons.mp hR with e | e
        · subst e
          cases p with
          | nil =>
            cases b
            · simp only [List.nil_append, subtree_single, Bool.false_eq_true, if_false]
              exact hR'ge
            · simp only [List.nil_append, subtree_single, if_true]
              rcases List.mem_cons.mp hR' with e | e
              · rw [e]; simp only [Node.freq]; omega
              · exact hrest R' e
          | cons c q =>
            rw [List.cons_append, subtree_mk] at hb ⊢
            cases c
            · exact (hle l (by simp) q b hb).1.trans hR'ge
            · exact (hle r (by simp) q b hb).1.trans hR'ge
        · exact (hle R (by simp [e]) p b hb).1.trans hR'ge)
      (by
        intro R hR
        rcases List.mem_cons.mp hR with e | e
        · rw [e]
          exact merged_within 0 l r hl hr (hin' l (by simp)) (hin' r (by simp))
            (hcl r (by simp)) (hle l (by simp)) (hle r (by simp))
        · exact hin' R (by simp [e]))
      (by
        rw [List.pairwise_cons]
        refine ⟨?_, hcrest⟩
        intro R hR
        have h1 := hcl R (by simp [hR])
        have h2 := hcr R hR
        exact ⟨merged_edgeLt_left 0 l r R h1.1 h2.1 (hle R (by simp [hR])),
          merged_edgeLt_right 0 l r R (hw' R (by simp [hR])) h1.2 h2.2 (hle R (by simp [hR]))⟩)
      (by
        have e1 : (Node.mk 0 (l.freq + r.freq) l r).freq = l.freq + r.freq := rfl
        rw [List.map_cons, List.sum_cons, e1]
        omega)
    exact ⟨T, by rw [hm]; exact hT, hwT, hinT⟩

theorem depth_mono {T : Node} (hw : Weighted T) (hin : Within T) :
    ∀ (n : Nat) (p2 : List Bool), p2.length = n → ∀ (b2 : Bool) (p1 : List Bool) (b1 : Bool),
      subtree T (p1 ++ [b1]) ≠ .null → subtree T (p2 ++ [b2]) ≠ .null →
      (subtree T (p1 ++ [b1])).freq < (subtree T (p2 ++ [b2])).freq →
      p2.length ≤ p1.length := by
  intro n
  induction n with
  | zero => intro p2 h _ _ _ _ _ _; omega
  | succ n ih =>
    intro p2 hlen b2 p1 b1 h1 h2 hlt
    rcases hin p1 b1 p2 b2 h1 h2 hlt with e | hpar
    · rw [e]
    · have hp2 : subtree T p2 ≠ .null := by
        intro e; rw [subtree_append, e, subtree_null] at h2; exact h2 rfl
      have hp1 : subtree T p1 ≠ .null := by
        intro e; rw [subtree_append, e, subtree_null] at h1; exact h1 rfl
      rcases List.eq_nil_or_concat p1 with e1 | ⟨q1, c1, e1⟩
      · subst e1
        have := hw.le_root p2 hp2
        rw [subtree_nil] at hpar
        omega
      · rcases List.eq_nil_or_concat p2 with e2 | ⟨q2, c2, e2⟩
        · subst e2; simp at hlen
        · rw [List.concat_eq_append] at e1 e2
          subst e1 e2
          have hq2 : q2.length = n := by simpa using hlen
          have := ih q2 hq2 c2 q1 c1 hp1 hp2 hpar
          simp only [List.length_append, List.length_singleton]
          omega

theorem subtree_leaf_mem {T : Node} (h : Full T) :
    ∀ (p : List Bool) (s : Byte) (f : Nat), subtree T p = .mk s f .null .null →
      Node.mk s f .null .null ∈ leaf_nodes T := by
  induction h with
  | leaf sy fr =>
    intro p s f hp
    cases p with
    | nil => rw [subtree_nil] at hp; rw [hp]; simp [leaf_nodes]
    | cons c q =>
      rw [subtree_mk] at hp
      have : (if c = true then Node.null else Node.null) = Node.null := by cases c <;> rfl
      rw [this, subtree_null] at hp
      cases hp
  | node sy fr l r hl hr ihl ihr =>
    intro p s f hp
    rw [leaf_nodes_node _ _ _ hl, List.mem_append]
    cases p with
    | nil =>
      rw [subtree_nil] at hp
      cases hp
      cases hl
    | cons c q =>
      rw [subtree_mk] at hp
      cases c
      · exact Or.inl (ihl q s f hp)
      · exact Or.inr (ihr q s f hp)

/-! ## Heavier symbols: the code lengths -/

theorem two_of_distinct (F : FreqTable) (x y : Byte) (hxy : x ≠ y) (hx : F x ≠ 0)
    (hy : F y ≠ 0) : 2 ≤ count_unique F := by
  have mx := (mem_filter_symbols F x).mpr hx
  have my := (mem_filter_symbols F y).mpr hy
  unfold count_unique
  generalize symbols.filter (fun i => F i ≠ 0) = L at mx my
  match L, mx, my with
  | [a], mx, my =>
    simp at mx my
    exact absurd (mx.trans my.symm) hxy
  | _ :: _ :: _, _, _ => simp

theorem make_leaves_weighted (F : FreqTable) : ∀ t ∈ make_leaves F, Weighted t := by
  intro t ht
  simp only [make_leaves, List.mem_map] at ht
  obtain ⟨i, _, rfl⟩ := ht
  exact Weighted.leaf _ _

theorem make_leaves_order (F : FreqTable) :
    BelowRoots (make_leaves F) ∧ (∀ R ∈ make_leaves F, Within R) ∧
      (make_leaves F).Pairwise Cross := by
  refine ⟨?_, ?_, ?_⟩
  · intro R hR p b hb
    simp only [make_leaves, List.mem_map] at hR
    obtain ⟨i, _, rfl⟩ := hR
    exact absurd (leaf_no_edge _ _ p b) hb
  · intro R hR
    simp only [make_leaves, List.mem_map] at hR
    obtain ⟨i, _, rfl⟩ := hR
    exact leaf_within _ _
  · unfold make_leaves
    rw [List.pairwise_map]
    exact List.pairwise_of_forall
      (fun i j => ⟨leaf_edgeLt_left _ _ _, leaf_edgeLt_right _ _ _⟩)

theorem build_huffman_tree_order (F : FreqTable) (h2 : 2 ≤ count_unique F)
    (hsum : total_symbols F < U32) :
    Weighted (build_huffman_tree (make_leaves F)) ∧
      Within (build_huffman_tree (make_leaves F)) := by
  obtain ⟨n, hn⟩ : ∃ n, (make_leaves F).length = n + 2 :=
    ⟨count_unique F - 2, by rw [make_leaves_length]; omega⟩
  obtain ⟨hb, hw, hc⟩ := make_leaves_order F
  obtain ⟨T, hT, hwT, hinT⟩ := merge_loop_order (n + 1) (make_leaves F) hn
    (make_leaves_weighted F) hb hw hc (by rw [make_leaves_freq]; exact hsum)
  have e : build_huffman_tree (make_leaves F) = T := by
    rw [build_huffman_tree_eq _ n hn, hT]; rfl
  rw [e]
  exact ⟨hwT, hinT⟩

theorem leaf_of_path (F : FreqTable) (h2 : 2 ≤ count_unique F) (s : Byte) (bits : List Bool)
    (h : IsPath (build_huffman_tree (make_leaves F)) bits s) :
    subtree (build_huffman_tree (make_leaves F)) bits = create_node s (F s) := by
  obtain ⟨hint, hperm, _, _⟩ := build_huffman_tree_shape F h2
  obtain ⟨f, hf⟩ := (isPath_iff_subtree s bits _).mp h
  have hfull : Full (build_huffman_tree (make_leaves F)) := by
    obtain ⟨a, b, l, r, e, hl, hr⟩ := hint
    rw [e]; exact Full.node _ _ _ _ hl hr
  have hmem := hperm.mem_iff.mp (subtree_leaf_mem hfull bits s f hf)
  simp only [make_leaves, List.mem_map] at hmem
  obtain ⟨i, _, hi⟩ := hmem
  simp only [create_node, Node.mk.injEq, and_true] at hi
  rw [hf, create_node, ← hi.1, ← hi.2]

theorem heavier_code_le (F : FreqTable) (hsum : total_symbols F < U32) (x y : Byte)
    (hxy : F x > F y) (hy : F y > 0) :
    ∃ cx cy, build_huffman_dictionary F x = some cx ∧ build_huffman_dictionary F y = some cy ∧
      cx.length ≤ cy.length := by
  have hne : x ≠ y := fun e => by rw [e] at hxy; omega
  have h2 := two_of_distinct F x y hne (by omega) (by omega)
  obtain ⟨_, _, _, _, _, _, _, _, _, _, hnz⟩ := dictionary_many F h2
  obtain ⟨cx, hcx, _, hcxne⟩ := hnz x (by omega)
  obtain ⟨cy, hcy, _, hcyne⟩ := hnz y (by omega)
  refine ⟨cx, cy, hcx, hcy, ?_⟩
  have hpx := (dictionary_iff_path F h2 x cx).mp hcx
  have hpy := (dictionary_iff_path F h2 y cy).mp hcy
  have hlx := leaf_of_path F h2 x cx hpx
  have hly := leaf_of_path F h2 y cy hpy
  obtain ⟨hw, hin⟩ := build_huffman_tree_order F h2 hsum
  rcases List.eq_nil_or_concat cx with e | ⟨px, bx, e⟩
  · exact absurd e hcxne
  rcases List.eq_nil_or_concat cy with e' | ⟨py, by', e'⟩
  · exact absurd e' hcyne
  rw [List.concat_eq_append] at e e'
  subst e e'
  have := depth_mono hw hin px.length px rfl bx py by'
    (by rw [hly]; simp [create_node]) (by rw [hlx]; simp [create_node])
    (by rw [hly, hlx]; simp only [create_node, Node.freq]; exact hxy)
  simp only [List.length_append, List.length_singleton]
  omega

/-! ## More evaluations -/

theorem corrupt_decode :
    decode_file [2, 0, 0, 0, 97, 3, 0, 0, 0]
      = some { output := [97, 97, 97], status := .single_symbol, warning := false } := by
  rfl

theorem zero_header_decode :
    decode_file [0, 0, 0, 0, 7]
      = some { output := [], status := .empty_file, warning := false } := by
  rfl

theorem func_decode_aaaabbc :
    func_decode_file [3, 0, 0, 0, 97, 4, 0, 0, 0, 98, 2, 0, 0, 0, 99, 1, 0, 0, 0, 245, 0]
      = .written [97, 97, 97, 97, 98, 98, 99, 99, 99, 99] := by
  rfl

theorem func_decode_single :
    func_decode_file [1, 0, 0, 0, 97, 1, 0, 0, 0, 0]
      = .written [97, 97, 97, 97, 97, 97, 97, 97] := by
  rfl

theorem single_encode :
    encode_file [97] = { container := [1, 0, 0, 0, 97, 1, 0, 0, 0, 0], no_code := none } := by
  rfl

theorem aaaabbc_sum : (symbols.map (count_frequencies aaaabbc)).sum < U32 := by
  rw [sum_count_frequencies aaaabbc aaaabbc_count_lt]; decide

theorem aaaabbc_total : total_symbols (count_frequencies aaaabbc) < U32 := by
  rw [total_symbols_count aaaabbc aaaabbc_count_lt]; decide

theorem aaaabbc_fit :
    fit_symbols (fun c => (build_huffman_dictionary (count_frequencies aaaabbc) c).getD [])
      (8 * 1) aaaabbc = [97, 97, 97, 97, 98, 98] := by
  have key : ∀ g : Byte → Option (List Bool), g 97 = some [true] → g 98 = some [false, true] →
      g 99 = some [false, false] →
      fit_symbols (fun c => (g c).getD []) (8 * 1) aaaabbc = [97, 97, 97, 97, 98, 98] := by
    intro g h1 h2 h3
    simp [aaaabbc, fit_symbols, h1, h2, h3]
  exact key _ aaaabbc_codes.1 aaaabbc_codes.2.1 aaaabbc_codes.2.2

theorem aaaabbc_first_byte :
    (pack_bits [true, true, true, true, false, true, false, true, false, false]).take 1
      = [245] := by
  decide

theorem truncated_decode
    (h : decode_file (write_header (count_frequencies aaaabbc) ++
          (pack_bits (aaaabbc.flatMap
            (fun c => (build_huffman_dictionary (count_frequencies aaaabbc) c).getD []))).take 1)
        = some { output := fit_symbols
                   (fun c => (build_huffman_dictionary (count_frequencies aaaabbc) c).getD [])
                   (8 * 1) aaaabbc,
                 status := .completed,
                 warning := decide ((fit_symbols
                   (fun c => (build_huffman_dictionary (count_frequencies aaaabbc) c).getD [])
                   (8 * 1) aaaabbc).length ≠ aaaabbc.length) }) :
    decode_file (write_header (count_frequencies aaaabbc) ++ [245])
      = some { output := [97, 97, 97, 97, 98, 98], status := .completed, warning := true } := by
  rw [aaaabbc_bits, aaaabbc_first_byte, aaaabbc_fit] at h
  rw [h]
  rfl

/-! ## Stability of the sort -/

theorem bubble_pass_stable (f : Nat) :
    ∀ (k : Nat) (nodes : List Node),
      (bubble_pass k nodes).filter (fun t => decide (t.freq = f))
        = nodes.filter (fun t => decide (t.freq = f)) := by
  intro k
  induction k with
  | zero => intro nodes; simp [bubble_pass]
  | succ k ih =>
    intro nodes
    match nodes with
    | [] => simp [bubble_pass]
    | [a] => simp [bubble_pass]
    | a :: b :: rest =>
      simp only [bubble_pass]
      split
      · rename_i h
        rw [List.filter_cons, ih]
        simp only [List.filter_cons]
        by_cases ha : a.freq = f
        · have hb : ¬ b.freq = f := by omega
          simp [ha, hb]
        · simp [ha]
      · rw [List.filter_cons, ih]
        simp only [List.filter_cons]

theorem sort_passes_stable (f : Nat) (n : Nat) :
    ∀ (m i : Nat) (nodes : List Node),
      (sort_passes n m i nodes).filter (fun t => decide (t.freq = f))
        = nodes.filter (fun t => decide (t.freq = f)) := by
  intro m
  induction m with
  | zero => intro i nodes; simp [sort_passes]
  | succ m ih =>
    intro i nodes
    simp only [sort_passes]
    rw [ih, bubble_pass_stable]

theorem sort_nodes_stable (f : Nat) (nodes : List Node) (n : Nat) :
    (sort_nodes nodes n).filter (fun t => decide (t.freq = f))
      = nodes.filter (fun t => decide (t.freq = f)) :=
  sort_passes_stable f n _ _ _

theorem sort_nodes_keeps_order (nodes : List Node) (n : Nat) (P X : Node)
    (h : List.Sublist [P, X] nodes) (hf : P.freq = X.freq) :
    List.Sublist [P, X] (sort_nodes nodes n) := by
  have h1 : List.Sublist ([P, X].filter (fun t => decide (t.freq = X.freq)))
      (nodes.filter (fun t => decide (t.freq = X.freq))) := h.filter _
  rw [← sort_nodes_stable X.freq nodes n] at h1
  have h2 : [P, X].filter (fun t => decide (t.freq = X.freq)) = [P, X] := by
    simp [hf]
  rw [h2] at h1
  exact h1.trans (List.filter_sublist _)

theorem sort_nodes_head (parent : Node) (rest : List Node) (n : Nat) (l : Node)
    (tail : List Node) (h : sort_nodes (parent :: rest) n = l :: tail)
    (hf : l.freq = parent.freq) : l = parent := by
  have h1 := sort_nodes_stable parent.freq (parent :: rest) n
  rw [h] at h1
  simp [hf] at h1
  exact h1.1

/-! ## The tie-break example -/

theorem abc_tree :
    build_huffman_tree (make_leaves abc_table)
      = .mk 0 4 (.mk 0 2 (.mk 97 1 .null .null) (.mk 98 1 .null .null))
          (.mk 99 2 .null .null) := by
  decide

theorem abc_codes :
    build_huffman_dictionary abc_table 97 = some [false, false] ∧
      build_huffman_dictionary abc_table 98 = some [false, true] ∧
      build_huffman_dictionary abc_table 99 = some [true] := by
  decide

/-! ## Length of the codes and the path buffer -/

theorem path_length_le {t : Node} {bits : List Bool} {s : Byte} (hp : IsPath t bits s) :
    Full t → bits.length ≤ count_internal t := by
  induction hp with
  | here sy f => intro _; simp
  | left sy f l r bits s hl ih =>
    intro hf
    cases hf with
    | leaf => cases hl
    | node _ _ _ _ h1 h2 =>
      rw [count_internal_node _ _ _ h1, List.length_cons]
      have := ih h1
      omega
  | right sy f l r bits s hr ih =>
    intro hf
    cases hf with
    | leaf => cases hr
    | node _ _ _ _ h1 h2 =>
      rw [count_internal_node _ _ _ h1, List.length_cons]
      have := ih h2
      omega

theorem buffer_writes_node (symbol : Byte) (freq : Nat) {left right : Node}
    (hl : Full left) (hr : Full right) (depth : Nat) :
    buffer_writes (.mk symbol freq left right) depth
      = (depth :: buffer_writes left (depth + 1)) ++ (depth :: buffer_writes right (depth + 1)) := by
  cases hl <;> cases hr <;> simp [buffer_writes]

theorem buffer_writes_le {t : Node} (h : Full t) :
    ∀ depth : Nat, ∀ i ∈ buffer_writes t depth, i ≤ depth + count_internal t := by
  induction h with
  | leaf s f => intro depth i hi; simp [buffer_writes] at hi; omega
  | node s f l r hl hr ihl ihr =>
    intro depth i hi
    rw [buffer_writes_node _ _ hl hr] at hi
    rw [count_internal_node _ _ _ hl]
    simp only [List.mem_append, List.mem_cons] at hi
    rcases hi with (e | h1) | (e | h1)
    · omega
    · have := ihl _ i h1; omega
    · omega
    · have := ihr _ i h1; omega

theorem dictionary_length_le (F : FreqTable) (h2 : 2 ≤ count_unique F) (s : Byte)
    (bits : List Bool) (h : build_huffman_dictionary F s = some bits) :
    1 ≤ bits.length ∧ bits.length ≤ count_unique F - 1 := by
  obtain ⟨hint, _, hci, _⟩ := build_huffman_tree_shape F h2
  have hp := (dictionary_iff_path F h2 s bits).mp h
  obtain ⟨sy, f, l, r, e, hl, hr⟩ := hint
  have hfull : Full (build_huffman_tree (make_leaves F)) := by rw [e]; exact Full.node _ _ _ _ hl hr
  have hle := path_length_le hp hfull
  rw [hci] at hle
  refine ⟨?_, hle⟩
  rw [e] at hp
  cases hp with
  | here => cases hl
  | left => simp
  | right => simp

theorem tree_writes_le (F : FreqTable) (h2 : 2 ≤ count_unique F) :
    ∀ i ∈ buffer_writes (build_huffman_tree (make_leaves F)) 0, i ≤ count_unique F - 1 := by
  obtain ⟨hint, _, hci, _⟩ := build_huffman_tree_shape F h2
  obtain ⟨sy, f, l, r, e, hl, hr⟩ := hint
  have hfull : Full (build_huffman_tree (make_leaves F)) := by rw [e]; exact Full.node _ _ _ _ hl hr
  intro i hi
  have := buffer_writes_le hfull 0 i hi
  omega

/-! ## The nodes the decoder dereferences -/

theorem decode_cursors_internal (root : Node) (hroot : Internal root) (total : Nat) :
    ∀ (bits : List Bool) (st : DecState), Internal st.current →
      (∀ c ∈ decode_cursors root total bits st, Internal c) ∧
        (decode_cursors root total bits st).length ≤ bits.length := by
  intro bits
  induction bits with
  | nil => intro st _; simp [decode_cursors]
  | cons b bs ih =>
    intro st hst
    simp only [decode_cursors]
    split
    · obtain ⟨st', h1, h2, _⟩ := decode_step_internal root hroot (if b then 1 else 0) st hst
      rw [h1]
      obtain ⟨h3, h4⟩ := ih st' h2
      refine ⟨?_, ?_⟩
      · intro c hc
        rcases List.mem_cons.mp hc with e | e
        · rw [e]; exact hst
        · exact h3 c e
      · simp only [List.length_cons]; omega
    · simp

theorem unpack_bits_length (bytes : List Byte) : (unpack_bits bytes).length = 8 * bytes.length := by
  induction bytes with
  | nil => rfl
  | cons b bs ih =>
    have e : unpack_bits (b :: bs) = bits_of_byte b ++ unpack_bits bs := by
      simp [unpack_bits]
    rw [e, List.length_append, ih, bits_of_byte_length, List.length_cons]
    omega

theorem internal_children {c : Node} (h : Internal c) :
    ∃ s f l r, c = .mk s f l r ∧ l ≠ .null ∧ r ≠ .null := by
  obtain ⟨s, f, l, r, e, hl, hr⟩ := h
  exact ⟨s, f, l, r, e, hl.ne_null, hr.ne_null⟩

/-! ## Kraft sums -/

theorem kraft_cons (l : Nat) (ls : List Nat) : kraft (l :: ls) = (1 / 2 : ℚ) ^ l + kraft ls := by
  simp [kraft]

theorem kraft_nonneg (ls : List Nat) : 0 ≤ kraft ls := by
  induction ls with
  | nil => simp [kraft]
  | cons l ls ih => rw [kraft_cons]; positivity

theorem kraft_perm {a b : List Nat} (h : a.Perm b) : kraft a = kraft b := by
  unfold kraft
  exact (h.map _).sum_eq

theorem half_pow_mul (l m : Nat) (h : l ≤ m) : (1 / 2 : ℚ) ^ l * 2 ^ m = 2 ^ (m - l) := by
  have e : (2 : ℚ) ^ m = 2 ^ (m - l) * 2 ^ l := by
    rw [← pow_add]; congr 1; omega
  rw [e, one_div, inv_pow]
  field_simp

theorem kraft_integral (m : Nat) :
    ∀ ls : List Nat, (∀ l ∈ ls, l ≤ m) → ∃ N : Nat, kraft ls * 2 ^ m = N := by
  intro ls
  induction ls with
  | nil => intro _; exact ⟨0, by simp [kraft]⟩
  | cons l ls ih =>
    intro h
    obtain ⟨N, hN⟩ := ih (fun x hx => h x (List.mem_cons_of_mem _ hx))
    have hl : l ≤ m := h l (List.mem_cons_self _ _)
    refine ⟨2 ^ (m - l) + N, ?_⟩
    rw [kraft_cons, add_mul, hN, half_pow_mul l m hl]
    push_cast
    ring

theorem kraft_lower (la lb : Nat) (rest : List Nat) (hab : lb ≤ la)
    (hrest : ∀ l ∈ rest, l ≤ lb) (hk : kraft (la :: lb :: rest) ≤ 1) :
    kraft (lb :: lb :: rest) ≤ 1 := by
  rcases Nat.eq_or_lt_of_le hab with e | hlt
  · rw [e]; rw [e] at hk; exact hk
  · obtain ⟨N, hN⟩ := kraft_integral lb (lb :: rest) (by
      intro l hl
      rcases List.mem_cons.mp hl with e | e
      · omega
      · exact hrest l e)
    rw [kraft_cons] at hk ⊢
    have hpos : (0 : ℚ) < (1 / 2) ^ la := by positivity
    have h2 : (0 : ℚ) < 2 ^ lb := by positivity
    have h3 : kraft (lb :: rest) < 1 := by linarith
    have h4 : (N : ℚ) < 2 ^ lb := by
      rw [← hN]
      calc kraft (lb :: rest) * 2 ^ lb < 1 * 2 ^ lb := mul_lt_mul_of_pos_right h3 h2
        _ = 2 ^ lb := one_mul _
    have h5 : N < 2 ^ lb := by exact_mod_cast h4
    have h6 : (N : ℚ) + 1 ≤ 2 ^ lb := by exact_mod_cast h5
    have h7 : (1 / 2 : ℚ) ^ lb * 2 ^ lb = 1 := by
      rw [half_pow_mul lb lb le_rfl]; simp
    have h8 : ((1 / 2 : ℚ) ^ lb + kraft (lb :: rest)) * 2 ^ lb ≤ 1 * 2 ^ lb := by
      rw [add_mul, h7, hN]; linarith
    exact le_of_mul_le_mul_right h8 h2

theorem kraft_pair_pos (m : Nat) (rest : List Nat) (hk : kraft (m :: m :: rest) ≤ 1) :
    1 ≤ m := by
  rcases Nat.eq_zero_or_pos m with e | e
  · rw [e, kraft_cons, kraft_cons] at hk
    have := kraft_nonneg rest
    norm_num at hk
    linarith
  · exact e

theorem kraft_merge (m : Nat) (rest : List Nat) :
    kraft (m :: rest) = kraft ((m + 1) :: (m + 1) :: rest) := by
  rw [kraft_cons, kraft_cons, kraft_cons, pow_succ]
  ring

/-! ## Costs of assignments of lengths -/

theorem cost_cons (w l : Nat) (asg : List (Nat × Nat)) :
    cost ((w, l) :: asg) = w * l + cost asg := by
  simp [cost]

theorem cost_perm {a b : List (Nat × Nat)} (h : a.Perm b) : cost a = cost b := by
  unfold cost
  exact (h.map _).sum_eq

theorem exchange_le (wa we la le : Nat) (hw : wa ≤ we) (hl : la ≤ le) :
    wa * le + we * la ≤ wa * la + we * le := by
  obtain ⟨d1, rfl⟩ := Nat.exists_eq_add_of_le hw
  obtain ⟨d2, rfl⟩ := Nat.exists_eq_add_of_le hl
  nlinarith [Nat.zero_le (d1 * d2)]

theorem reduce_two :
    ∀ (k : Nat) (rest : List (Nat × Nat)) (wa wb la lb : Nat),
      (rest.map Prod.snd).sum < k → wa ≤ wb → (∀ e ∈ rest, wb ≤ e.1) →
      kraft (la :: lb :: rest.map Prod.snd) ≤ 1 →
      ∃ (rest' : List (Nat × Nat)) (m : Nat), (rest'.map Prod.fst).Perm (rest.map Prod.fst) ∧
        kraft (m :: rest'.map Prod.snd) ≤ 1 ∧
        (wa + wb) * m + cost rest' + wa + wb ≤ wa * la + wb * lb + cost rest := by
  intro k
  induction k with
  | zero => intro rest wa wb la lb h; omega
  | succ k ih =>
    intro rest wa wb la lb hk hab hw hkr
    have swap : ∀ e ∈ rest, ∃ r2 : List (Nat × Nat),
        rest.Perm (e :: r2) ∧
        (rest.map Prod.snd).sum = e.2 + (r2.map Prod.snd).sum ∧
        cost rest = e.1 * e.2 + cost r2 ∧
        kraft (rest.map Prod.snd) = (1 / 2 : ℚ) ^ e.2 + kraft (r2.map Prod.snd) ∧
        (∀ x ∈ r2, x ∈ rest) := by
      intro e he
      obtain ⟨s, t, hst⟩ := List.append_of_mem he
      have hp : rest.Perm (e :: (s ++ t)) := by rw [hst]; exact List.perm_middle
      refine ⟨s ++ t, hp, ?_, ?_, ?_, ?_⟩
      · rw [(hp.map Prod.snd).sum_eq]; simp
      · rw [cost_perm hp]; simp [cost]
      · rw [kraft_perm (hp.map Prod.snd), List.map_cons, kraft_cons]
      · intro x hx
        exact hp.symm.subset (List.mem_cons_of_mem _ hx)
    by_cases hA : ∃ e ∈ rest, la < e.2
    · obtain ⟨e, he, hlt⟩ := hA
      obtain ⟨r2, hp, hsum, hcost, hkraft, hmem⟩ := swap e he
      obtain ⟨rest', m, h1, h2, h3⟩ := ih ((e.1, la) :: r2) wa wb e.2 lb
        (by simp only [List.map_cons, List.sum_cons]; omega) hab
        (by
          intro x hx
          rcases List.mem_cons.mp hx with e1 | e1
          · rw [e1]; exact hw e he
          · exact hw x (hmem x e1))
        (by
          simp only [List.map_cons, kraft_cons] at hkr ⊢
          rw [hkraft] at hkr
          linarith)
      refine ⟨rest', m, h1.trans ?_, h2, ?_⟩
      · have := (hp.map Prod.fst).symm
        simpa using this
      · rw [hcost]
        rw [cost_cons] at h3
        have := exchange_le wa e.1 la e.2 (le_trans hab (hw e he)) (by omega)
        omega
    · by_cases hB : ∃ e ∈ rest, lb < e.2
      · obtain ⟨e, he, hlt⟩ := hB
        obtain ⟨r2, hp, hsum, hcost, hkraft, hmem⟩ := swap e he
        obtain ⟨rest', m, h1, h2, h3⟩ := ih ((e.1, lb) :: r2) wa wb la e.2
          (by simp only [List.map_cons, List.sum_cons]; omega) hab
          (by
            intro x hx
            rcases List.mem_cons.mp hx with e1 | e1
            · rw [e1]; exact hw e he
            · exact hw x (hmem x e1))
          (by
            simp only [List.map_cons, kraft_cons] at hkr ⊢
            rw [hkraft] at hkr
            linarith)
        refine ⟨rest', m, h1.trans ?_, h2, ?_⟩
        · have := (hp.map Prod.fst).symm
          simpa using this
        · rw [hcost]
          rw [cost_cons] at h3
          have := exchange_le wb e.1 lb e.2 (hw e he) (by omega)
          omega
      · push_neg at hA hB
        have hA' : ∀ l ∈ rest.map Prod.snd, l ≤ la := by
          intro l hl
          obtain ⟨e, he, rfl⟩ := List.mem_map.mp hl
          exact hA e he
        have hB' : ∀ l ∈ rest.map Prod.snd, l ≤ lb := by
          intro l hl
          obtain ⟨e, he, rfl⟩ := List.mem_map.mp hl
          exact hB e he
        rcases le_total lb la with h | h
        · have hk2 := kraft_lower la lb _ h hB' hkr
          obtain ⟨m, rfl⟩ : ∃ m, lb = m + 1 :=
            ⟨lb - 1, by have := kraft_pair_pos lb _ hk2; omega⟩
          refine ⟨rest, m, List.Perm.refl _, by rw [kraft_merge]; exact hk2, ?_⟩
          have : wa * (m + 1) ≤ wa * la := Nat.mul_le_mul_left _ h
          nlinarith
        · have hkr' : kraft (lb :: la :: rest.map Prod.snd) ≤ 1 := by
            rw [kraft_perm (List.Perm.swap la lb _)]; exact hkr
          have hk2 := kraft_lower lb la _ h hA' hkr'
          obtain ⟨m, rfl⟩ : ∃ m, la = m + 1 :=
            ⟨la - 1, by have := kraft_pair_pos la _ hk2; omega⟩
          refine ⟨rest, m, List.Perm.refl _, by rw [kraft_merge]; exact hk2, ?_⟩
          have : wb * (m + 1) ≤ wb * lb := Nat.mul_le_mul_left _ h
          nlinarith

/-! ## The merge loop minimises the cost -/

theorem inner_weight_node (symbol : Byte) (freq : Nat) {left : Node} (right : Node)
    (h : Full left) :
    inner_weight (.mk symbol freq left right)
      = freq + inner_weight left + inner_weight right := by
  cases h <;> simp [inner_weight]

theorem weighted_path_length_node (symbol : Byte) (freq : Nat) {left : Node} (right : Node)
    (h : Full left) (d : Nat) :
    weighted_path_length (.mk symbol freq left right) d
      = weighted_path_length left (d + 1) + weighted_path_length right (d + 1) := by
  cases h <;> simp [weighted_path_length]

theorem perm_fst_cons (asg : List (Nat × Nat)) (w : Nat) (ws : List Nat)
    (h : (asg.map Prod.fst).Perm (w :: ws)) :
    ∃ (l : Nat) (asg2 : List (Nat × Nat)),
      asg.Perm ((w, l) :: asg2) ∧ (asg2.map Prod.fst).Perm ws := by
  have hmem : w ∈ asg.map Prod.fst := h.symm.subset (List.mem_cons_self _ _)
  obtain ⟨e, he, hew⟩ := List.mem_map.mp hmem
  obtain ⟨s, t, hst⟩ := List.append_of_mem he
  have hp : asg.Perm (e :: (s ++ t)) := by rw [hst]; exact List.perm_middle
  have e2 : e = (w, e.2) := by rw [← hew]
  refine ⟨e.2, s ++ t, by rw [← e2]; exact hp, ?_⟩
  have h3 := (hp.map Prod.fst).symm.trans h
  rw [List.map_cons, hew] at h3
  exact h3.cons_inv

theorem merge_loop_cost :
    ∀ (n : Nat) (nodes : List Node), nodes.length = n + 1 → (∀ t ∈ nodes, Full t) →
      (nodes.map Node.freq).sum < U32 →
      ∃ t, merge_loop (n + 1) nodes = [t] ∧
        ∀ asg : List (Nat × Nat), (asg.map Prod.fst).Perm (nodes.map Node.freq) →
          kraft (asg.map Prod.snd) ≤ 1 →
          inner_weight t ≤ (nodes.map inner_weight).sum + cost asg := by
  intro n
  induction n with
  | zero =>
    intro nodes hlen _ _
    match nodes, hlen with
    | [t], _ => exact ⟨t, by simp [merge_loop], fun asg _ _ => by simp⟩
  | succ n ih =>
    intro nodes hlen hfull hsum
    obtain ⟨l, r, rest, _, hperm, hlr, hrest, hstep, hlen'⟩ := merge_loop_step n nodes hlen
    have hl : Full l := hfull l (hperm.subset (by simp))
    have hr : Full r := hfull r (hperm.subset (by simp))
    have hsumeq : (nodes.map Node.freq).sum = l.freq + r.freq + (rest.map Node.freq).sum := by
      rw [← (hperm.map Node.freq).sum_eq]
      simp only [List.map_cons, List.sum_cons]
      omega
    have hinner : (nodes.map inner_weight).sum
        = inner_weight l + inner_weight r + (rest.map inner_weight).sum := by
      rw [← (hperm.map inner_weight).sum_eq]
      simp only [List.map_cons, List.sum_cons]
      omega
    have hmod : (l.freq + r.freq) % U32 = l.freq + r.freq := Nat.mod_eq_of_lt (by omega)
    rw [hmod] at hstep hlen'
    have e1 : (Node.mk 0 (l.freq + r.freq) l r).freq = l.freq + r.freq := rfl
    obtain ⟨t, ht, hopt⟩ := ih (Node.mk 0 (l.freq + r.freq) l r :: rest) hlen'
      (by
        intro x hx
        rcases List.mem_cons.mp hx with e | e
        · rw [e]; exact Full.node _ _ _ _ hl hr
        · exact hfull x (hperm.subset (by simp [e])))
      (by rw [List.map_cons, List.sum_cons, e1]; omega)
    refine ⟨t, by rw [hstep]; exact ht, ?_⟩
    intro asg hfst hk
    have hfst2 : (asg.map Prod.fst).Perm (l.freq :: r.freq :: rest.map Node.freq) :=
      hfst.trans (hperm.map Node.freq).symm
    obtain ⟨la, asg2, hp2, hfst3⟩ := perm_fst_cons asg _ _ hfst2
    obtain ⟨lb, asg3, hp3, hfst4⟩ := perm_fst_cons asg2 _ _ hfst3
    have hp : asg.Perm ((l.freq, la) :: (r.freq, lb) :: asg3) := hp2.trans (hp3.cons _)
    have hcost : cost asg = l.freq * la + r.freq * lb + cost asg3 := by
      rw [cost_perm hp, cost_cons, cost_cons]; omega
    have hk2 : kraft (la :: lb :: asg3.map Prod.snd) ≤ 1 := by
      rw [kraft_perm (hp.map Prod.snd)] at hk
      exact hk
    obtain ⟨rest', m, h1, h2, h3⟩ := reduce_two ((asg3.map Prod.snd).sum + 1) asg3
      l.freq r.freq la lb (by omega) hlr
      (by
        intro e he
        have : e.1 ∈ rest.map Node.freq := hfst4.subset (List.mem_map_of_mem _ he)
        obtain ⟨x, hx, hxe⟩ := List.mem_map.mp this
        rw [← hxe]
        exact hrest x hx)
      hk2
    have h4 := hopt ((l.freq + r.freq, m) :: rest')
      (by
        rw [List.map_cons, List.map_cons, e1]
        exact (h1.trans hfst4).cons _)
      (by rw [List.map_cons]; exact h2)
    rw [List.map_cons, List.sum_cons, inner_weight_node _ _ _ hl, cost_cons] at h4
    rw [hinner, hcost]
    omega

theorem weighted_path_length_eq {t : Node} (h : Weighted t) :
    ∀ d : Nat, weighted_path_length t d = inner_weight t + t.freq * d := by
  induction h with
  | leaf s f => intro d; simp [weighted_path_length, inner_weight, Node.freq]
  | node s f l r hl hr hf ihl ihr =>
    intro d
    rw [weighted_path_length_node _ _ _ hl.full, inner_weight_node _ _ _ hl.full, ihl, ihr]
    have e1 : (Node.mk s f l r).freq = f := rfl
    rw [e1, hf]
    ring

theorem generate_codes_cost (w : Byte → Nat) {t : Node} (h : Full t) :
    ∀ (path : List Bool) (codes : CodeTable), (leaf_symbols t).Nodup →
      (∀ s f, Node.mk s f .null .null ∈ leaf_nodes t → f = w s) →
      ((leaf_symbols t).map
          (fun s => w s * ((generate_codes t path codes s).getD []).length)).sum
        = weighted_path_length t path.length := by
  induction h with
  | leaf s f =>
    intro path codes _ hw
    have := hw s f (by simp [leaf_nodes])
    simp [leaf_symbols, generate_codes, weighted_path_length, this]
  | node s f l r hl hr ihl ihr =>
    intro path codes hnd hw
    rw [leaf_symbols_node _ _ _ hl] at hnd
    rw [leaf_symbols_node _ _ _ hl, generate_codes_node _ _ _ hl,
      weighted_path_length_node _ _ _ hl, List.map_append, List.sum_append]
    have hdis := (List.nodup_append.mp hnd)
    have hleft : (leaf_symbols l).map (fun x => w x *
          ((generate_codes r (path ++ [true])
            (generate_codes l (path ++ [false]) codes) x).getD []).length)
        = (leaf_symbols l).map (fun x => w x *
          ((generate_codes l (path ++ [false]) codes x).getD []).length) := by
      apply List.map_congr_left
      intro x hx
      rw [generate_codes_not_mem hr _ _ x (fun hxr => hdis.2.2 hx hxr)]
    rw [hleft, ihl (path ++ [false]) codes hdis.1
        (fun s f hm => hw s f (by rw [leaf_nodes_node _ _ _ hl]; simp [hm])),
      ihr (path ++ [true]) _ hdis.2.1
        (fun s f hm => hw s f (by rw [leaf_nodes_node _ _ _ hl]; simp [hm]))]
    simp

theorem sum_map_filter_ne (F : FreqTable) (g : Byte → Nat) :
    ∀ L : List Byte,
      ((L.filter (fun i => F i ≠ 0)).map (fun s => F s * g s)).sum
        = (L.map (fun s => F s * g s)).sum := by
  intro L
  induction L with
  | nil => rfl
  | cons a L ih =>
    rw [List.filter_cons]
    by_cases h : F a = 0
    · have e : decide (F a ≠ 0) = false := by simp [h]
      rw [e]
      simp only [Bool.false_eq_true, if_false, List.map_cons, List.sum_cons, ih, h,
        Nat.zero_mul, Nat.zero_add]
    · have e : decide (F a ≠ 0) = true := by simp [h]
      rw [e]
      simp only [if_true, List.map_cons, List.sum_cons, ih]

theorem dictionary_cost (F : FreqTable) (h2 : 2 ≤ count_unique F)
    (hsum : total_symbols F < U32) :
    encoded_length F (fun s => ((build_huffman_dictionary F s).getD []).length)
      = inner_weight (build_huffman_tree (make_leaves F)) := by
  obtain ⟨hw, _⟩ := build_huffman_tree_order F h2 hsum
  obtain ⟨_, hleaves, _, _⟩ := build_huffman_tree_shape F h2
  obtain ⟨s, f, l, r, htree, hl, hr, hperm, hdict, _, _⟩ := dictionary_many F h2
  have hfull : Full (build_huffman_tree (make_leaves F)) := by
    rw [htree]; exact Full.node _ _ _ _ hl hr
  have hnd : (leaf_symbols (build_huffman_tree (make_leaves F))).Nodup := by
    rw [htree]
    exact hperm.nodup_iff.mpr (symbols_nodup.filter _)
  have hcost := generate_codes_cost F hfull [] (fun _ => none) hnd
    (by
      intro s f hm
      have hm2 : Node.mk s f .null .null ∈ make_leaves F := hleaves.subset hm
      unfold make_leaves at hm2
      obtain ⟨i, _, hi⟩ := List.mem_map.mp hm2
      unfold create_node at hi
      injection hi with e1 e2
      rw [← e2, ← e1])
  rw [weighted_path_length_eq hw, List.length_nil, Nat.mul_zero, Nat.add_zero] at hcost
  have hperm2 : (symbols.filter (fun i => F i ≠ 0)).Perm
      (leaf_symbols (build_huffman_tree (make_leaves F))) := by
    rw [htree]; exact hperm.symm
  rw [← hcost, encoded_length, ← sum_map_filter_ne, hdict, ← htree]
  exact List.Perm.sum_eq (List.Perm.map _ hperm2)

theorem dictionary_cost_le (F : FreqTable) (h2 : 2 ≤ count_unique F)
    (hsum : total_symbols F < U32) (len : Byte → Nat)
    (hk : kraft ((symbols.filter (fun i => F i ≠ 0)).map len) ≤ 1) :
    encoded_length F (fun s => ((build_huffman_dictionary F s).getD []).length)
      ≤ encoded_length F len := by
  rw [dictionary_cost F h2 hsum]
  obtain ⟨n, hn⟩ : ∃ n, (make_leaves F).length = n + 2 :=
    ⟨count_unique F - 2, by rw [make_leaves_length]; omega⟩
  obtain ⟨t, ht, hopt⟩ := merge_loop_cost (n + 1) (make_leaves F) hn (make_leaves_full F)
    (by rw [make_leaves_freq]; exact hsum)
  have e : build_huffman_tree (make_leaves F) = t := by
    rw [build_huffman_tree_eq _ n hn, ht]; rfl
  rw [e]
  have h := hopt ((symbols.filter (fun i => F i ≠ 0)).map (fun s => (F s, len s)))
    (by
      unfold make_leaves
      rw [List.map_map, List.map_map]
      exact List.Perm.of_eq (List.map_congr_left (fun s _ => rfl)))
    (by
      rw [List.map_map]
      exact hk)
  have hz : ((make_leaves F).map inner_weight).sum = 0 := by
    unfold make_leaves
    rw [List.map_map]
    apply List.sum_eq_zero
    intro x hx
    obtain ⟨i, _, hi⟩ := List.mem_map.mp hx
    rw [← hi]
    rfl
  rw [hz, Nat.zero_add] at h
  have hc : cost ((symbols.filter (fun i => F i ≠ 0)).map (fun s => (F s, len s)))
      = encoded_length F len := by
    unfold cost encoded_length
    rw [List.map_map, ← sum_map_filter_ne]
    rfl
  rw [hc] at h
  exact h

/-! ## Kraft inequality for prefix-free words -/

theorem kraft_split :
    ∀ ws : List (List Bool), (∀ w ∈ ws, w ≠ []) →
      kraft (ws.map List.length)
        = (1 / 2) * (kraft ((tails false ws).map List.length)
            + kraft ((tails true ws).map List.length)) := by
  intro ws
  induction ws with
  | nil => intro _; simp [kraft, tails]
  | cons w ws ih =>
    intro h
    have ih2 := ih (fun x hx => h x (List.mem_cons_of_mem _ hx))
    match w, h w (List.mem_cons_self _ _) with
    | c :: t, _ =>
      cases c
      · have e1 : tails false ((false :: t) :: ws) = t :: tails false ws := by
          simp [tails, List.filterMap_cons]
        have e2 : tails true ((false :: t) :: ws) = tails true ws := by
          simp [tails, List.filterMap_cons]
        rw [e1, e2, List.map_cons, List.map_cons, kraft_cons, kraft_cons, ih2,
          List.length_cons, pow_succ]
        ring
      · have e1 : tails true ((true :: t) :: ws) = t :: tails true ws := by
          simp [tails, List.filterMap_cons]
        have e2 : tails false ((true :: t) :: ws) = tails false ws := by
          simp [tails, List.filterMap_cons]
        rw [e1, e2, List.map_cons, List.map_cons, kraft_cons, kraft_cons, ih2,
          List.length_cons, pow_succ]
        ring

theorem mem_tails (b : Bool) (ws : List (List Bool)) (t : List Bool) :
    t ∈ tails b ws ↔ (b :: t) ∈ ws := by
  unfold tails
  rw [List.mem_filterMap]
  constructor
  · rintro ⟨w, hw, hf⟩
    match w, hw, hf with
    | c :: u, hw, hf =>
      by_cases hc : c = b
      · simp [hc] at hf
        rw [← hf, ← hc]; exact hw
      · simp [hc] at hf
  · intro h
    exact ⟨b :: t, h, by simp⟩

theorem tails_pairwise (b : Bool) (ws : List (List Bool))
    (h : ws.Pairwise (fun x y => ¬ x <+: y ∧ ¬ y <+: x)) :
    (tails b ws).Pairwise (fun x y => ¬ x <+: y ∧ ¬ y <+: x) := by
  unfold tails
  refine List.Pairwise.filterMap _ ?_ h
  intro x y hxy u hu v hv
  match x, y, hu, hv with
  | c :: x', d :: y', hu, hv =>
    by_cases hc : c = b
    · by_cases hd : d = b
      · simp [hc, hd] at hu hv
        subst hu hv hc hd
        simp only [List.cons_prefix_cons, true_and] at hxy
        exact hxy
      · simp [hd] at hv
    · simp [hc] at hu

theorem kraft_words :
    ∀ (n : Nat) (ws : List (List Bool)), (∀ w ∈ ws, w.length ≤ n) →
      ws.Pairwise (fun x y => ¬ x <+: y ∧ ¬ y <+: x) → kraft (ws.map List.length) ≤ 1 := by
  intro n
  induction n with
  | zero =>
    intro ws hlen hp
    match ws, hlen, hp with
    | [], _, _ => simp [kraft]
    | [w], hlen, _ =>
      have : w.length = 0 := by have := hlen w (by simp); omega
      simp [kraft, this]
    | a :: b :: rest, hlen, hp =>
      have ha : a = [] := List.length_eq_zero.mp (by have := hlen a (by simp); omega)
      have := (List.pairwise_cons.mp hp).1 b (by simp)
      rw [ha] at this
      exact False.elim (this.1 List.nil_prefix)
  | succ n ih =>
    intro ws hlen hp
    match ws, hlen, hp with
    | [], _, _ => simp [kraft]
    | [w], _, _ =>
      rw [List.map_cons, List.map_nil, kraft_cons]
      have : (1 / 2 : ℚ) ^ w.length ≤ 1 := pow_le_one₀ (by norm_num) (by norm_num)
      simpa [kraft] using this
    | a :: b :: rest, hlen, hp =>
      have hne : ∀ w ∈ a :: b :: rest, w ≠ [] := by
        intro w hw hnil
        rw [hnil] at hw
        have hpa := List.pairwise_cons.mp hp
        rcases List.mem_cons.mp hw with e | e
        · have := hpa.1 b (by simp)
          rw [← e] at this
          exact this.1 List.nil_prefix
        · have := hpa.1 [] e
          exact this.2 List.nil_prefix
      rw [kraft_split _ hne]
      have h0 := ih (tails false (a :: b :: rest))
        (by
          intro t ht
          have := hlen _ ((mem_tails _ _ _).mp ht)
          simp only [List.length_cons] at this
          omega)
        (tails_pairwise _ _ hp)
      have h1 := ih (tails true (a :: b :: rest))
        (by
          intro t ht
          have := hlen _ ((mem_tails _ _ _).mp ht)
          simp only [List.length_cons] at this
          omega)
        (tails_pairwise _ _ hp)
      linarith

theorem kraft_of_code (L : List Byte) (hnd : L.Nodup) (C : Byte → List Bool)
    (h : PrefixFreeOn L C) : kraft (L.map (fun s => (C s).length)) ≤ 1 := by
  have hp : (L.map C).Pairwise (fun x y => ¬ x <+: y ∧ ¬ y <+: x) := by
    rw [List.pairwise_map]
    have h1 : L.Pairwise (fun a b => a ≠ b) := hnd
    exact (List.Pairwise.and_mem.mp h1).imp
      (fun hab => ⟨h _ hab.1 _ hab.2.1 hab.2.2, h _ hab.2.1 _ hab.1 (Ne.symm hab.2.2)⟩)
  have hb : ∀ w ∈ L.map C, w.length ≤ ((L.map C).map List.length).sum := by
    intro w hw
    exact List.single_le_sum (fun _ _ => Nat.zero_le _) _ (List.mem_map_of_mem _ hw)
  have := kraft_words _ (L.map C) hb hp
  rw [List.map_map] at this
  exact this

/-! ## The number of code bits -/

theorem flatMap_length (g : Byte → List Bool) :
    ∀ S : List Byte, (S.flatMap g).length = (S.map (fun c => (g c).length)).sum := by
  intro S
  induction S with
  | nil => rfl
  | cons a S ih => rw [List.flatMap_cons, List.length_append, ih, List.map_cons, List.sum_cons]

theorem sum_indicator (h : Byte → Nat) (a : Byte) :
    ∀ L : List Byte, L.Nodup →
      (L.map (fun s => (if a = s then 1 else 0) * h s)).sum = if a ∈ L then h a else 0 := by
  intro L
  induction L with
  | nil => intro _; simp
  | cons x L ih =>
    intro hnd
    have hx : x ∉ L := (List.nodup_cons.mp hnd).1
    rw [List.map_cons, List.sum_cons, ih (List.nodup_cons.mp hnd).2]
    by_cases e : a = x
    · subst e
      simp [hx]
    · have : ¬ x = a := fun e2 => e e2.symm
      simp [e, this]

theorem sum_by_count (h : Byte → Nat) :
    ∀ S : List Byte, (S.map h).sum = (symbols.map (fun s => S.count s * h s)).sum := by
  intro S
  induction S with
  | nil =>
    symm
    apply List.sum_eq_zero
    intro x hx
    obtain ⟨s, _, hs⟩ := List.mem_map.mp hx
    rw [← hs, List.count_nil, Nat.zero_mul]
  | cons a S ih =>
    have e : (fun s => (a :: S).count s * h s)
        = (fun s => S.count s * h s + (if a = s then 1 else 0) * h s) := by
      funext s
      rw [List.count_cons, Nat.add_mul]
      by_cases e : a = s
      · simp [e]
      · simp [e]
    rw [List.map_cons, List.sum_cons, ih, e, List.sum_map_add,
      sum_indicator h a symbols symbols_nodup, if_pos (mem_symbols a)]
    omega

theorem kraft_const (n : Nat) :
    ∀ L : List Byte, kraft (L.map (fun _ => n)) = L.length * (1 / 2 : ℚ) ^ n := by
  intro L
  induction L with
  | nil => simp [kraft]
  | cons a L ih =>
    rw [List.map_cons, kraft_cons, ih, List.length_cons]
    push_cast
    ring

theorem encoded_length_mono (F : FreqTable) (f g : Byte → Nat) (h : ∀ s, f s ≤ g s) :
    encoded_length F f ≤ encoded_length F g := by
  unfold encoded_length
  apply List.sum_le_sum
  intro s _
  exact Nat.mul_le_mul_left _ (h s)

theorem encoded_length_const (S : List Byte) (h : ∀ b, S.count b < U32) (n : Nat) :
    encoded_length (count_frequencies S) (fun _ => n) = n * S.length := by
  unfold encoded_length
  rw [List.sum_map_mul_right, sum_count_frequencies S h, Nat.mul_comm]

theorem dictionary_cost_le_eight (F : FreqTable) (hsum : total_symbols F < U32) :
    encoded_length F (fun s => ((build_huffman_dictionary F s).getD []).length)
      ≤ encoded_length F (fun _ => 8) := by
  rcases Nat.lt_or_ge (count_unique F) 2 with hk | hk
  · apply encoded_length_mono
    intro s
    rcases Nat.eq_zero_or_pos (count_unique F) with h0 | h0
    · rw [(dictionary_zero F h0).1]
      simp
    · obtain ⟨v, _, _, hd⟩ := dictionary_one F (by omega)
      rw [hd]
      by_cases e : s = v
      · rw [e, Function.update_same]; simp
      · rw [Function.update_noteq e]; simp
  · apply dictionary_cost_le F hk hsum
    have hlen : (symbols.filter (fun i => F i ≠ 0)).length ≤ 256 := count_unique_le F
    rw [kraft_const]
    have h1 : (((symbols.filter (fun i => F i ≠ 0)).length : ℕ) : ℚ) ≤ 256 := by
      exact_mod_cast hlen
    have h2 : (1 / 2 : ℚ) ^ 8 = 1 / 256 := by norm_num
    rw [h2]
    linarith

theorem encoded_bits (S : List Byte) (h : ∀ b, S.count b < U32) :
    (S.flatMap (fun c => (build_huffman_dictionary (count_frequencies S) c).getD [])).length
      = encoded_length (count_frequencies S)
          (fun s => ((build_huffman_dictionary (count_frequencies S) s).getD []).length) := by
  rw [flatMap_length, sum_by_count, encoded_length]
  apply congrArg
  apply List.map_congr_left
  intro s _
  rw [count_frequencies_eq S h]

theorem encoded_bits_le (S : List Byte) (hlen : S.length < U32) :
    (S.flatMap (fun c => (build_huffman_dictionary (count_frequencies S) c).getD [])).length
      ≤ 8 * S.length := by
  have hc : ∀ b, S.count b < U32 := fun b => lt_of_le_of_lt (List.count_le_length _ _) hlen
  rw [encoded_bits S hc, ← encoded_length_const S hc 8]
  exact dictionary_cost_le_eight _ (by rw [total_symbols_count S hc]; exact hlen)

/-! ## Order of two nodes in the working set -/

theorem sublist_pair_second (P X l : Node) (tail : List Node)
    (hnd : (l :: X :: tail).Nodup) (h : List.Sublist [P, X] (l :: X :: tail)) : l = P := by
  have hX : X ∉ tail := (List.nodup_cons.mp (List.nodup_cons.mp hnd).2).1
  have hl : X ≠ l := fun e => (List.nodup_cons.mp hnd).1 (by rw [← e]; simp)
  cases h with
  | cons _ h1 =>
    exfalso
    cases h1 with
    | cons _ h2 => exact hX (h2.subset (by simp))
    | cons₂ _ h2 => exact hX (h2.subset (by simp))
  | cons₂ _ h1 => rfl

theorem sublist_pair_rest (P X l r : Node) (tail : List Node)
    (h : List.Sublist [P, X] (l :: r :: tail)) (hl : P ≠ l) (hr : P ≠ r) :
    List.Sublist [P, X] tail := by
  cases h with
  | cons _ h1 =>
    cases h1 with
    | cons _ h2 => exact h2
    | cons₂ _ h2 => exact absurd rfl hr
  | cons₂ _ h1 => exact absurd rfl hl

/-! ## Facts used for the statements on all prefix-free codes -/

theorem total_symbols_eq_sum (F : FreqTable) : total_symbols F = (symbols.map F).sum := by
  unfold total_symbols
  exact sum_map_filter_pos F symbols

theorem dictionary_prefix_free_on (F : FreqTable) :
    PrefixFreeOn (symbols.filter (fun i => F i ≠ 0))
      (fun s => (build_huffman_dictionary F s).getD []) := by
  intro s hs t ht hne hpre
  have h1 := (dictionary_isSome_iff F s).mpr
    (Nat.pos_of_ne_zero ((mem_filter_symbols F s).mp hs))
  have h2 := (dictionary_isSome_iff F t).mpr
    (Nat.pos_of_ne_zero ((mem_filter_symbols F t).mp ht))
  obtain ⟨c1, e1⟩ := Option.isSome_iff_exists.mp h1
  obtain ⟨c2, e2⟩ := Option.isSome_iff_exists.mp h2
  simp only [e1, e2, Option.getD_some] at hpre
  exact hne (dictionary_prefix_free F s t c1 c2 e1 e2 hpre)

theorem aaaabbc_support (s : Byte) (h : s ∈ symbols.filter
    (fun i => count_frequencies aaaabbc i ≠ 0)) : s = 97 ∨ s = 98 ∨ s = 99 := by
  have h1 := (mem_filter_symbols _ s).mp h
  by_contra hn
  push_neg at hn
  exact h1 (aaaabbc_frequencies.2.2.2 s hn.1 hn.2.1 hn.2.2)

theorem example_code_free :
    PrefixFreeOn (symbols.filter (fun i => count_frequencies aaaabbc i ≠ 0)) example_code := by
  intro s hs t ht hne
  rcases aaaabbc_support s hs with e | e | e <;> rcases aaaabbc_support t ht with e2 | e2 | e2 <;>
    subst e <;> subst e2 <;> first | exact absurd rfl hne | decide

theorem tree_writes_lt (F : FreqTable) :
    ∀ i ∈ buffer_writes (build_huffman_tree (make_leaves F)) 0, i < 257 := by
  have hk := count_unique_le F
  rcases Nat.lt_or_ge (count_unique F) 2 with h | h
  · rcases Nat.eq_zero_or_pos (count_unique F) with h0 | h0
    · have e : make_leaves F = [] := List.length_eq_zero.mp (by rw [make_leaves_length, h0])
      rw [e]
      simp [build_huffman_tree, buffer_writes]
    · obtain ⟨v, hv, _, _⟩ := dictionary_one F (by omega)
      rw [make_leaves_single F v hv]
      simp [build_huffman_tree, create_node, buffer_writes]
  · intro i hi
    have := tree_writes_le F h i hi
    omega

/-! # The claims -/

/-- Claim C1: decoding the container that `encode_file` writes for `S` gives back exactly
`S`, with no count-mismatch warning, whenever every byte value occurs fewer than `2 ^ 32`
times in `S`; the empty input, inputs with one distinct byte and inputs with several
distinct bytes are all covered. -/
theorem round_trip (S : List Byte) (h : ∀ b, S.count b < U32) :
    ∃ status, decode_file (encode_file S).container
      = some { output := S, status := status, warning := false } :=
  roundtrip_aux S h

theorem round_trip_witness :
    (∀ b, aaaabbc.count b < U32) ∧
      ∃ status, decode_file (encode_file aaaabbc).container
        = some { output := aaaabbc, status := status, warning := false } :=
  ⟨aaaabbc_count_lt, round_trip aaaabbc aaaabbc_count_lt⟩

/-- Claim C2: in the table returned by `build_huffman_dictionary`, for every frequency
table, the code of one symbol is never a prefix of (nor equal to) the code of a
different symbol. -/
theorem prefix_free (F : FreqTable) (s1 s2 : Byte) (c1 c2 : List Bool) (hne : s1 ≠ s2)
    (h1 : build_huffman_dictionary F s1 = some c1)
    (h2 : build_huffman_dictionary F s2 = some c2) : ¬ c1 <+: c2 :=
  fun hpre => hne (dictionary_prefix_free F s1 s2 c1 c2 h1 h2 hpre)

theorem prefix_free_witness :
    (97 : Byte) ≠ 99 ∧
      build_huffman_dictionary (count_frequencies aaaabbc) 97 = some [true] ∧
      build_huffman_dictionary (count_frequencies aaaabbc) 99 = some [false, false] ∧
      ¬ [true] <+: [false, false] :=
  ⟨by decide, aaaabbc_codes.1, aaaabbc_codes.2.2,
    prefix_free (count_frequencies aaaabbc) 97 99 [true] [false, false] (by decide)
      aaaabbc_codes.1 aaaabbc_codes.2.2⟩

/-- Claim C3: for a header table with at least two nonzero entries the decoding loop
returns on every payload having emitted at most `total_symbols` symbols; it reads the
payload bit by bit, most significant bit first, and once a bit completes the last
expected symbol nothing after that bit is read, so every payload that shares the bits
up to there decodes to the same output; for a container of `encode_file` the padding
bits emit nothing, and other padding bits or extra bytes leave the output unchanged. -/
theorem decoder_stops (F : FreqTable) (hF : ∀ i, F i < U32) (h2 : 2 ≤ count_unique F) :
    (∀ payload, ∃ st,
      decode_loop (decode_tree F) (total_symbols F) payload (decode_start (decode_tree F))
        = some st ∧
      st.decoded ≤ total_symbols F ∧ st.out.length = st.decoded ∧
      decode_file (write_header F ++ payload)
        = some { output := st.out, status := .completed,
                 warning := decide (st.decoded ≠ total_symbols F) }) ∧
    (∀ payload st0,
      decode_loop (decode_tree F) (total_symbols F) payload st0
        = decode_bits (decode_tree F) (total_symbols F) (unpack_bits payload) st0) ∧
    (∀ bits st0 st, decode_bits (decode_tree F) (total_symbols F) bits st0 = some st →
      st.decoded = total_symbols F →
      ∀ payload, bits <+: unpack_bits payload →
        decode_loop (decode_tree F) (total_symbols F) payload st0 = some st) ∧
    (∀ S, count_frequencies S = F → (∀ b, S.count b < U32) →
      (encode_file S).container
        = write_header F ++
            pack_bits (S.flatMap (fun c => (build_huffman_dictionary F c).getD [])) ∧
      unpack_bits (pack_bits (S.flatMap (fun c => (build_huffman_dictionary F c).getD [])))
        = S.flatMap (fun c => (build_huffman_dictionary F c).getD []) ++
            List.replicate
              ((8 - (S.flatMap (fun c => (build_huffman_dictionary F c).getD [])).length % 8) % 8)
              false ∧
      ∀ payload,
        S.flatMap (fun c => (build_huffman_dictionary F c).getD []) <+: unpack_bits payload →
        decode_file (write_header F ++ payload)
          = some { output := S, status := .completed, warning := false }) := by
  refine ⟨?_, ?_, ?_, ?_⟩
  · intro payload
    obtain ⟨st, hst, hd, hlen⟩ := decode_loop_total F h2 payload
    refine ⟨st, hst, hd, hlen, ?_⟩
    rw [decode_file_loop F hF h2, hst]
    rfl
  · intro payload st0
    exact decode_loop_eq_bits _ _ _ _
  · intro bits st0 st hst hd payload hpre
    obtain ⟨extra, he⟩ := hpre
    rw [decode_loop_eq_bits, ← he]
    exact decode_bits_stop _ _ _ _ _ _ hst (le_of_eq hd.symm)
  · intro S hS hcount
    subst hS
    refine ⟨?_, unpack_pack _, ?_⟩
    · rw [encode_file_of_codes S (codes_of_count S hcount)]
    · intro payload hpre
      obtain ⟨extra, he⟩ := hpre
      apply decode_file_many _ hF h2 S _ (total_symbols_count S hcount) payload extra he.symm
      intro s hs
      rw [count_frequencies_eq S hcount]
      exact Nat.pos_iff_ne_zero.mp (List.count_pos_iff.mpr hs)

theorem decoder_stops_witness :
    (∀ i, count_frequencies aaaabbc i < U32) ∧ 2 ≤ count_unique (count_frequencies aaaabbc) ∧
      decode_file (write_header (count_frequencies aaaabbc) ++ [245, 63, 170])
        = some { output := aaaabbc, status := .completed, warning := false } :=
  ⟨count_frequencies_lt aaaabbc, aaaabbc_two,
    ((decoder_stops (count_frequencies aaaabbc) (count_frequencies_lt aaaabbc)
      aaaabbc_two).2.2.2 aaaabbc rfl aaaabbc_count_lt).2.2 [245, 63, 170]
      (by rw [aaaabbc_bits]; decide)⟩

/-- Claim C4: for the input `"aaaabbc"` the frequencies are a:4, b:2, c:1 and zero
elsewhere; the container has `symbol_count = 3`, the three entries (a,4), (b,2), (c,1)
with frequencies summing to 7 and the payload `0xF5 0x00`; the codes are a = `1`,
b = `01`, c = `00`, so the code of a is strictly shorter than the code of c; and
`decode_file` gives back `"aaaabbc"`. -/
theorem scenario_aaaabbc :
    (count_frequencies aaaabbc 97 = 4 ∧ count_frequencies aaaabbc 98 = 2 ∧
      count_frequencies aaaabbc 99 = 1 ∧
      ∀ b : Byte, b ≠ 97 → b ≠ 98 → b ≠ 99 → count_frequencies aaaabbc b = 0) ∧
    encode_file aaaabbc
      = { container := write_u32 3 ++ (97 :: write_u32 4) ++ (98 :: write_u32 2) ++
            (99 :: write_u32 1) ++ [245, 0],
          no_code := none } ∧
    4 + 2 + 1 = aaaabbc.length ∧
    (build_huffman_dictionary (count_frequencies aaaabbc) 97 = some [true] ∧
      build_huffman_dictionary (count_frequencies aaaabbc) 98 = some [false, true] ∧
      build_huffman_dictionary (count_frequencies aaaabbc) 99 = some [false, false]) ∧
    [true].length < [false, false].length ∧
    decode_file (encode_file aaaabbc).container
      = some { output := aaaabbc, status := .completed, warning := false } := by
  refine ⟨aaaabbc_frequencies, ?_, by decide, aaaabbc_codes, by decide, ?_⟩
  · rw [aaaabbc_encode]; rfl
  · rw [aaaabbc_encode]; exact aaaabbc_decode

/-- Claim C5: for every byte value `v` and every `n` with `1 ≤ n < 2 ^ 32`, `encode_file` on
`n` repetitions of `v` writes `symbol_count = 1`, the single entry `(v, n)` and `⌈n / 8⌉`
zero bytes of payload; `build_huffman_dictionary` gives `v` the one-bit code `0`; and
`decode_file` on that container writes exactly `n` repetitions of `v`. -/
theorem single_symbol_file (v : Byte) (n : Nat) (h1 : 1 ≤ n) (hn : n < U32) :
    encode_file (List.replicate n v)
        = { container := write_u32 1 ++ v :: write_u32 n ++ List.replicate ((n + 7) / 8) 0,
            no_code := none } ∧
      build_huffman_dictionary (count_frequencies (List.replicate n v)) v = some [false] ∧
      decode_file (encode_file (List.replicate n v)).container
        = some { output := List.replicate n v, status := .single_symbol, warning := false } := by
  have hF := count_frequencies_replicate v n hn
  have hiff : ∀ s, count_frequencies (List.replicate n v) s ≠ 0 ↔ s = v := by
    intro s; rw [hF]
    by_cases e : s = v
    · simp [e]; omega
    · simp [e]
  have hu : count_unique (count_frequencies (List.replicate n v)) = 1 := by
    rw [count_unique, filter_symbols_single _ v hiff]; rfl
  obtain ⟨w, hw, _, hd⟩ := dictionary_one _ hu
  have hwv : w = v := by
    rw [filter_symbols_single _ v hiff] at hw
    simpa using hw.symm
  subst hwv
  have hcode : ∀ c ∈ List.replicate n w,
      (build_huffman_dictionary (count_frequencies (List.replicate n w)) c).isSome := by
    intro c hc
    rw [List.eq_of_mem_replicate hc, hd]; simp
  have hFw : count_frequencies (List.replicate n w) w = n := by rw [hF]; simp
  have henc : encode_file (List.replicate n w)
        = { container := write_u32 1 ++ w :: write_u32 n ++ List.replicate ((n + 7) / 8) 0,
            no_code := none } := by
    rw [encode_file_of_codes _ hcode, write_header_single _ w hiff, hFw]
    have hbits : (List.replicate n w).flatMap
        (fun c => (build_huffman_dictionary (count_frequencies (List.replicate n w)) c).getD [])
        = List.replicate n false := by
      rw [hd]
      exact flatMap_replicate_bit _ w (by simp) n
    rw [hbits, pack_bits_replicate_false]
  refine ⟨henc, by rw [hd]; simp, ?_⟩
  rw [henc]
  simp only
  have e : write_u32 1 ++ w :: write_u32 n ++ List.replicate ((n + 7) / 8) (0 : Byte)
      = write_header (count_frequencies (List.replicate n w)) ++
        List.replicate ((n + 7) / 8) 0 := by
    rw [write_header_single _ w hiff, hFw]
  rw [e]
  obtain ⟨x, hx, hdec⟩ := decode_file_one _ (count_frequencies_lt _) hu
    (List.replicate ((n + 7) / 8) 0)
  have hxw : x = w := (hiff x).mp ((hx x).mpr rfl)
  subst hxw
  rw [hdec, hFw]

theorem single_symbol_file_witness :
    1 ≤ 10 ∧ 10 < U32 ∧
      decode_file (encode_file (List.replicate 10 122)).container
        = some { output := List.replicate 10 122, status := .single_symbol, warning := false } :=
  ⟨by decide, by decide, (single_symbol_file 122 10 (by decide) (by decide)).2.2⟩

/-- Claim C6: `encode_file` on the empty input writes only the four bytes of a zero
`symbol_count` and takes no error branch; the dictionary of the all-zero table has no
code for any symbol; `decode_file` on that container writes an empty output and prints
no warning. -/
theorem empty_input :
    encode_file [] = { container := [0, 0, 0, 0], no_code := none } ∧
      count_frequencies [] = (fun _ => 0) ∧
      build_huffman_dictionary (fun _ => 0) = (fun _ => none) ∧
      decode_file (encode_file []).container
        = some { output := [], status := .empty_file, warning := false } := by
  have hcf : count_frequencies [] = (fun _ => 0) := rfl
  have henc : encode_file [] = { container := [0, 0, 0, 0], no_code := none } := by
    rw [encode_file_of_codes [] (by intro c hc; simp at hc), hcf, write_header, empty_unique]
    have : symbols.filter (fun i => (fun _ : Byte => (0 : Nat)) i ≠ 0) = [] :=
      List.length_eq_zero.mp empty_unique
    rw [this]
    rfl
  refine ⟨henc, hcf, (dictionary_zero _ empty_unique).1, ?_⟩
  rw [henc]
  have := decode_file_zero (fun _ => 0) (fun _ => by simp [U32]) empty_unique []
  rw [write_header, empty_unique] at this
  have hnil : symbols.filter (fun i => (fun _ : Byte => (0 : Nat)) i ≠ 0) = [] :=
    List.length_eq_zero.mp empty_unique
  rw [hnil] at this
  exact this

/-- Claim C7: when every byte value occurs fewer than `2 ^ 32` times in `S`, the container
of `encode_file` starts with the four-byte `symbol_count`, the number of distinct byte
values of `S`, followed by one five-byte entry (symbol, four-byte frequency) per distinct
byte value, in strictly ascending symbol order, each frequency the number of occurrences
of its symbol; the header is `4 + 5 * symbol_count` bytes long and its frequencies sum
to the length of `S`, the number of symbols the container decodes to. -/
theorem header_layout (S : List Byte) (h : ∀ b, S.count b < U32) :
    (∃ payload, (encode_file S).container
        = write_u32 (distinct_symbols S).length ++
            (distinct_symbols S).flatMap (fun s => s :: write_u32 (S.count s)) ++ payload) ∧
      (distinct_symbols S).length = S.dedup.length ∧
      (distinct_symbols S).Pairwise (· < ·) ∧
      (∀ s, s ∈ distinct_symbols S ↔ s ∈ S) ∧
      (∀ rest, read_u32 (write_u32 (distinct_symbols S).length ++ rest)
        = some ((distinct_symbols S).length, rest)) ∧
      (∀ s rest, read_u32 (write_u32 (S.count s) ++ rest) = some (S.count s, rest)) ∧
      (write_u32 (distinct_symbols S).length ++
        (distinct_symbols S).flatMap (fun s => s :: write_u32 (S.count s))).length
          = 4 + 5 * (distinct_symbols S).length ∧
      ((distinct_symbols S).map (fun s => S.count s)).sum = S.length ∧
      (∃ r, decode_file (encode_file S).container = some r ∧ r.output.length = S.length) := by
  have hlen : (distinct_symbols S).length ≤ 256 :=
    (List.length_filter_le _ _).trans (le_of_eq symbols_length)
  refine ⟨⟨pack_bits (S.flatMap
      (fun c => (build_huffman_dictionary (count_frequencies S) c).getD [])), ?_⟩,
    (distinct_symbols_perm S).length_eq, ?_, ?_, ?_, ?_, ?_, ?_, ?_⟩
  · rw [encode_file_of_codes S (codes_of_count S h), write_header_count S h]
  · exact (List.pairwise_lt_finRange 256).sublist (List.filter_sublist _)
  · intro s
    unfold distinct_symbols
    simp [List.mem_filter, mem_symbols]
  · intro rest
    exact read_u32_write_u32 _ (lt_of_le_of_lt hlen (by simp [U32])) rest
  · intro s rest
    exact read_u32_write_u32 _ (h s) rest
  · rw [List.length_append, entries_length]
    simp [write_u32]
  · rw [← List.sum_map_count_dedup_eq_length S]
    exact ((distinct_symbols_perm S).map _).sum_eq
  · obtain ⟨status, hs⟩ := roundtrip_aux S h
    exact ⟨_, hs, rfl⟩

theorem header_layout_witness :
    (∀ b, aaaabbc.count b < U32) ∧
      ((distinct_symbols aaaabbc).map (fun s => aaaabbc.count s)).sum = aaaabbc.length :=
  ⟨aaaabbc_count_lt, (header_layout aaaabbc aaaabbc_count_lt).2.2.2.2.2.2.2.1⟩

/-- Claim C8, amended: when every byte value occurs fewer than `2 ^ 32` times in `S`, every
byte of `S` has a code and the bytes `encode_file` writes after the header are the
codes of the bytes of `S`, concatenated in input order and packed eight bits per byte,
first bit most significant, the unused low bits of a last partial byte zero; that is
`⌈B / 8⌉` bytes for `B` code bits, and none when `B = 0`. -/
theorem payload_packing (S : List Byte) (h : ∀ b, S.count b < U32) :
    (encode_file S).container
        = write_header (count_frequencies S) ++
            pack_bits (S.flatMap (fun c => (build_huffman_dictionary (count_frequencies S) c).getD [])) ∧
      (∀ c ∈ S, (build_huffman_dictionary (count_frequencies S) c).isSome) ∧
      (∀ bits : List Bool,
        (pack_bits bits).length = (bits.length + 7) / 8 ∧
        unpack_bits (pack_bits bits)
          = bits ++ List.replicate ((8 - bits.length % 8) % 8) false ∧
        (bits.length = 0 → pack_bits bits = [])) ∧
      (S.flatMap (fun c => (build_huffman_dictionary (count_frequencies S) c).getD [])).length
        = (S.map (fun c =>
            ((build_huffman_dictionary (count_frequencies S) c).getD []).length)).sum := by
  refine ⟨?_, codes_of_count S h, ?_, ?_⟩
  · rw [encode_file_of_codes S (codes_of_count S h)]
  · intro bits
    refine ⟨pack_bits_length bits, unpack_pack bits, ?_⟩
    intro h0
    rw [List.length_eq_zero.mp h0, pack_bits_nil]
  · rw [List.flatMap, List.length_flatten, List.map_map]
    simp only [Function.comp_def]

theorem payload_packing_witness :
    (∀ b, aaaabbc.count b < U32) ∧
      (encode_file aaaabbc).container
        = write_header (count_frequencies aaaabbc) ++
            pack_bits (aaaabbc.flatMap
              (fun c => (build_huffman_dictionary (count_frequencies aaaabbc) c).getD [])) :=
  ⟨aaaabbc_count_lt, (payload_packing aaaabbc aaaabbc_count_lt).1⟩

/-- Claim C8 as stated fails: in `wrapped_input` the byte 0 occurs `2 ^ 32` times, its counter
wraps to zero and it gets no code; the packing loop breaks at the first byte and writes
nothing after the header, although the byte 1 of the input has the code `0`. -/
theorem payload_packing_counterexample :
    (encode_file wrapped_input).container = write_header (count_frequencies wrapped_input) ∧
      (encode_file wrapped_input).no_code = some 0 ∧
      pack_bits (wrapped_input.flatMap
        (fun c => (build_huffman_dictionary (count_frequencies wrapped_input) c).getD [])) ≠ [] ∧
      (encode_file wrapped_input).container
        ≠ write_header (count_frequencies wrapped_input) ++
            pack_bits (wrapped_input.flatMap
              (fun c => (build_huffman_dictionary (count_frequencies wrapped_input) c).getD [])) := by
  have hiff : ∀ s, count_frequencies wrapped_input s ≠ 0 ↔ s = 1 := by
    intro s; rw [count_frequencies_wrapped]
    by_cases e : s = 1 <;> simp [e]
  have hu : count_unique (count_frequencies wrapped_input) = 1 := by
    rw [count_unique, filter_symbols_single _ 1 hiff]; rfl
  obtain ⟨w, hw, _, hd⟩ := dictionary_one _ hu
  have hw1 : w = 1 := by
    rw [filter_symbols_single _ 1 hiff] at hw
    exact (List.singleton_inj.mp hw).symm
  subst hw1
  have hnone : build_huffman_dictionary (count_frequencies wrapped_input) 0 = none := by
    rw [hd]; exact Function.update_noteq (by decide) _ _
  have hsome : build_huffman_dictionary (count_frequencies wrapped_input) 1 = some [false] := by
    rw [hd]; exact Function.update_same _ _ _
  have henc : encode_file wrapped_input
      = { container := write_header (count_frequencies wrapped_input), no_code := some 0 } := by
    have := encode_file_no_code 0 (List.replicate 4294967295 0 ++ [1])
      (by rw [← wrapped_input_cons]; exact hnone)
    rw [← wrapped_input_cons] at this
    exact this
  have hmem : (1 : Byte) ∈ wrapped_input := by
    unfold wrapped_input
    exact List.mem_append_right _ (List.mem_singleton.mpr rfl)
  have hlen := flatMap_length_pos
    (fun c => (build_huffman_dictionary (count_frequencies wrapped_input) c).getD []) 1
    (by
      show (build_huffman_dictionary (count_frequencies wrapped_input) 1).getD [] ≠ []
      rw [hsome]; exact List.cons_ne_nil _ _) wrapped_input hmem
  have hne : pack_bits (wrapped_input.flatMap
        (fun c => (build_huffman_dictionary (count_frequencies wrapped_input) c).getD [])) ≠ [] := by
    intro hnil
    have hl := pack_bits_length (wrapped_input.flatMap
        (fun c => (build_huffman_dictionary (count_frequencies wrapped_input) c).getD []))
    rw [hnil, List.length_nil] at hl
    omega
  refine ⟨by rw [henc], by rw [henc], hne, ?_⟩
  rw [henc]
  intro e
  dsimp only at e
  have hlen2 := congrArg List.length e
  rw [List.length_append] at hlen2
  have hpos := List.length_pos.mpr hne
  omega

/-- Claim C9: reading the header that `encode_file` serialises for a table `F` gives back
exactly `F` whatever payload follows, so the tree `decode_file` rebuilds is the tree the
dictionary was derived from and the code tables agree; the container of `encode_file`
starts with that header. -/
theorem header_agreement (F : FreqTable) (hF : ∀ i, F i < U32) (payload : List Byte) :
    read_frequencies_from_huff (write_header F ++ payload) = F ∧
      decode_tree (read_frequencies_from_huff (write_header F ++ payload))
        = build_huffman_tree (make_leaves F) ∧
      build_huffman_dictionary (read_frequencies_from_huff (write_header F ++ payload))
        = build_huffman_dictionary F ∧
      (2 ≤ count_unique F →
        build_huffman_dictionary F
          = generate_codes
              (decode_tree (read_frequencies_from_huff (write_header F ++ payload))) []
              (fun _ => none)) ∧
      (∀ S, count_frequencies S = F →
        ∃ rest, (encode_file S).container = write_header F ++ rest ∧
          read_frequencies_from_huff (encode_file S).container = F) := by
  rw [read_write_header F hF payload]
  refine ⟨rfl, decode_tree_eq F, rfl, ?_, ?_⟩
  · intro h2
    obtain ⟨s, f, l, r, ht, _, _, _, hd, _⟩ := dictionary_many F h2
    rw [decode_tree_eq, ht, hd]
  · intro S hS
    subst hS
    obtain ⟨rest, hrest⟩ := encode_file_header S
    exact ⟨rest, hrest, by rw [hrest, read_write_header _ hF]⟩

theorem header_agreement_witness :
    (∀ i, count_frequencies aaaabbc i < U32) ∧
      read_frequencies_from_huff (write_header (count_frequencies aaaabbc) ++ [245, 0])
        = count_frequencies aaaabbc :=
  ⟨count_frequencies_lt aaaabbc,
    (header_agreement (count_frequencies aaaabbc) (count_frequencies_lt aaaabbc) [245, 0]).1⟩

/-- Claim C10: `build_huffman_dictionary` gives a code to a symbol exactly when its
frequency is positive; hence, when every byte value occurs fewer than `2 ^ 32` times in
`S`, every byte of `S` has a code in the table `encode_file` derives and the branch
`no code for symbol` is not taken. -/
theorem code_table_domain :
    (∀ (F : FreqTable) (s : Byte), (build_huffman_dictionary F s).isSome ↔ F s > 0) ∧
      (∀ S : List Byte, (∀ b, S.count b < U32) →
        (∀ c ∈ S, (build_huffman_dictionary (count_frequencies S) c).isSome) ∧
          (encode_file S).no_code = none) := by
  refine ⟨dictionary_isSome_iff, ?_⟩
  intro S h
  refine ⟨codes_of_count S h, ?_⟩
  rw [encode_file_of_codes S (codes_of_count S h)]

theorem code_table_domain_witness :
    (∀ b, aaaabbc.count b < U32) ∧ (encode_file aaaabbc).no_code = none :=
  ⟨aaaabbc_count_lt, (code_table_domain.2 aaaabbc aaaabbc_count_lt).2⟩

/-- Claim C11: for a header table with at least two nonzero entries `decode_file` never
dereferences `NULL`: on every payload the loop returns, the output is kept, and the
warning is printed exactly when the number of decoded symbols differs from the expected
total.  The bits read are the codes of the symbols written followed by a remainder, and
when the payload ran out early no code is a prefix of that remainder.  For the payload of
`encode_file S` cut to its first `m` bytes the output is the longest prefix of `S` whose
codes fit in `8 * m` bits. -/
theorem count_mismatch_recoverable (F : FreqTable) (hF : ∀ i, F i < U32)
    (h2 : 2 ≤ count_unique F) :
    (∀ payload, ∃ st rest,
      decode_loop (decode_tree F) (total_symbols F) payload (decode_start (decode_tree F))
        = some st ∧
      decode_file (write_header F ++ payload)
        = some { output := st.out, status := .completed,
                 warning := decide (st.decoded ≠ total_symbols F) } ∧
      st.out.length = st.decoded ∧ st.decoded ≤ total_symbols F ∧
      unpack_bits payload
        = st.out.flatMap (fun c => (build_huffman_dictionary F c).getD []) ++ rest ∧
      (st.decoded < total_symbols F →
        ∀ s c, build_huffman_dictionary F s = some c → ¬ c <+: rest)) ∧
    (∀ S, count_frequencies S = F → (∀ b, S.count b < U32) → ∀ m,
      decode_file (write_header F ++
          (pack_bits (S.flatMap (fun c => (build_huffman_dictionary F c).getD []))).take m)
        = some { output := fit_symbols (fun c => (build_huffman_dictionary F c).getD []) (8 * m) S,
                 status := .completed,
                 warning := decide ((fit_symbols
                   (fun c => (build_huffman_dictionary F c).getD []) (8 * m) S).length
                     ≠ S.length) } ∧
      fit_symbols (fun c => (build_huffman_dictionary F c).getD []) (8 * m) S <+: S ∧
      ((fit_symbols (fun c => (build_huffman_dictionary F c).getD []) (8 * m) S).flatMap
        (fun c => (build_huffman_dictionary F c).getD [])).length ≤ 8 * m ∧
      ∀ P, P <+: S →
        (P.flatMap (fun c => (build_huffman_dictionary F c).getD [])).length ≤ 8 * m →
        P <+: fit_symbols (fun c => (build_huffman_dictionary F c).getD []) (8 * m) S) := by
  have hint := decode_tree_internal F h2
  have hcode : ∀ s bits, IsPath (decode_tree F) bits s →
      (fun c => (build_huffman_dictionary F c).getD []) s = bits := by
    intro s bits hp
    rw [decode_tree_eq] at hp
    simp only [(dictionary_iff_path F h2 s bits).mpr hp, Option.getD_some]
  constructor
  · intro payload
    have hroot : Internal (subtree (decode_tree F) []) := by rw [subtree_nil]; exact hint
    obtain ⟨st, em, rest, hst, hout, hdec, hbits, hrest⟩ :=
      decode_bits_parse (decode_tree F) hint (total_symbols F) _ hcode
        (unpack_bits payload) [] 0 [] hroot
    rw [subtree_nil] at hst
    have hloop : decode_loop (decode_tree F) (total_symbols F) payload
        (decode_start (decode_tree F)) = some st := by
      rw [decode_loop_eq_bits]; exact hst
    obtain ⟨st', hst', hle, _⟩ := decode_loop_total F h2 payload
    rw [hloop] at hst'
    cases hst'
    simp only [List.nil_append] at hout hbits
    refine ⟨st, rest, hloop, ?_, ?_, hle, ?_, ?_⟩
    · rw [decode_file_loop F hF h2, hloop]; rfl
    · rw [hdec, hout]; simp
    · rw [hbits, hout]
    · intro hlt s c hc
      rw [decode_tree_eq] at hrest
      exact no_code_inside _ (hrest hlt) ((dictionary_iff_path F h2 s c).mp hc)
  · intro S hS hcount m
    subst hS
    refine ⟨?_, fit_symbols_initial _ _ _, fit_symbols_fits _ _ _, fun P => fit_symbols_longest _ S P _⟩
    obtain ⟨_, _, _, _, ht, _, _, _, _, _, hnz⟩ := dictionary_many _ h2
    have hS : ∀ s ∈ S,
        IsPath (decode_tree (count_frequencies S))
          ((fun c => (build_huffman_dictionary (count_frequencies S) c).getD []) s) s ∧
        (fun c => (build_huffman_dictionary (count_frequencies S) c).getD []) s ≠ [] := by
      intro s hs
      have hne : count_frequencies S s ≠ 0 := by
        rw [count_frequencies_eq S hcount]
        exact Nat.pos_iff_ne_zero.mp (List.count_pos_iff.mpr hs)
      obtain ⟨bits, hb, hp, hbne⟩ := hnz s hne
      rw [decode_tree_eq, ht]
      simp only [hb, Option.getD_some]
      exact ⟨hp, hbne⟩
    have htot := total_symbols_count S hcount
    obtain ⟨st, hst, hout, hdec⟩ := decode_bits_take (decode_tree (count_frequencies S))
      (total_symbols (count_frequencies S)) _
      (List.replicate ((8 - (S.flatMap
        (fun c => (build_huffman_dictionary (count_frequencies S) c).getD [])).length % 8) % 8)
        false)
      S (8 * m) 0 [] hS (by rw [htot]; simp)
    rw [decode_file_loop _ hF h2, decode_loop_eq_bits, unpack_bits_take, unpack_pack]
    unfold decode_start
    rw [hst]
    simp only [List.nil_append] at hout
    simp only [Nat.zero_add] at hdec
    simp only [Option.map_some', hout, hdec, htot]

theorem count_mismatch_recoverable_witness :
    (∀ i, count_frequencies aaaabbc i < U32) ∧ 2 ≤ count_unique (count_frequencies aaaabbc) ∧
      decode_file (write_header (count_frequencies aaaabbc) ++ [245])
        = some { output := [97, 97, 97, 97, 98, 98], status := .completed, warning := true } :=
  ⟨count_frequencies_lt aaaabbc, aaaabbc_two,
    truncated_decode
      ((count_mismatch_recoverable (count_frequencies aaaabbc) (count_frequencies_lt aaaabbc)
        aaaabbc_two).2 aaaabbc rfl aaaabbc_count_lt 1).1⟩

/-- Claim C12, amended: `decode_file` has no corrupt-header failure.  When the header is
truncated or `symbol_count` is larger than the number of complete entries,
`read_frequencies_from_huff` keeps the entries it read completely (the all-zero table
when the count itself is incomplete) and `decode_file` decodes with that table and ends
with one of its completion messages; it returns a result on every file. -/
theorem corrupt_header_accepted :
    (∀ file : List Byte, file.length < 4 →
      read_frequencies_from_huff file = (fun _ => 0) ∧
      decode_file file = some { output := [], status := .empty_file, warning := false }) ∧
    (∀ (n : Nat) (L : List (Byte × Nat)) (tail : List Byte), n < U32 → (∀ e ∈ L, e.2 < U32) →
      L.length < n → tail.length < 5 →
      read_frequencies_from_huff (write_u32 n ++ write_entries L ++ tail)
        = table_of_entries L) ∧
    (∀ file : List Byte, ∃ r, decode_file file = some r) := by
  refine ⟨?_, ?_, decode_file_some⟩
  · intro file h
    have hz := read_frequencies_short file h
    exact ⟨hz, decode_file_of_zero file (fun i => by rw [hz])⟩
  · intro n L tail hn hL hlen ht
    exact read_frequencies_entries n hn L tail hL (Or.inr ⟨by omega, ht⟩)

theorem corrupt_header_accepted_witness :
    read_frequencies_from_huff (write_u32 2 ++ write_entries [(97, 3)] ++ [])
      = table_of_entries [(97, 3)] :=
  corrupt_header_accepted.2.1 2 [(97, 3)] [] (by decide) (by decide) (by decide) (by decide)

/-- Claim C12 as stated fails: the header announces two entries and holds one; `decode_file`
reads the table `a:3` and writes `aaa` with the message of the single-symbol case. -/
theorem corrupt_header_counterexample :
    read_u32 [2, 0, 0, 0, 97, 3, 0, 0, 0] = some (2, [97, 3, 0, 0, 0]) ∧
      decode_file [2, 0, 0, 0, 97, 3, 0, 0, 0]
        = some { output := [97, 97, 97], status := .single_symbol, warning := false } :=
  ⟨rfl, corrupt_decode⟩

/-- Claim C13, amended: a container whose header frequencies sum to zero is decoded as a
valid empty file whatever follows the header: `decode_file` writes an empty output and
ends with the message of the empty-file case, without warning. -/
theorem zero_sum_is_empty_file :
    (∀ file : List Byte, total_symbols (read_frequencies_from_huff file) = 0 →
      decode_file file = some { output := [], status := .empty_file, warning := false }) ∧
    (∀ payload : List Byte,
      decode_file (write_u32 0 ++ payload)
        = some { output := [], status := .empty_file, warning := false }) ∧
    (∀ (L : List (Byte × Nat)) (payload : List Byte), L.length < U32 → (∀ e ∈ L, e.2 = 0) →
      decode_file (write_u32 L.length ++ write_entries L ++ payload)
        = some { output := [], status := .empty_file, warning := false }) := by
  refine ⟨?_, ?_, ?_⟩
  · intro file h
    unfold decode_file
    simp only [h, or_true, if_true]
  · intro payload
    apply decode_file_of_zero
    have := read_frequencies_entries 0 (by decide) [] payload (by simp) (Or.inl rfl)
    simp only [write_entries, List.flatMap_nil, List.append_nil] at this
    rw [this]
    intro i; rfl
  · intro L payload hlen hz
    apply decode_file_of_zero
    rw [read_frequencies_entries L.length hlen L payload
      (fun e he => by rw [hz e he]; decide) (Or.inl rfl)]
    exact table_of_entries_zero L hz

theorem zero_sum_is_empty_file_witness :
    decode_file (write_u32 [(97, 0)].length ++ write_entries [(97, 0)] ++ [7])
      = some { output := [], status := .empty_file, warning := false } :=
  zero_sum_is_empty_file.2.2 [(97, 0)] [7] (by decide) (by decide)

/-- Claim C13 as stated fails: `symbol_count` is zero and one payload byte follows;
`decode_file` writes an empty output and reports the empty-file completion. -/
theorem zero_sum_counterexample :
    read_frequencies_from_huff [0, 0, 0, 0, 7] = (fun _ => 0) ∧
      skip_header [0, 0, 0, 0, 7] = [7] ∧
      decode_file [0, 0, 0, 0, 7]
        = some { output := [], status := .empty_file, warning := false } :=
  ⟨rfl, rfl, zero_header_decode⟩

/-- Claim C14: when every byte value occurs fewer than `2 ^ 32` times in `S`,
`count_frequencies` returns the table whose entry `b` is the number of occurrences of
`b` in `S`, so the 256 entries sum to the length of `S`; the empty sequence gives the
all-zero table, not the failure value; and the failure value is returned exactly when
the source cannot be opened. -/
theorem frequency_counting (S : List Byte) (h : ∀ b, S.count b < U32) :
    (∀ b, count_frequencies S b = S.count b) ∧
      count_frequencies_file (some S) = some (fun b => S.count b) ∧
      (symbols.map (count_frequencies S)).sum = S.length ∧
      symbols.length = 256 ∧
      count_frequencies_file (some []) = some (fun _ => 0) ∧
      (∀ source, count_frequencies_file source = none ↔ source = none) := by
  refine ⟨count_frequencies_eq S h, ?_, sum_count_frequencies S h, symbols_length, rfl, ?_⟩
  · simp only [count_frequencies_file]
    rw [show count_frequencies S = fun b => S.count b from funext (count_frequencies_eq S h)]
  · intro source
    cases source <;> simp [count_frequencies_file]

theorem frequency_counting_witness :
    (∀ b, aaaabbc.count b < U32) ∧
      (symbols.map (count_frequencies aaaabbc)).sum = aaaabbc.length :=
  ⟨aaaabbc_count_lt, (frequency_counting aaaabbc aaaabbc_count_lt).2.2.1⟩

/-- Claim C15: for a frequency table whose entries sum to less than `2 ^ 32` and symbols
`x`, `y` with `F x > F y > 0`, both symbols have a code in `build_huffman_dictionary F`
and the code of `x` is no longer than the code of `y`. -/
theorem heavier_not_longer (F : FreqTable) (hsum : (symbols.map F).sum < U32) (x y : Byte)
    (hxy : F x > F y) (hy : F y > 0) :
    ∃ cx cy, build_huffman_dictionary F x = some cx ∧ build_huffman_dictionary F y = some cy ∧
      cx.length ≤ cy.length := by
  apply heavier_code_le F _ x y hxy hy
  unfold total_symbols
  rw [sum_map_filter_pos]
  exact hsum

theorem heavier_not_longer_witness :
    (symbols.map (count_frequencies aaaabbc)).sum < U32 ∧
      count_frequencies aaaabbc 97 > count_frequencies aaaabbc 99 ∧
      count_frequencies aaaabbc 99 > 0 ∧
      ∃ cx cy, build_huffman_dictionary (count_frequencies aaaabbc) 97 = some cx ∧
        build_huffman_dictionary (count_frequencies aaaabbc) 99 = some cy ∧
        cx.length ≤ cy.length :=
  ⟨aaaabbc_sum,
    by rw [aaaabbc_frequencies.1, aaaabbc_frequencies.2.2.1]; decide,
    by rw [aaaabbc_frequencies.2.2.1]; decide,
    heavier_not_longer (count_frequencies aaaabbc) aaaabbc_sum 97 99
      (by rw [aaaabbc_frequencies.1, aaaabbc_frequencies.2.2.1]; decide)
      (by rw [aaaabbc_frequencies.2.2.1]; decide)⟩

/-- Claim C16, amended: for every frequency table the dictionary of `func.c` (synthetic
root with one child for a single symbol) and the dictionary of `huffman_core.c` are the
same table; hence for every input in which each byte value occurs fewer than `2 ^ 32`
times `encode_file` of `func.c` writes the same bytes as `encode_file` of
`huffman_encode_decode.c`. -/
theorem encoders_agree :
    (∀ F : FreqTable, func_build_huffman_dictionary F = build_huffman_dictionary F) ∧
      (∀ S : List Byte, (∀ b, S.count b < U32) →
        func_encode_file S (count_frequencies S) = some (encode_file S).container) :=
  ⟨func_dictionary_eq, fun S h => func_encode_file_eq S (codes_of_count S h)⟩

theorem encoders_agree_witness :
    (∀ b, aaaabbc.count b < U32) ∧
      func_encode_file aaaabbc (count_frequencies aaaabbc)
        = some (encode_file aaaabbc).container :=
  ⟨aaaabbc_count_lt, encoders_agree.2 aaaabbc aaaabbc_count_lt⟩

/-- Claim C16 as stated fails: in `wrapped_input` the byte 0 occurs `2 ^ 32` times and has no
code; `encode_file` of `func.c` dereferences the `NULL` code and writes no container,
while `encode_file` of `huffman_encode_decode.c` leaves the loop and writes the header. -/
theorem encoders_agree_counterexample :
    func_encode_file wrapped_input (count_frequencies wrapped_input) = none ∧
      (encode_file wrapped_input).container = write_header (count_frequencies wrapped_input) ∧
      func_encode_file wrapped_input (count_frequencies wrapped_input)
        ≠ some (encode_file wrapped_input).container := by
  have h1 := func_encode_wrapped
  have h2 : encode_file wrapped_input
      = { container := write_header (count_frequencies wrapped_input), no_code := some 0 } := by
    have := encode_file_no_code 0 (List.replicate 4294967295 0 ++ [1])
      (by rw [← wrapped_input_cons]; exact wrapped_dictionary.1)
    rw [← wrapped_input_cons] at this
    exact this
  refine ⟨h1, by rw [h2], ?_⟩
  rw [h1]
  exact fun e => Option.noConfusion e

/-- Claim C17 fails on the code: `decode_with_tree` of `func.c` has no symbol counter and
walks the padding bits.  For `"aaaabbc"` the container of `func.c` is the one of the
modular encoder; `decode_file` of `func.c` writes `aaaabbcccc`, `decode_file` of
`huffman_encode_decode.c` writes `aaaabbc`.  For the single byte `a` it writes eight
copies of `a`. -/
theorem func_round_trip_fails :
    func_encode_file aaaabbc (count_frequencies aaaabbc)
        = some [3, 0, 0, 0, 97, 4, 0, 0, 0, 98, 2, 0, 0, 0, 99, 1, 0, 0, 0, 245, 0] ∧
      func_decode_file [3, 0, 0, 0, 97, 4, 0, 0, 0, 98, 2, 0, 0, 0, 99, 1, 0, 0, 0, 245, 0]
        = .written [97, 97, 97, 97, 98, 98, 99, 99, 99, 99] ∧
      decode_file [3, 0, 0, 0, 97, 4, 0, 0, 0, 98, 2, 0, 0, 0, 99, 1, 0, 0, 0, 245, 0]
        = some { output := aaaabbc, status := .completed, warning := false } ∧
      func_encode_file [97] (count_frequencies [97]) = some [1, 0, 0, 0, 97, 1, 0, 0, 0, 0] ∧
      func_decode_file [1, 0, 0, 0, 97, 1, 0, 0, 0, 0]
        = .written [97, 97, 97, 97, 97, 97, 97, 97] := by
  refine ⟨?_, func_decode_aaaabbc, aaaabbc_decode, ?_, func_decode_single⟩
  · rw [func_encode_file_eq aaaabbc (codes_of_count aaaabbc aaaabbc_count_lt), aaaabbc_encode]
  · rw [func_encode_file_eq [97] (codes_of_count [97]
      (fun b => lt_of_le_of_lt (List.count_le_length _ _) (by decide))), single_encode]

/-- Claim C18: for a frequency table with `k ≥ 2` nonzero entries the tree that
`build_huffman_tree` returns on the leaves created in ascending symbol order is a full
binary tree with exactly `k` leaves and `k - 1` nodes with children; its leaves are the
leaves that were created, so the leaf symbols are exactly the symbols with nonzero
frequency, each once, and every leaf carries the frequency of its symbol. -/
theorem tree_shape (F : FreqTable) (h2 : 2 ≤ count_unique F) :
    Full (build_huffman_tree (make_leaves F)) ∧
      Internal (build_huffman_tree (make_leaves F)) ∧
      (leaf_nodes (build_huffman_tree (make_leaves F))).length = count_unique F ∧
      count_internal (build_huffman_tree (make_leaves F)) = count_unique F - 1 ∧
      (leaf_nodes (build_huffman_tree (make_leaves F))).Perm (make_leaves F) ∧
      (leaf_symbols (build_huffman_tree (make_leaves F))).Nodup ∧
      (∀ s, s ∈ leaf_symbols (build_huffman_tree (make_leaves F)) ↔ F s ≠ 0) ∧
      (∀ t ∈ leaf_nodes (build_huffman_tree (make_leaves F)),
        ∃ s, F s ≠ 0 ∧ t = create_node s (F s)) := by
  obtain ⟨hint, hperm, hci, _⟩ := build_huffman_tree_shape F h2
  obtain ⟨s, f, l, r, ht, hl, hr, hsym, _⟩ := dictionary_many F h2
  have hfull : Full (build_huffman_tree (make_leaves F)) := by
    rw [ht]; exact Full.node _ _ _ _ hl hr
  refine ⟨hfull, hint, ?_, hci, hperm, ?_, ?_, ?_⟩
  · rw [hperm.length_eq, make_leaves_length]
  · rw [ht]; exact hsym.nodup_iff.mpr (symbols_nodup.filter _)
  · intro x
    rw [ht, hsym.mem_iff, mem_filter_symbols]
  · intro t htm
    have := hperm.mem_iff.mp htm
    simp only [make_leaves, List.mem_map] at this
    obtain ⟨i, hi, rfl⟩ := this
    exact ⟨i, (mem_filter_symbols F i).mp hi, rfl⟩

theorem tree_shape_witness :
    2 ≤ count_unique (count_frequencies aaaabbc) ∧
      count_internal (build_huffman_tree (make_leaves (count_frequencies aaaabbc)))
        = count_unique (count_frequencies aaaabbc) - 1 :=
  ⟨aaaabbc_two, (tree_shape (count_frequencies aaaabbc) aaaabbc_two).2.2.2.1⟩

/-- Claim C19: for the tree built from a table with at least two nonzero entries,
`generate_codes` records for a symbol exactly the edge labels of the path from the root
to the leaf of that symbol: `bits` is the code of `s` if and only if walking `bits` from
the root ends on the leaf of `s`; the walk meets a node with children after every proper
prefix, and the decoding loop emits `s` at the last bit.  For the one-leaf tree the code
of the symbol is the single left edge. -/
theorem codes_are_paths (F : FreqTable) (h2 : 2 ≤ count_unique F) :
    build_huffman_dictionary F
        = generate_codes (build_huffman_tree (make_leaves F)) [] (fun _ => none) ∧
    (∀ s bits, build_huffman_dictionary F s = some bits
      ↔ IsPath (build_huffman_tree (make_leaves F)) bits s) ∧
    (∀ s bits, build_huffman_dictionary F s = some bits →
      subtree (build_huffman_tree (make_leaves F)) bits = create_node s (F s) ∧
      (∀ p e, bits = p ++ e → e ≠ [] →
        is_leaf (subtree (build_huffman_tree (make_leaves F)) p) = false ∧
        subtree (build_huffman_tree (make_leaves F)) p ≠ .null) ∧
      (∀ total d o, d < total →
        decode_bits (build_huffman_tree (make_leaves F)) total bits
            { current := build_huffman_tree (make_leaves F), decoded := d, out := o }
          = some { current := build_huffman_tree (make_leaves F), decoded := d + 1,
                   out := o ++ [s] })) ∧
    (∀ (v : Byte) (f : Nat),
      generate_codes (build_huffman_tree [create_node v f]) [] (fun _ => none)
        = Function.update (fun _ => none) v (some [false]) ∧
      IsPath (build_huffman_tree [create_node v f]) [false] v) := by
  obtain ⟨_, _, _, _, ht, _, _, _, hd, _, hnz⟩ := dictionary_many F h2
  refine ⟨by rw [hd, ht], dictionary_iff_path F h2, ?_, ?_⟩
  · intro s bits hb
    have hp := (dictionary_iff_path F h2 s bits).mp hb
    refine ⟨leaf_of_path F h2 s bits hp, ?_, ?_⟩
    · intro p e hpe he
      rw [hpe] at hp
      obtain ⟨sy, f, l, r, hsub, hlr⟩ := IsPath.before_end p e _ hp he
      rw [hsub]
      refine ⟨?_, by simp⟩
      cases l with
      | null =>
        cases r with
        | null => simp at hlr
        | mk _ _ _ _ => rfl
      | mk _ _ _ _ => rfl
    · intro total d o hd'
      have hne : bits ≠ [] := by
        have hF : F s ≠ 0 := by
          intro e
          obtain ⟨_, _, _, _, _, _, _, _, _, hz, _⟩ := dictionary_many F h2
          rw [hz s e] at hb; cases hb
        obtain ⟨b', hb', _, hne'⟩ := hnz s hF
        rw [hb'] at hb; cases hb; exact hne'
      have := decode_bits_path (build_huffman_tree (make_leaves F)) total hp hne [] d o hd'
      rw [List.append_nil] at this
      rw [this]; rfl
  · intro v f
    constructor
    · simp [build_huffman_tree, create_node, generate_codes]
    · exact IsPath.left _ _ _ _ _ _ (IsPath.here v f)

theorem codes_are_paths_witness :
    2 ≤ count_unique (count_frequencies aaaabbc) ∧
      IsPath (build_huffman_tree (make_leaves (count_frequencies aaaabbc))) [false, true] 98 :=
  ⟨aaaabbc_two,
    ((codes_are_paths (count_frequencies aaaabbc) aaaabbc_two).2.1 98 [false, true]).mp
      aaaabbc_codes.2.1⟩

/-- Claim C20: in an iteration of the merge loop on `n + 2` nodes the two nodes merged are
the first two of the sorted working set, `left.freq ≤ right.freq ≤` every other
frequency; the new node has the 32-bit sum of their frequencies and the two as children,
and the working set has one node less.  A run on `n + 1` full trees ends with one tree
after adding exactly `n` nodes with children, so `k - 1` merges for `k` leaves, and the
frequency of the root is the sum of the leaf frequencies modulo `2 ^ 32`. -/
theorem greedy_merge :
    (∀ (n : Nat) (nodes : List Node), nodes.length = n + 2 →
      ∃ left right rest, sort_nodes nodes (n + 2) = left :: right :: rest ∧
        (left :: right :: rest).Perm nodes ∧ left.freq ≤ right.freq ∧
        (∀ t ∈ rest, right.freq ≤ t.freq) ∧
        merge_loop (n + 2) nodes
          = merge_loop (n + 1)
              (Node.mk 0 ((left.freq + right.freq) % U32) left right :: rest) ∧
        (Node.mk 0 ((left.freq + right.freq) % U32) left right :: rest).length = n + 1) ∧
    (∀ (n : Nat) (nodes : List Node), nodes.length = n + 1 → (∀ t ∈ nodes, Full t) →
      ∃ t, merge_loop (n + 1) nodes = [t] ∧
        count_internal t = (nodes.map count_internal).sum + n ∧
        t.freq % U32 = (nodes.map Node.freq).sum % U32 ∧ (1 ≤ n → t.freq < U32)) ∧
    (∀ F : FreqTable, 2 ≤ count_unique F →
      count_internal (build_huffman_tree (make_leaves F)) = count_unique F - 1 ∧
      (build_huffman_tree (make_leaves F)).freq = (symbols.map F).sum % U32 ∧
      ((symbols.map F).sum < U32 →
        (build_huffman_tree (make_leaves F)).freq = (symbols.map F).sum)) := by
  refine ⟨merge_loop_step, ?_, ?_⟩
  · intro n nodes hlen hfull
    obtain ⟨t, ht, _, _, hci, hfreq, hlt⟩ := merge_loop_shape n nodes hlen hfull
    exact ⟨t, ht, hci, hfreq, hlt⟩
  · intro F h2
    obtain ⟨_, _, hci, hfreq⟩ := build_huffman_tree_shape F h2
    have hs : total_symbols F = (symbols.map F).sum := by
      unfold total_symbols; exact sum_map_filter_pos F symbols
    rw [hs] at hfreq
    exact ⟨hci, hfreq, fun h => by rw [hfreq, Nat.mod_eq_of_lt h]⟩

theorem greedy_merge_witness :
    2 ≤ count_unique (count_frequencies aaaabbc) ∧
      (build_huffman_tree (make_leaves (count_frequencies aaaabbc))).freq
        = (symbols.map (count_frequencies aaaabbc)).sum :=
  ⟨aaaabbc_two, (greedy_merge.2.2 (count_frequencies aaaabbc) aaaabbc_two).2.2 aaaabbc_sum⟩

/-- Claim C21: on an array of `n` nodes `sort_nodes` returns a permutation of the array
that is in non-decreasing order of frequency, and it is stable: for every frequency the
nodes of that frequency stand in the order they had before the call, so two nodes of
equal frequency of which one came before the other still come in that order. -/
theorem stable_selection (nodes : List Node) :
    (sort_nodes nodes nodes.length).Perm nodes ∧
      SortedByFreq (sort_nodes nodes nodes.length) ∧
      (∀ f : Nat, (sort_nodes nodes nodes.length).filter (fun t => decide (t.freq = f))
          = nodes.filter (fun t => decide (t.freq = f))) ∧
      (∀ P X : Node, List.Sublist [P, X] nodes → P.freq = X.freq →
        List.Sublist [P, X] (sort_nodes nodes nodes.length)) :=
  ⟨sort_nodes_perm _ _, sort_nodes_sorted _, fun f => sort_nodes_stable f _ _,
    fun P X h hf => sort_nodes_keeps_order _ _ P X h hf⟩

theorem stable_selection_witness :
    List.Sublist [create_node 1 5, create_node 3 5]
        [create_node 1 5, create_node 2 3, create_node 3 5] ∧
      List.Sublist [create_node 1 5, create_node 3 5]
        (sort_nodes [create_node 1 5, create_node 2 3, create_node 3 5] 3) :=
  ⟨(List.Sublist.refl _).cons₂ _ |>.cons _ |>.cons₂ _,
    (stable_selection [create_node 1 5, create_node 2 3, create_node 3 5]).2.2.2
      (create_node 1 5) (create_node 3 5)
      ((List.Sublist.refl _).cons₂ _ |>.cons _ |>.cons₂ _) rfl⟩

/-- Claim C22: for a frequency table with `k ≥ 2` nonzero entries every code that
`build_huffman_dictionary` returns has at least 1 and at most `k - 1` bits, hence at most
255; with `k = 1` the code has exactly 1 bit; and on the tree of any table every index of
the path buffer that `generate_codes` writes, the index `depth` of the terminating zero
included, is below 257. -/
theorem code_length_bounds (F : FreqTable) :
    (2 ≤ count_unique F → ∀ s bits, build_huffman_dictionary F s = some bits →
        1 ≤ bits.length ∧ bits.length ≤ count_unique F - 1 ∧ bits.length ≤ 255) ∧
    (count_unique F = 1 → ∀ s bits, build_huffman_dictionary F s = some bits →
        bits.length = 1) ∧
    (∀ i ∈ buffer_writes (build_huffman_tree (make_leaves F)) 0, i < 257) := by
  have hk := count_unique_le F
  refine ⟨?_, ?_, tree_writes_lt F⟩
  · intro h2 s bits h
    obtain ⟨h1, h3⟩ := dictionary_length_le F h2 s bits h
    exact ⟨h1, h3, by omega⟩
  · intro h1 s bits h
    obtain ⟨v, _, _, hd⟩ := dictionary_one F h1
    rw [hd] at h
    by_cases e : s = v
    · rw [e, Function.update_same] at h
      cases h; rfl
    · rw [Function.update_noteq e] at h
      cases h

theorem code_length_bounds_witness :
    2 ≤ count_unique (count_frequencies aaaabbc) ∧
      (1 ≤ [false, true].length ∧
        [false, true].length ≤ count_unique (count_frequencies aaaabbc) - 1 ∧
        [false, true].length ≤ 255) :=
  ⟨aaaabbc_two,
    (code_length_bounds (count_frequencies aaaabbc)).1 aaaabbc_two 98 [false, true]
      aaaabbc_codes.2.1⟩

/-- Claim C23: for a header table with at least two nonzero entries and any payload, every
node from which the decoding loop takes the step `current = bit ? current->right :
current->left` has two children, the loop takes at most `8 * (number of payload bytes)`
steps, one for each bit it reads, and it ends without dereferencing `NULL`; so does
`decode_file` on a file with that header and payload. -/
theorem cursor_never_null (F : FreqTable) (h2 : 2 ≤ count_unique F) (payload : List Byte) :
    (∀ c ∈ decode_cursors (decode_tree F) (total_symbols F) (unpack_bits payload)
          (decode_start (decode_tree F)),
        ∃ s f l r, c = .mk s f l r ∧ l ≠ .null ∧ r ≠ .null) ∧
    (decode_cursors (decode_tree F) (total_symbols F) (unpack_bits payload)
        (decode_start (decode_tree F))).length ≤ 8 * payload.length ∧
    decode_loop (decode_tree F) (total_symbols F) payload (decode_start (decode_tree F))
      = decode_bits (decode_tree F) (total_symbols F) (unpack_bits payload)
          (decode_start (decode_tree F)) ∧
    (∃ st, decode_loop (decode_tree F) (total_symbols F) payload
        (decode_start (decode_tree F)) = some st) ∧
    ((∀ i, F i < U32) → ∃ r, decode_file (write_header F ++ payload) = some r) := by
  have hroot := decode_tree_internal F h2
  obtain ⟨h3, h4⟩ := decode_cursors_internal (decode_tree F) hroot (total_symbols F)
    (unpack_bits payload) (decode_start (decode_tree F)) hroot
  obtain ⟨st, hst, _⟩ := decode_loop_total F h2 payload
  refine ⟨fun c hc => internal_children (h3 c hc), ?_, decode_loop_eq_bits _ _ _ _,
    ⟨st, hst⟩, ?_⟩
  · rw [← unpack_bits_length]; exact h4
  · intro hF
    rw [decode_file_loop F hF h2 payload, hst]
    exact ⟨_, rfl⟩

theorem cursor_never_null_witness :
    2 ≤ count_unique (count_frequencies aaaabbc) ∧
      ∃ st, decode_loop (decode_tree (count_frequencies aaaabbc))
        (total_symbols (count_frequencies aaaabbc)) [255, 255, 255]
        (decode_start (decode_tree (count_frequencies aaaabbc))) = some st :=
  ⟨aaaabbc_two, (cursor_never_null (count_frequencies aaaabbc) aaaabbc_two [255, 255, 255]).2.2.2.1⟩

/-- Claim C24: a newly merged node is stored at index 0 of the working set, so after the
next stable sort the nodes of its frequency are the merged node followed by the others:
it is selected before all of them, and if the lightest frequency is its own it is the
left child of the next merge.  The order of two nodes of equal frequency is kept by every
later sort and by the shift of the working set, and when the two are merged the earlier
one is the left child.  For the table `a:1, b:1, c:2` the left child of the root is the
merged node of `a` and `b`, the right child is `c`, and the codes are `00`, `01`, `1`. -/
theorem merged_tie_break :
    (∀ (parent : Node) (rest : List Node),
      (sort_nodes (parent :: rest) (rest.length + 1)).filter
          (fun t => decide (t.freq = parent.freq))
        = parent :: rest.filter (fun t => decide (t.freq = parent.freq))) ∧
    (∀ (parent : Node) (rest : List Node) (l : Node) (tail : List Node),
      sort_nodes (parent :: rest) (rest.length + 1) = l :: tail →
      l.freq = parent.freq → l = parent) ∧
    (∀ (nodes : List Node) (P X : Node), List.Sublist [P, X] nodes → P.freq = X.freq →
      List.Sublist [P, X] (sort_nodes nodes nodes.length) ∧
      (∀ l r tail, sort_nodes nodes nodes.length = l :: r :: tail → P ≠ l → P ≠ r →
        ∀ merged : Node, List.Sublist [P, X] (merged :: tail)) ∧
      (nodes.Nodup → ∀ l tail, sort_nodes nodes nodes.length = l :: X :: tail → l = P)) ∧
    build_huffman_tree (make_leaves abc_table)
      = .mk 0 4 (.mk 0 2 (.mk 97 1 .null .null) (.mk 98 1 .null .null))
          (.mk 99 2 .null .null) ∧
    build_huffman_dictionary abc_table 97 = some [false, false] ∧
    build_huffman_dictionary abc_table 98 = some [false, true] ∧
    build_huffman_dictionary abc_table 99 = some [true] := by
  refine ⟨?_, ?_, ?_, abc_tree, abc_codes.1, abc_codes.2.1, abc_codes.2.2⟩
  · intro parent rest
    rw [sort_nodes_stable, List.filter_cons]
    simp
  · intro parent rest l tail h hf
    exact sort_nodes_head parent rest _ l tail h hf
  · intro nodes P X h hf
    have hs := sort_nodes_keeps_order nodes nodes.length P X h hf
    refine ⟨hs, ?_, ?_⟩
    · intro l r tail e hl hr merged
      rw [e] at hs
      exact (sublist_pair_rest P X l r tail hs hl hr).cons _
    · intro hnd l tail e
      rw [e] at hs
      have hnd2 : (l :: X :: tail).Nodup := by
        rw [← e]
        exact (sort_nodes_perm nodes nodes.length).nodup_iff.mpr hnd
      exact sublist_pair_second P X l tail hnd2 hs

theorem merged_tie_break_witness :
    sort_nodes [Node.mk 0 2 (create_node 97 1) (create_node 98 1), create_node 99 2] 2
        = [Node.mk 0 2 (create_node 97 1) (create_node 98 1), create_node 99 2] ∧
      (Node.mk 0 2 (create_node 97 1) (create_node 98 1)).freq = (create_node 99 2).freq ∧
      Node.mk 0 2 (create_node 97 1) (create_node 98 1)
        = Node.mk 0 2 (create_node 97 1) (create_node 98 1) :=
  ⟨rfl, rfl,
    merged_tie_break.2.1 (Node.mk 0 2 (create_node 97 1) (create_node 98 1))
      [create_node 99 2] (Node.mk 0 2 (create_node 97 1) (create_node 98 1))
      [create_node 99 2] rfl rfl⟩

/-- Claim C25: for a frequency table with at least two nonzero entries whose entries sum
to less than `2 ^ 32`, the code table of `build_huffman_dictionary` is itself a
prefix-free assignment to the symbols with nonzero frequency, and the sum over the symbols
of `F[s]` times the length of its code is at most that sum for every prefix-free
assignment of bit-strings to the symbols with nonzero frequency. -/
theorem huffman_optimal (F : FreqTable) (h2 : 2 ≤ count_unique F)
    (hsum : (symbols.map F).sum < U32) :
    PrefixFreeOn (symbols.filter (fun i => F i ≠ 0))
      (fun s => (build_huffman_dictionary F s).getD []) ∧
    ∀ C : Byte → List Bool, PrefixFreeOn (symbols.filter (fun i => F i ≠ 0)) C →
      encoded_length F (fun s => ((build_huffman_dictionary F s).getD []).length)
        ≤ encoded_length F (fun s => (C s).length) := by
  refine ⟨dictionary_prefix_free_on F, ?_⟩
  intro C hpf
  exact dictionary_cost_le F h2 (by rw [total_symbols_eq_sum]; exact hsum) _
    (kraft_of_code _ (symbols_nodup.filter _) C hpf)

theorem huffman_optimal_witness :
    2 ≤ count_unique (count_frequencies aaaabbc) ∧
      (symbols.map (count_frequencies aaaabbc)).sum < U32 ∧
      PrefixFreeOn (symbols.filter (fun i => count_frequencies aaaabbc i ≠ 0)) example_code ∧
      encoded_length (count_frequencies aaaabbc)
          (fun s => ((build_huffman_dictionary (count_frequencies aaaabbc) s).getD []).length)
        ≤ encoded_length (count_frequencies aaaabbc) (fun s => (example_code s).length) :=
  ⟨aaaabbc_two, aaaabbc_sum, example_code_free,
    (huffman_optimal (count_frequencies aaaabbc) aaaabbc_two aaaabbc_sum).2 example_code
      example_code_free⟩

/-- Claim C26: for a byte sequence `S` of length less than `2 ^ 32`, empty or not, what
`encode_file` writes after the header is the packed code bits of `S`; the number of code
bits is at most `8 * length(S)` and the number of payload bytes is at most the length of
`S`. -/
theorem payload_not_longer (S : List Byte) (hlen : S.length < U32) :
    ∃ payload, (encode_file S).container = write_header (count_frequencies S) ++ payload ∧
      payload = pack_bits
        (S.flatMap (fun c => (build_huffman_dictionary (count_frequencies S) c).getD [])) ∧
      (S.flatMap (fun c => (build_huffman_dictionary (count_frequencies S) c).getD [])).length
        ≤ 8 * S.length ∧
      payload.length ≤ S.length := by
  have hc : ∀ b, S.count b < U32 := fun b => lt_of_le_of_lt (List.count_le_length _ _) hlen
  have hb := encoded_bits_le S hlen
  refine ⟨_, ?_, rfl, hb, ?_⟩
  · rw [encode_file_of_codes S (codes_of_count S hc)]
  · rw [pack_bits_length]
    omega

theorem payload_not_longer_witness :
    aaaabbc.length < U32 ∧
      ∃ payload, (encode_file aaaabbc).container
          = write_header (count_frequencies aaaabbc) ++ payload ∧
        payload = pack_bits (aaaabbc.flatMap
          (fun c => (build_huffman_dictionary (count_frequencies aaaabbc) c).getD [])) ∧
        (aaaabbc.flatMap
          (fun c => (build_huffman_dictionary (count_frequencies aaaabbc) c).getD [])).length
          ≤ 8 * aaaabbc.length ∧
        payload.length ≤ aaaabbc.length :=
  ⟨by decide, payload_not_longer aaaabbc (by decide)⟩

end Huffman
